import Mathlib

/-!
# A verification model of the troza store engine (`src/index.ts`)

This file gives a shallow embedding of the runtime behaviour of the store
engine and proves the behavioural properties claimed by its specification.

The embedding has three parts:

* **Tree model** (`JVal`, `MutCache`, `StoreSt`, …): JavaScript objects are
  modelled as finite trees whose nodes carry a numeric identity (standing for
  the object reference) and an ordered list of data properties
  `(name, value, writable, configurable)`.  `Object.is` on two values is
  identity of tags for objects and value equality for primitives.  This part
  models `getFlushed`, `flushMutations`, `setState`, `markDirty`,
  `unlinkCache`, the proxy `get`/`set` traps of `createHandler`, and `act`.
* **Computed cache model** (`isChangedA`, `readComputed`): the dependency
  tracking of the `proxy-compare` package (a dependency of the repository,
  whose sources are not part of it) is modelled from the specification of the
  access-tracking engine; the cache-consultation logic around it is modelled
  from `snapshotComputedState`.
* **Heap model** (`Heap`, `readonlyH`, `untrackH`): for the two utilities
  whose contract explicitly involves cyclic object graphs (`readonly` and
  `untrack`), objects are modelled as a heap of numbered nodes so that
  reference cycles are representable.
-/

set_option autoImplicit false
set_option maxRecDepth 8000

namespace Troza

/-! ## JavaScript values as identity-tagged trees

A `JVal` is a primitive (compared by value, as `Object.is` does) or an object
carrying its identity tag and its ordered own data properties.  A property is
`(name, value, writable, configurable)`; every property in the modelled
fragment is a data property and is enumerable (the engine only ever deals
with plain objects and arrays built from object/array literals, whose
properties are all enumerable data properties). -/

inductive JVal : Type where
  | prim : Int → JVal
  | obj : Nat → List (String × JVal × Bool × Bool) → JVal
  deriving Repr

abbrev JField : Type := String × JVal × Bool × Bool
abbrev JFields : Type := List JField

namespace JVal

/-- `Object.is` (also `===` on the modelled fragment: the primitives are
integers, so the `NaN`/`-0` corner cases do not arise). Two objects are the
same reference exactly when they carry the same identity tag. -/
def is : JVal → JVal → Bool
  | .prim a, .prim b => a == b
  | .obj i _, .obj j _ => i == j
  | _, _ => false

@[simp] theorem is_refl (v : JVal) : v.is v = true := by
  cases v <;> simp [is]

/-- The identity tag of an object (`none` for primitives). -/
def objId : JVal → Option Nat
  | .prim _ => none
  | .obj i _ => some i

/-- The own properties of a value (primitives have none). -/
def fieldsOf : JVal → JFields
  | .prim _ => []
  | .obj _ fs => fs

end JVal

/-- First property with the given name: `(value, writable, configurable)`. -/
def findField : JFields → String → Option (JVal × Bool × Bool)
  | [], _ => none
  | (n, v, w, c) :: rest, k => if n = k then some (v, w, c) else findField rest k

/-- `key in obj` on own properties. -/
def hasFieldB (fs : JFields) (k : String) : Bool :=
  (findField fs k).isSome

/-- The value stored at a top-level key (used to state what a snapshot holds). -/
def topLookup (v : JVal) (k : String) : Option JVal :=
  (findField v.fieldsOf k).map (·.1)

mutual

/-- All identity tags occurring in a value (the object and, transitively, all
objects reachable from it). -/
def JVal.nodeIds : JVal → List Nat
  | .prim _ => []
  | .obj i fs => i :: fieldsIds fs

def JVal.fieldsIds : JFields → List Nat
  | [] => []
  | (_, v, _, _) :: rest => v.nodeIds ++ fieldsIds rest

end

/-! ## Association-list utilities

The engine keeps several `WeakMap`s/`Map`s; they are modelled as association
lists where an update replaces the entry in place (preserving insertion
order, as JavaScript records and maps do) and otherwise appends. -/

namespace AList

variable {κ α : Type} [BEq κ]

def get : List (κ × α) → κ → Option α
  | [], _ => none
  | (k, a) :: rest, k' => if k == k' then some a else get rest k'

def set : List (κ × α) → κ → α → List (κ × α)
  | [], k', a' => [(k', a')]
  | (k, a) :: rest, k', a' =>
    if k == k' then (k, a') :: rest else (k, a) :: set rest k' a'

def removeKey : List (κ × α) → κ → List (κ × α)
  | [], _ => []
  | (k, a) :: rest, k' => if k == k' then rest else (k, a) :: removeKey rest k'

end AList

/-! ## The mutation cache

`mutationCache` maps a target object to its pending operations: per key a
`["set", value]` or `["del"]` record, plus the `DIRTY_SYMBOL` flag (a symbol
key, disjoint from all string keys, modelled as the separate `dirty` field).
-/

inductive MutOp : Type where
  | setv : JVal → MutOp
  | del : MutOp
  deriving Repr

structure MutEntry : Type where
  dirty : Bool
  muts : List (String × MutOp)
  deriving Repr

abbrev MutCache : Type := List (Nat × MutEntry)

def MutCache.find (mc : MutCache) (i : Nat) : Option MutEntry :=
  AList.get mc i

def findMut (ms : List (String × MutOp)) (k : String) : Option MutOp :=
  AList.get ms k

mutual

/-- `readonly(value, true)` on an acyclic value (the tree restriction of the
`readonly` utility; the cyclic general case is modelled separately on the heap
model below, where the `visited` set matters).  For every property: a
non-configurable property is skipped entirely (`if (!desc.configurable)
continue`), otherwise the value is recursively frozen first (`canProxy`
values only — every object of the tree model is a plain object) and then the
property is made non-writable. -/
def readonlyT : JVal → JVal
  | .prim n => .prim n
  | .obj i fs => .obj i (readonlyFields fs)

def readonlyFields : JFields → JFields
  | [] => []
  | (n, v, w, c) :: rest =>
    if c then
      (n, readonlyT v, false, c) :: readonlyFields rest
    else
      (n, v, w, c) :: readonlyFields rest

end

@[simp] theorem readonlyT_prim (n : Int) : readonlyT (.prim n) = .prim n := rfl

/-- The pass over mutation keys that are not own keys of the object. -/
def newMutFields (fs : JFields) : List (String × MutOp) → JFields
  | [] => []
  | (k, op) :: rest =>
    if hasFieldB fs k then newMutFields fs rest
    else
      match op with
      | .setv v => (k, readonlyT v, false, true) :: newMutFields fs rest
      | .del => newMutFields fs rest

/-! ## `getFlushed`

`getFlushed(obj)` materializes the pending mutations of `obj` into a fresh
object.  On the tree model:

* a value with no `mutationCache` entry is returned as is (by reference);
* a dirty entry produces a fresh object (`Array.isArray` branch aside: the
  modelled objects are records) whose identity is `i + off` where `off` is a
  store counter strictly larger than every live identity, so the copy is a
  new reference;
* the key loop runs over `new Set(ownKeys(obj).concat(ownKeys(mutations)))`:
  first the object's own keys (a pending `set` replaces the value with
  `readonly(value, true)` keeping the original descriptor, a pending `del`
  drops the key, an untouched configurable key recurses, a non-configurable
  key is copied without recursion), then the mutation keys that are not own
  keys of the object (a `set` defines a fresh
  `{ value, enumerable: true, configurable: true }` property — `writable`
  omitted, hence `false`; a `del` on an absent key does nothing).

The source's `flushCache`/`DIRTY_SYMBOL`-clearing branch is memoization for
objects encountered twice during one flush; a tree is traversed at most once
per node and every `mutationCache` entry is dirty when `flushMutations` runs
(`markDirty` runs whenever an entry is created), so the not-dirty branch is
unreachable in the runs modelled here and returns the object unchanged. -/

mutual

def getFlushed (mc : MutCache) (off : Nat) : JVal → JVal
  | .prim n => .prim n
  | .obj i fs =>
    match MutCache.find mc i with
    | none => .obj i fs
    | some e =>
      if e.dirty then
        .obj (i + off) (flushFields mc off fs e.muts ++ newMutFields fs e.muts)
      else .obj i fs

/-- The pass over the object's own keys. -/
def flushFields (mc : MutCache) (off : Nat) : JFields → List (String × MutOp) → JFields
  | [], _ => []
  | (n, v, w, c) :: rest, ms =>
    match findMut ms n with
    | some (.setv v') => (n, readonlyT v', w, c) :: flushFields mc off rest ms
    | some .del => flushFields mc off rest ms
    | none =>
      (n, if c then getFlushed mc off v else v, w, c) :: flushFields mc off rest ms

end

/-! ## The store state

`StoreSt` collects the mutable variables captured by the `create` closure
that the modelled operations interact with:

* `state` — `_state`, the current published state;
* `snap` — `_computedState`, the snapshot returned by `$get` (built by
  `snapshotComputedState`, which spreads the state into a fresh object and
  installs the computed getters on it — the computed getters are modelled
  separately, see `readComputed`);
* `inAction`, `mc` — the `inAction` flag and `mutationCache`;
* `children`, `parents` — `childrenCache` and `parentsCache`;
* `log` — the observable notification history: `setState` appends one
  `(newComputedState, prevComputedState)` pair per listener round
  (`for (const listener of listeners) listener(_computedState, prevState)`);
* `nextId` — a counter strictly above every live identity tag, the model's
  source of fresh object identities. -/

structure StoreSt : Type where
  state : JVal
  snap : JVal
  inAction : Bool
  mc : MutCache
  children : List (Nat × List (String × Nat))
  parents : List (Nat × List Nat)
  log : List (JVal × JVal)
  nextId : Nat
  deriving Repr

/-- `snapshotComputedState`'s data part: `{ ...state }` — a fresh object
(identity `n`) whose own enumerable properties are copied from the state;
spread-created properties are writable and configurable. -/
def mkSnapshot (s : JVal) (n : Nat) : JVal :=
  .obj n (s.fieldsOf.map fun f => (f.1, f.2.1, true, true))

/-- `setState`: no-op when the new state is `Object.is`-identical to
`_state`; otherwise replace the state, rebuild `_computedState`, and notify
every listener once with `(newState, prevState)`. -/
def setState (st : StoreSt) (s : JVal) : StoreSt :=
  if JVal.is s st.state then st
  else
    let snap := mkSnapshot s st.nextId
    { st with
      state := s
      snap := snap
      nextId := st.nextId + 1
      log := st.log ++ [(snap, st.snap)] }

/-- `flushMutations`: when the root state has a pending entry, publish
`getFlushed()` and reset the mutation cache.  (`WeakMap.has` on a primitive
is `false`, hence the `objId` match.) -/
def flushMutations (st : StoreSt) : StoreSt :=
  match st.state.objId with
  | none => st
  | some i =>
    if (MutCache.find st.mc i).isSome then
      let s' := getFlushed st.mc st.nextId st.state
      let st' := setState { st with nextId := 2 * st.nextId } s'
      { st' with mc := [] }
    else st

/-- `$get`. -/
def storeGet (st : StoreSt) : JVal :=
  st.snap

/-- `$set` with a plain new state (the non-function overload). -/
def storeSet (st : StoreSt) (s : JVal) : StoreSt :=
  setState st s

/-- The store as freshly constructed by `create`: state published, snapshot
built, no action in flight, all caches empty (`n` must exceed every identity
tag of `s`). -/
def StoreSt.fresh (s : JVal) (n : Nat) : StoreSt :=
  { state := s
    snap := mkSnapshot s n
    inAction := false
    mc := []
    children := []
    parents := []
    log := []
    nextId := n + 1 }

/-! ## `unlinkCache`, `markDirty` and the proxy traps -/

/-- `unlinkCache(target, prop)`: drop the child link recorded for `prop` on
`target` and remove `target` from that child's parent set. -/
def unlinkCache (st : StoreSt) (tid : Nat) (k : String) : StoreSt :=
  match AList.get st.children tid with
  | none => st
  | some chs =>
    match AList.get chs k with
    | none => st
    | some cid =>
      let children' := AList.set st.children tid (AList.removeKey chs k)
      let parents' :=
        match AList.get st.parents cid with
        | none => st.parents
        | some ps => AList.set st.parents cid (ps.filter (fun x => x ≠ tid))
      { st with children := children', parents := parents' }

/-- The recorded parents of an object (empty when none were recorded). -/
def parentsOfD (ps : List (Nat × List Nat)) (i : Nat) : List Nat :=
  (AList.get ps i).getD []

/-- One step of the parent-closure computation: append the parents of the
members that are not yet in the set. -/
def closureStep (ps : List (Nat × List Nat)) (s : List Nat) : List Nat :=
  s ++ ((s.flatMap (parentsOfD ps)).filter (fun x => !s.contains x)).dedup

/-- Iteration bound that reaches the fixpoint of `closureStep`: every id the
closure can ever acquire occurs in some recorded parent list. -/
def closureBound (ps : List (Nat × List Nat)) : Nat :=
  (ps.flatMap Prod.snd).length + 1

/-- The set of objects `markDirty(target)` reaches: `target` itself plus the
transitive parents recorded in `parentsCache`.  (The source recursion has no
visited set and does not terminate on a cyclic parent graph; on the acyclic
graphs the engine builds, the bounded iteration computes exactly the set the
recursion visits.) -/
def dirtyClosure (ps : List (Nat × List Nat)) (t : Nat) : List Nat :=
  (closureStep ps)^[closureBound ps] [t]

/-- `markDirty` on one object: create its `mutationCache` entry if needed and
raise its `DIRTY_SYMBOL` flag. -/
def ensureDirtyEntry (mc : MutCache) (i : Nat) : MutCache :=
  match MutCache.find mc i with
  | none => AList.set mc i { dirty := true, muts := [] }
  | some e => AList.set mc i { dirty := true, muts := e.muts }

/-- `markDirty(target)`: flag the target and, transitively, every recorded
parent. -/
def markDirty (st : StoreSt) (tid : Nat) : StoreSt :=
  { st with mc := (dirtyClosure st.parents tid).foldl ensureDirtyEntry st.mc }

/-- What the proxy `get` trap hands back. -/
inductive GotVal : Type where
  | plain : JVal → GotVal
  | proxied : JVal → GotVal
  | undef : GotVal
  deriving Repr

/-- The `get` trap of `createHandler(target)`:

* a key with no pending mutation falls through to the target; `canProxy`
  children (every object of the tree model) are linked into
  `childrenCache`/`parentsCache` and returned behind a proxy, primitives are
  returned as plain values;
* a pending `["set", v]` returns `v` itself (raw, unproxied, no link
  registered); a pending `["del"]` returns `undefined`.

(The accessor early-return of the source trap concerns non-configurable
getter properties, which the modelled data-only objects do not have.) -/
def trapGet (st : StoreSt) (t : JVal) (k : String) : StoreSt × GotVal :=
  match t with
  | .prim _ => (st, .undef)
  | .obj i fs =>
    let pending :=
      match MutCache.find st.mc i with
      | none => none
      | some e => findMut e.muts k
    match pending with
    | some (.setv v) => (st, .plain v)
    | some .del => (st, .undef)
    | none =>
      match findField fs k with
      | none => (st, .undef)
      | some (v, _, _) =>
        match v with
        | .prim p => (st, .plain (.prim p))
        | .obj ci cfs =>
          let chs := (AList.get st.children i).getD []
          let children' := AList.set st.children i (AList.set chs k ci)
          let pars := (AList.get st.parents ci).getD []
          let parents' :=
            AList.set st.parents ci (if pars.contains i then pars else pars ++ [i])
          ({ st with children := children', parents := parents' }, .proxied (.obj ci cfs))

/-- The body of the trap's `setValue` helper: unlink the cached child for the
key, record the `["set", value]` mutation (keeping the entry's dirty state:
the record object is updated in place), mark the target dirty, and — outside
an action — flush immediately. -/
def setValue (st : StoreSt) (i : Nat) (e : MutEntry) (k : String) (v : JVal) : StoreSt :=
  let st1 := unlinkCache st i k
  let st2 := { st1 with mc := AList.set st1.mc i { dirty := e.dirty, muts := AList.set e.muts k (.setv v) } }
  let st3 := markDirty st2 i
  if st3.inAction then st3 else flushMutations st3

/-- The `set` trap of `createHandler(target)`.  Returns the updated store and
the trap's boolean result (`false` = the write is rejected; the proxy
protocol reports this to the caller without the handler recording anything).

Branch order follows the source: (1) an existing non-writable,
non-configurable own property rejects the write; (2) a pending `set` with an
`Object.is`-identical value is a no-op; (3) otherwise a pending mutation is
overwritten; (4) with no pending mutation, a write of the value the target
already holds (`desc.value === value`) is a no-op; (5) otherwise the write is
recorded.  (The accessor branch between (3) and (4) concerns getter/setter
properties, which the modelled data-only objects do not have.) -/
def trapSet (st : StoreSt) (t : JVal) (k : String) (v : JVal) : StoreSt × Bool :=
  match t with
  | .prim _ => (st, false)
  | .obj i fs =>
    let desc := findField fs k
    if (match desc with | some (_, w, c) => !w && !c | none => false) = true then
      (st, false)
    else
      let e := (MutCache.find st.mc i).getD { dirty := false, muts := [] }
      match findMut e.muts k with
      | some (.setv pv) =>
        if JVal.is pv v then (st, true) else (setValue st i e k v, true)
      | some .del => (setValue st i e k v, true)
      | none =>
        match desc with
        | some (v0, _, _) =>
          if JVal.is v0 v then (st, true) else (setValue st i e k v, true)
        | none => (setValue st i e k v, true)

/-! ## Actions

An action body is modelled as a sequence of primitive effects against the
store: draft writes (`this.p1.….pn.k = v`, i.e. a chain of proxy `get`s
followed by one proxy `set`) and synchronous calls of other actions (which go
through `act` again).  `resolveWrite` performs the `get` chain; the modelled
fragment is paths that traverse snapshot objects (a `get` that hits a pending
`set` mutation returns the written value raw, and JavaScript then mutates
that raw object directly without involving the engine — no claim below needs
that case, and the harness treats such a write as outside its fragment). -/

def resolveFrom (st : StoreSt) (cur : JVal) : List String → StoreSt × Option JVal
  | [] => (st, some cur)
  | seg :: rest =>
    match trapGet st cur seg with
    | (st', .proxied child) => resolveFrom st' child rest
    | (st', _) => (st', none)

/-- Resolve a write path starting from the root state proxy
(`Reflect.set(proxy(_state), prop, value)` for the empty path). -/
def resolveWrite (st : StoreSt) (path : List String) : StoreSt × Option JVal :=
  resolveFrom st st.state path

inductive Step : Type where
  | swrite : List String → String → JVal → Step
  | scall : List Step → Step

mutual

def runStep (st : StoreSt) : Step → StoreSt
  | .swrite path k v =>
    match resolveWrite st path with
    | (st', some t) => (trapSet st' t k v).1
    | (st', none) => st'
  | .scall body => actRun st body

def runSteps (st : StoreSt) : List Step → StoreSt
  | [] => st
  | s :: rest => runSteps (runStep st s) rest

/-- `act`: re-entrant calls run the body directly inside the active batch;
an outermost call raises `inAction`, runs the body, flushes the batch once,
and lowers `inAction`. -/
def actRun (st : StoreSt) (body : List Step) : StoreSt :=
  if st.inAction then runSteps st body
  else
    let st1 := runSteps { st with inAction := true } body
    let st2 := flushMutations st1
    { st2 with inAction := false }

end

/-- `act` when the action throws synchronously after performing `body`: the
exception propagates out of `action.apply(...)`, and — `act` having no
`try`/`finally` — neither `flushMutations()` nor `inAction = false` runs. -/
def actRunThrow (st : StoreSt) (body : List Step) : StoreSt :=
  if st.inAction then runSteps st body
  else runSteps { st with inAction := true } body

unseal runStep runSteps actRun

/-- The pending mutation recorded for a target identity and key (what a draft
read resolves before falling through to the snapshot). -/
def pendingMut (st : StoreSt) (i : Nat) (k : String) : Option MutOp :=
  match MutCache.find st.mc i with
  | none => none
  | some e => findMut e.muts k

/-- The step list of an action body that performs the given top-level writes
(`this.k = v` through the store proxy). -/
def topSteps (ws : List (String × JVal)) : List Step :=
  ws.map fun kv => Step.swrite [] kv.1 kv.2

/-! ## Basic lemmas -/

section BasicLemmas

theorem AList.get_set_self {κ α : Type} [BEq κ] [LawfulBEq κ]
    (l : List (κ × α)) (k : κ) (a : α) : AList.get (AList.set l k a) k = some a := by
  induction l with
  | nil => simp [AList.get, AList.set]
  | cons kv rest ih =>
    obtain ⟨k0, a0⟩ := kv
    by_cases h : k0 = k
    · simp [AList.get, AList.set, h]
    · simp [AList.get, AList.set, h, ih]

theorem AList.get_set_ne {κ α : Type} [BEq κ] [LawfulBEq κ]
    (l : List (κ × α)) (k k' : κ) (a : α) (h : k' ≠ k) :
    AList.get (AList.set l k a) k' = AList.get l k' := by
  induction l with
  | nil =>
    simp only [AList.set, AList.get]
    rw [if_neg (fun h' => h (eq_of_beq h').symm)]
  | cons kv rest ih =>
    obtain ⟨k0, a0⟩ := kv
    by_cases h0 : k0 = k
    · subst h0
      simp only [AList.set, beq_self_eq_true, if_true, AList.get]
      rw [if_neg (fun h' => h (eq_of_beq h').symm), if_neg (fun h' => h (eq_of_beq h').symm)]
    · simp only [AList.set, beq_iff_eq, h0, if_false, AList.get]
      by_cases h1 : k0 = k'
      · simp [h1]
      · simp [h1, ih]

theorem AList.set_of_get_none {κ α : Type} [BEq κ] [LawfulBEq κ]
    (l : List (κ × α)) (k : κ) (a : α) (h : AList.get l k = none) :
    AList.set l k a = l ++ [(k, a)] := by
  induction l with
  | nil => simp [AList.set]
  | cons kv rest ih =>
    obtain ⟨k0, a0⟩ := kv
    by_cases h0 : k0 = k
    · simp [AList.get, h0] at h
    · simp only [AList.get, beq_iff_eq, h0, if_false] at h
      simp [AList.set, h0, ih h]

end BasicLemmas

section PreservationLemmas

@[simp] theorem setState_inAction (st : StoreSt) (s : JVal) :
    (setState st s).inAction = st.inAction := by
  unfold setState; split <;> rfl

@[simp] theorem setState_children (st : StoreSt) (s : JVal) :
    (setState st s).children = st.children := by
  unfold setState; split <;> rfl

@[simp] theorem setState_parents (st : StoreSt) (s : JVal) :
    (setState st s).parents = st.parents := by
  unfold setState; split <;> rfl

@[simp] theorem flushMutations_inAction (st : StoreSt) :
    (flushMutations st).inAction = st.inAction := by
  unfold flushMutations; (repeat' split) <;> simp

@[simp] theorem flushMutations_children (st : StoreSt) :
    (flushMutations st).children = st.children := by
  unfold flushMutations; (repeat' split) <;> simp

@[simp] theorem flushMutations_parents (st : StoreSt) :
    (flushMutations st).parents = st.parents := by
  unfold flushMutations; (repeat' split) <;> simp

@[simp] theorem unlinkCache_state (st : StoreSt) (i : Nat) (k : String) :
    (unlinkCache st i k).state = st.state := by
  unfold unlinkCache; (repeat' split) <;> rfl

@[simp] theorem unlinkCache_snap (st : StoreSt) (i : Nat) (k : String) :
    (unlinkCache st i k).snap = st.snap := by
  unfold unlinkCache; (repeat' split) <;> rfl

@[simp] theorem unlinkCache_inAction (st : StoreSt) (i : Nat) (k : String) :
    (unlinkCache st i k).inAction = st.inAction := by
  unfold unlinkCache; (repeat' split) <;> rfl

@[simp] theorem unlinkCache_mc (st : StoreSt) (i : Nat) (k : String) :
    (unlinkCache st i k).mc = st.mc := by
  unfold unlinkCache; (repeat' split) <;> rfl

@[simp] theorem unlinkCache_log (st : StoreSt) (i : Nat) (k : String) :
    (unlinkCache st i k).log = st.log := by
  unfold unlinkCache; (repeat' split) <;> rfl

@[simp] theorem unlinkCache_nextId (st : StoreSt) (i : Nat) (k : String) :
    (unlinkCache st i k).nextId = st.nextId := by
  unfold unlinkCache; (repeat' split) <;> rfl

@[simp] theorem markDirty_state (st : StoreSt) (i : Nat) :
    (markDirty st i).state = st.state := rfl

@[simp] theorem markDirty_snap (st : StoreSt) (i : Nat) :
    (markDirty st i).snap = st.snap := rfl

@[simp] theorem markDirty_inAction (st : StoreSt) (i : Nat) :
    (markDirty st i).inAction = st.inAction := rfl

@[simp] theorem markDirty_children (st : StoreSt) (i : Nat) :
    (markDirty st i).children = st.children := rfl

@[simp] theorem markDirty_parents (st : StoreSt) (i : Nat) :
    (markDirty st i).parents = st.parents := rfl

@[simp] theorem markDirty_log (st : StoreSt) (i : Nat) :
    (markDirty st i).log = st.log := rfl

@[simp] theorem markDirty_nextId (st : StoreSt) (i : Nat) :
    (markDirty st i).nextId = st.nextId := rfl

theorem setValue_inBatch (st : StoreSt) (i : Nat) (e : MutEntry) (k : String) (v : JVal)
    (h : st.inAction = true) :
    (setValue st i e k v).state = st.state ∧ (setValue st i e k v).snap = st.snap ∧
    (setValue st i e k v).inAction = true ∧ (setValue st i e k v).log = st.log ∧
    (setValue st i e k v).nextId = st.nextId ∧
    (setValue st i e k v).children = (unlinkCache st i k).children ∧
    (setValue st i e k v).parents = (unlinkCache st i k).parents := by
  unfold setValue
  simp [h]

@[simp] theorem setValue_inAction (st : StoreSt) (i : Nat) (e : MutEntry) (k : String) (v : JVal) :
    (setValue st i e k v).inAction = st.inAction := by
  simp only [setValue]
  split <;> simp_all

@[simp] theorem trapSet_inAction (st : StoreSt) (t : JVal) (k : String) (v : JVal) :
    ((trapSet st t k v).1).inAction = st.inAction := by
  simp only [trapSet]
  (repeat' split) <;> simp

/-- Inside an action, `trapSet` changes neither the published state nor the
snapshot, the log, or the id counter (it only records into the caches). -/
theorem trapSet_inBatch (st : StoreSt) (t : JVal) (k : String) (v : JVal)
    (h : st.inAction = true) :
    ((trapSet st t k v).1).state = st.state ∧ ((trapSet st t k v).1).snap = st.snap ∧
    ((trapSet st t k v).1).log = st.log ∧ ((trapSet st t k v).1).nextId = st.nextId := by
  simp only [trapSet]
  (repeat' split) <;>
    simp_all [setValue_inBatch _ _ _ _ _ h]

@[simp] theorem trapGet_state (st : StoreSt) (t : JVal) (k : String) :
    ((trapGet st t k).1).state = st.state := by
  simp only [trapGet]; (repeat' split) <;> rfl

@[simp] theorem trapGet_snap (st : StoreSt) (t : JVal) (k : String) :
    ((trapGet st t k).1).snap = st.snap := by
  simp only [trapGet]; (repeat' split) <;> rfl

@[simp] theorem trapGet_inAction (st : StoreSt) (t : JVal) (k : String) :
    ((trapGet st t k).1).inAction = st.inAction := by
  simp only [trapGet]; (repeat' split) <;> rfl

@[simp] theorem trapGet_mc (st : StoreSt) (t : JVal) (k : String) :
    ((trapGet st t k).1).mc = st.mc := by
  simp only [trapGet]; (repeat' split) <;> rfl

@[simp] theorem trapGet_log (st : StoreSt) (t : JVal) (k : String) :
    ((trapGet st t k).1).log = st.log := by
  simp only [trapGet]; (repeat' split) <;> rfl

@[simp] theorem trapGet_nextId (st : StoreSt) (t : JVal) (k : String) :
    ((trapGet st t k).1).nextId = st.nextId := by
  simp only [trapGet]; (repeat' split) <;> rfl

theorem resolveFrom_frame (path : List String) (st : StoreSt) (cur : JVal) :
    ((resolveFrom st cur path).1).state = st.state ∧
    ((resolveFrom st cur path).1).snap = st.snap ∧
    ((resolveFrom st cur path).1).inAction = st.inAction ∧
    ((resolveFrom st cur path).1).mc = st.mc ∧
    ((resolveFrom st cur path).1).log = st.log ∧
    ((resolveFrom st cur path).1).nextId = st.nextId := by
  induction path generalizing st cur with
  | nil => simp [resolveFrom]
  | cons seg rest ih =>
    unfold resolveFrom
    split
    next st' child heq =>
      have hst' : st' = (trapGet st cur seg).1 := by rw [heq]
      subst hst'
      obtain ⟨a1, a2, a3, a4, a5, a6⟩ := ih (trapGet st cur seg).1 child
      exact ⟨by rw [a1]; simp, by rw [a2]; simp, by rw [a3]; simp,
        by rw [a4]; simp, by rw [a5]; simp, by rw [a6]; simp⟩
    next st' g hfalse heq =>
      have hst' : st' = (trapGet st cur seg).1 := by rw [heq]
      subst hst'
      simp

end PreservationLemmas


section RunInvariants

/-- Running steps never changes the `inAction` flag: an outermost `act` call
restores it, a re-entrant one never touches it. -/
theorem run_inAction :
    (∀ (st : StoreSt) (s : Step), (runStep st s).inAction = st.inAction) ∧
    (∀ (st : StoreSt) (body : List Step), (actRun st body).inAction = st.inAction) ∧
    (∀ (st : StoreSt) (l : List Step), (runSteps st l).inAction = st.inAction) := by
  refine runStep.mutual_induct
    (fun st s => (runStep st s).inAction = st.inAction)
    (fun st body => (actRun st body).inAction = st.inAction)
    (fun st l => (runSteps st l).inAction = st.inAction)
    ?_ ?_ ?_ ?_ ?_ ?_ ?_
  · intro st path k v st' t heq
    have hst' : st' = (resolveWrite st path).1 := by rw [heq]
    simp only [runStep, heq, trapSet_inAction]
    rw [hst']
    unfold resolveWrite
    exact (resolveFrom_frame path st st.state).2.2.1
  · intro st path k v st' heq
    have hst' : st' = (resolveWrite st path).1 := by rw [heq]
    simp only [runStep, heq]
    rw [hst']
    unfold resolveWrite
    exact (resolveFrom_frame path st st.state).2.2.1
  · intro st body ih
    simpa only [runStep] using ih
  · intro st body h ih
    simp only [actRun, h, if_true]
    exact ih.trans h
  · intro st body h ih
    simp only [actRun, h, if_false]
    simp only [Bool.not_eq_true] at h
    simp [h]
  · intro st
    simp only [runSteps]
  · intro st s rest ih1 ih3
    simp only [runSteps]
    rw [ih3, ih1]

theorem runStep_inAction (st : StoreSt) (s : Step) :
    (runStep st s).inAction = st.inAction := run_inAction.1 st s

theorem actRun_inAction (st : StoreSt) (body : List Step) :
    (actRun st body).inAction = st.inAction := run_inAction.2.1 st body

theorem runSteps_inAction (st : StoreSt) (l : List Step) :
    (runSteps st l).inAction = st.inAction := run_inAction.2.2 st l

/-- While an action batch is open (`inAction = true`), running steps changes
neither the published state, the snapshot, the notification log, nor the id
counter: all writes only accumulate in the caches. -/
theorem run_inBatch_stable :
    (∀ (st : StoreSt) (s : Step), st.inAction = true →
      (runStep st s).state = st.state ∧ (runStep st s).snap = st.snap ∧
      (runStep st s).log = st.log ∧ (runStep st s).nextId = st.nextId) ∧
    (∀ (st : StoreSt) (body : List Step), st.inAction = true →
      (actRun st body).state = st.state ∧ (actRun st body).snap = st.snap ∧
      (actRun st body).log = st.log ∧ (actRun st body).nextId = st.nextId) ∧
    (∀ (st : StoreSt) (l : List Step), st.inAction = true →
      (runSteps st l).state = st.state ∧ (runSteps st l).snap = st.snap ∧
      (runSteps st l).log = st.log ∧ (runSteps st l).nextId = st.nextId) := by
  refine runStep.mutual_induct
    (fun st s => st.inAction = true →
      (runStep st s).state = st.state ∧ (runStep st s).snap = st.snap ∧
      (runStep st s).log = st.log ∧ (runStep st s).nextId = st.nextId)
    (fun st body => st.inAction = true →
      (actRun st body).state = st.state ∧ (actRun st body).snap = st.snap ∧
      (actRun st body).log = st.log ∧ (actRun st body).nextId = st.nextId)
    (fun st l => st.inAction = true →
      (runSteps st l).state = st.state ∧ (runSteps st l).snap = st.snap ∧
      (runSteps st l).log = st.log ∧ (runSteps st l).nextId = st.nextId)
    ?_ ?_ ?_ ?_ ?_ ?_ ?_
  · intro st path k v st' t heq h
    have hst' : st' = (resolveWrite st path).1 := by rw [heq]
    obtain ⟨f1, f2, f3, f4, f5, f6⟩ := resolveFrom_frame path st st.state
    have hact : st'.inAction = true := by rw [hst']; unfold resolveWrite; rw [f3]; exact h
    obtain ⟨g1, g2, g3, g4⟩ := trapSet_inBatch st' t k v hact
    simp only [runStep, heq, g1, g2, g3, g4]
    rw [hst']
    unfold resolveWrite
    exact ⟨f1, f2, f5, f6⟩
  · intro st path k v st' heq h
    have hst' : st' = (resolveWrite st path).1 := by rw [heq]
    obtain ⟨f1, f2, f3, f4, f5, f6⟩ := resolveFrom_frame path st st.state
    simp only [runStep, heq]
    rw [hst']
    unfold resolveWrite
    exact ⟨f1, f2, f5, f6⟩
  · intro st body ih h
    simpa only [runStep] using ih h
  · intro st body hin ih h
    simp only [actRun, hin, if_true]
    exact ih h
  · intro st body hin ih h
    exact absurd h hin
  · intro st _
    exact ⟨rfl, rfl, rfl, rfl⟩
  · intro st s rest ih1 ih3 h
    obtain ⟨a1, a2, a3, a4⟩ := ih1 h
    have hact : (runStep st s).inAction = true := by rw [runStep_inAction]; exact h
    obtain ⟨b1, b2, b3, b4⟩ := ih3 hact
    simp only [runSteps]
    exact ⟨b1.trans a1, b2.trans a2, b3.trans a3, b4.trans a4⟩

theorem runSteps_append (st : StoreSt) (xs ys : List Step) :
    runSteps st (xs ++ ys) = runSteps (runSteps st xs) ys := by
  induction xs generalizing st with
  | nil => rfl
  | cons s rest ih =>
    rw [List.cons_append]
    simp only [runSteps]
    exact ih (runStep st s)

end RunInvariants

/-! ## Demonstration stores used by the concrete witnesses -/

/-- A small state: `{ count: 0, nested: { x: 1 }, other: { y: 5 } }`, carrying
the property flags `create` leaves after the deep freeze (non-writable,
configurable). -/
def demoState : JVal :=
  .obj 0 [("count", .prim 0, false, true),
          ("nested", .obj 1 [("x", .prim 1, false, true)], false, true),
          ("other", .obj 2 [("y", .prim 5, false, true)], false, true)]

def demoStore : StoreSt := StoreSt.fresh demoState 10

/-- A state whose `frozen` key is non-writable *and* non-configurable. -/
def demoStateNW : JVal :=
  .obj 5 [("frozen", .prim 3, false, false), ("count", .prim 0, false, true)]

def demoStoreNW : StoreSt := StoreSt.fresh demoStateNW 20

/-! ## Claim theorems: the store facade -/

/-- **C4**: an action that synchronously invokes another action produces a
store (state, snapshot, caches and — in particular — the published
notification sequence) identical to the one produced by inlining the
callee's body into the caller: the callee participates in the caller's
batch, and no separate snapshot is published for its writes. -/
theorem reentrant_action_call_equals_inlining (st : StoreSt) (A1 B A2 : List Step) :
    actRun st (A1 ++ Step.scall B :: A2) = actRun st (A1 ++ (B ++ A2)) := by
  have key : ∀ st' : StoreSt, st'.inAction = true →
      runSteps st' (A1 ++ Step.scall B :: A2) = runSteps st' (A1 ++ (B ++ A2)) := by
    intro st' h
    rw [runSteps_append, runSteps_append, runSteps_append]
    have hmid : (runSteps st' A1).inAction = true := by rw [runSteps_inAction]; exact h
    simp only [runSteps, runStep, actRun, hmid, if_true]
  by_cases h : st.inAction = true
  · simp only [actRun, h, if_true]
    exact key st h
  · simp only [actRun, h, if_false]
    rw [key { st with inAction := true } rfl]
    simp

/-- **C9**: `$set` with a state that is `Object.is`-identical to the current
internal state is a complete no-op — the guard in `setState` returns before
anything happens, so no new snapshot is published, `$get` keeps returning
the same reference (`snap` unchanged), and no subscriber or watcher is
invoked (`log` unchanged): the whole store is unchanged. -/
theorem set_identical_state_is_noop (st : StoreSt) (v : JVal)
    (h : JVal.is v st.state = true) : storeSet st v = st := by
  unfold storeSet setState
  rw [if_pos h]

theorem set_identical_state_is_noop_witness :
    storeSet demoStore demoStore.state = demoStore :=
  set_identical_state_is_noop demoStore demoStore.state (JVal.is_refl _)

/-- Helper: the default entry read by the `set` trap resolves the pending
mutation recorded for the key. -/
theorem trap_default_entry_pending (st : StoreSt) (i : Nat) (k : String) :
    findMut ((MutCache.find st.mc i).getD { dirty := false, muts := [] }).muts k
      = pendingMut st i k := by
  unfold pendingMut
  cases hf : MutCache.find st.mc i with
  | none => simp [findMut, AList.get]
  | some e => simp

/-- With an empty mutation cache nothing is pending. -/
theorem pendingMut_empty (st : StoreSt) (i : Nat) (k : String) (h : st.mc = []) :
    pendingMut st i k = none := by
  unfold pendingMut MutCache.find
  rw [h]
  rfl

/-- **C10**: assigning to a draft property a value identical to the key's
current effective value (the pending written value if one exists, otherwise
the underlying snapshot value) records no mutation — the `set` trap returns
with the store untouched; consequently an action whose writes are all
identical-value assignments leaves the store exactly as it was: no snapshot
is published and no subscriber is notified. -/
theorem identical_value_writes_record_nothing :
    (∀ (st : StoreSt) (i : Nat) (fs : JFields) (k : String) (v : JVal),
      (match pendingMut st i k with
       | some (.setv pv) => JVal.is pv v
       | some .del => false
       | none =>
         match findField fs k with
         | some (v0, _, _) => JVal.is v0 v
         | none => false) = true →
      (trapSet st (.obj i fs) k v).1 = st) ∧
    (∀ (st : StoreSt) (ws : List (String × JVal)),
      st.inAction = false → st.mc = [] →
      (∀ kv ∈ ws,
        (match findField st.state.fieldsOf kv.1 with
         | some (v0, _, _) => JVal.is v0 kv.2
         | none => false) = true) →
      actRun st (topSteps ws) = st) := by
  have part1 : ∀ (st : StoreSt) (i : Nat) (fs : JFields) (k : String) (v : JVal),
      (match pendingMut st i k with
       | some (.setv pv) => JVal.is pv v
       | some .del => false
       | none =>
         match findField fs k with
         | some (v0, _, _) => JVal.is v0 v
         | none => false) = true →
      (trapSet st (.obj i fs) k v).1 = st := by
    intro st i fs k v h
    simp only [trapSet]
    split
    · rfl
    · rw [trap_default_entry_pending]
      cases hp : pendingMut st i k with
      | none =>
        rw [hp] at h
        cases hd : findField fs k with
        | none => rw [hd] at h; simp at h
        | some d =>
          obtain ⟨v0, w, c⟩ := d
          rw [hd] at h
          simp only at h
          simp [hd, h]
      | some op =>
        cases op with
        | setv pv =>
          rw [hp] at h
          simp only at h
          simp [h]
        | del => rw [hp] at h; simp at h
  refine ⟨part1, ?_⟩
  intro st ws hact hmc hall
  have hsteps : ∀ ws' : List (String × JVal),
      (∀ kv ∈ ws',
        (match findField st.state.fieldsOf kv.1 with
         | some (v0, _, _) => JVal.is v0 kv.2
         | none => false) = true) →
      runSteps { st with inAction := true } (topSteps ws') = { st with inAction := true } := by
    intro ws' hall'
    induction ws' with
    | nil => rfl
    | cons kv rest ih =>
      have hkv := hall' kv (List.mem_cons_self kv rest)
      have hstep : runStep { st with inAction := true } (Step.swrite [] kv.1 kv.2)
          = { st with inAction := true } := by
        have hres : resolveWrite { st with inAction := true } [] =
            ({ st with inAction := true }, some st.state) := rfl
        simp only [runStep, hres]
        cases hs : st.state with
        | prim n =>
          rw [hs] at hkv
          simp [JVal.fieldsOf, findField] at hkv
        | obj r fsr =>
          rw [hs] at hkv
          simp only [JVal.fieldsOf] at hkv
          refine part1 _ r fsr kv.1 kv.2 ?_
          rw [pendingMut_empty _ r kv.1 (by exact hmc)]
          exact hkv
      simp only [topSteps, List.map, runSteps]
      rw [show (Step.swrite [] kv.1 kv.2) = (fun kv : String × JVal =>
        Step.swrite [] kv.1 kv.2) kv from rfl] at hstep
      rw [hstep]
      exact ih (fun kv' hkv' => hall' kv' (List.mem_cons_of_mem kv hkv'))
  have hfin : flushMutations { st with inAction := true } = { st with inAction := true } := by
    unfold flushMutations
    cases hs : ({ st with inAction := true } : StoreSt).state.objId with
    | none => rfl
    | some i =>
      have : MutCache.find ({ st with inAction := true } : StoreSt).mc i = none := by
        unfold MutCache.find
        rw [show ({ st with inAction := true } : StoreSt).mc = st.mc from rfl, hmc]
        rfl
      simp [this]
  have : actRun st (topSteps ws) =
      { flushMutations (runSteps { st with inAction := true } (topSteps ws)) with
        inAction := false } := by
    simp only [actRun, hact]
    rfl
  rw [this, hsteps ws hall, hfin]
  cases st with
  | mk st sn ia mcf ch pa lg ni =>
    simp only at hact
    simp only [hact]

/-- Witness for C10 at a concrete input: writing `0` to `count` (its current
value) through the trap leaves the store untouched, and an action doing only
that write publishes nothing. -/
theorem identical_value_writes_record_nothing_witness :
    (trapSet demoStore (.obj 0 demoState.fieldsOf) "count" (.prim 0)).1 = demoStore ∧
    actRun demoStore (topSteps [("count", .prim 0)]) = demoStore :=
  ⟨identical_value_writes_record_nothing.1 demoStore 0 demoState.fieldsOf "count" (.prim 0)
      (by rfl),
   identical_value_writes_record_nothing.2 demoStore [("count", .prim 0)] rfl rfl (by decide)⟩

/-- **C5**: a draft write to a key whose existing property on the underlying
snapshot is non-writable and non-configurable is rejected without recording
anything: the trap reports `false` (the proxy protocol's silent rejection
under non-strict assignment) and the store is untouched; dropping such a
write from an action body leaves the entire resulting store — including
every other pending operation committed by the batch — unchanged. -/
theorem nonwritable_nonconfigurable_write_ignored :
    (∀ (st : StoreSt) (i : Nat) (fs : JFields) (k : String) (v v0 : JVal),
      findField fs k = some (v0, false, false) →
      trapSet st (.obj i fs) k v = (st, false)) ∧
    (∀ (st : StoreSt) (A1 A2 : List Step) (k : String) (v v0 : JVal),
      st.inAction = false →
      findField st.state.fieldsOf k = some (v0, false, false) →
      actRun st (A1 ++ Step.swrite [] k v :: A2) = actRun st (A1 ++ A2)) := by
  have part1 : ∀ (st : StoreSt) (i : Nat) (fs : JFields) (k : String) (v v0 : JVal),
      findField fs k = some (v0, false, false) →
      trapSet st (.obj i fs) k v = (st, false) := by
    intro st i fs k v v0 hd
    simp only [trapSet, hd]
    rfl
  refine ⟨part1, ?_⟩
  intro st A1 A2 k v v0 hact hd
  simp only [actRun, hact, if_false, Bool.false_eq_true]
  rw [runSteps_append, runSteps_append]
  set mid := runSteps { st with inAction := true } A1 with hmid
  have hmidAct : mid.inAction = true := by
    rw [hmid, runSteps_inAction]
  have hmidState : mid.state = st.state := by
    rw [hmid]
    exact (run_inBatch_stable.2.2 { st with inAction := true } A1 rfl).1
  have hbad : runStep mid (Step.swrite [] k v) = mid := by
    have hres : resolveWrite mid [] = (mid, some mid.state) := rfl
    have hd2 : findField mid.state.fieldsOf k = some (v0, false, false) := by
      rw [hmidState]; exact hd
    simp only [runStep, hres]
    cases hs : mid.state with
    | prim n =>
      rw [hs] at hd2
      simp [JVal.fieldsOf, findField] at hd2
    | obj r fsr =>
      rw [hs] at hd2
      simp only [JVal.fieldsOf] at hd2
      rw [part1 mid r fsr k v v0 hd2]
  simp only [runSteps]
  rw [hbad]

theorem nonwritable_nonconfigurable_write_ignored_witness :
    trapSet demoStoreNW (.obj 5 demoStateNW.fieldsOf) "frozen" (.prim 9) = (demoStoreNW, false) ∧
    actRun demoStoreNW ([] ++ Step.swrite [] "frozen" (.prim 9) :: [Step.swrite [] "count" (.prim 1)])
      = actRun demoStoreNW ([] ++ [Step.swrite [] "count" (.prim 1)]) :=
  ⟨nonwritable_nonconfigurable_write_ignored.1 demoStoreNW 5 demoStateNW.fieldsOf "frozen"
      (.prim 9) (.prim 3) rfl,
   nonwritable_nonconfigurable_write_ignored.2 demoStoreNW [] [Step.swrite [] "count" (.prim 1)]
      "frozen" (.prim 9) (.prim 3) rfl rfl⟩

/-! ## Lemmas about `getFlushed` lookups (towards C1 and C3) -/

section FlushLemmas

theorem AList.get_append {κ α : Type} [BEq κ] (l1 l2 : List (κ × α)) (k : κ) :
    AList.get (l1 ++ l2) k =
      (match AList.get l1 k with
       | some a => some a
       | none => AList.get l2 k) := by
  induction l1 with
  | nil => simp [AList.get]
  | cons kv rest ih =>
    obtain ⟨k0, a0⟩ := kv
    by_cases h : (k0 == k) = true
    · simp [AList.get, h]
    · simp only [List.cons_append, AList.get, h, if_false, Bool.false_eq_true]
      exact ih

theorem findMut_mkSetMuts (ws : List (String × JVal)) (kv : String × JVal)
    (hmem : kv ∈ ws) (hnodup : (ws.map Prod.fst).Nodup) :
    findMut (ws.map fun kv => (kv.1, MutOp.setv kv.2)) kv.1 = some (.setv kv.2) := by
  induction ws with
  | nil => cases hmem
  | cons w rest ih =>
    rcases List.mem_cons.mp hmem with h | h
    · subst h
      simp [findMut, AList.get]
    · have hne : w.1 ≠ kv.1 := by
        intro hcontra
        have : kv.1 ∈ rest.map Prod.fst := List.mem_map_of_mem Prod.fst h
        rw [← hcontra] at this
        exact (List.nodup_cons.mp hnodup).1 this
      simp only [List.map, findMut, AList.get, beq_iff_eq, hne, if_false]
      exact ih h (List.nodup_cons.mp hnodup).2

theorem findField_append (l1 l2 : JFields) (k : String) :
    findField (l1 ++ l2) k =
      (match findField l1 k with
       | some a => some a
       | none => findField l2 k) := by
  induction l1 with
  | nil => simp [findField]
  | cons f rest ih =>
    obtain ⟨n, v, w, c⟩ := f
    by_cases h : n = k
    · simp [findField, h]
    · simp only [List.cons_append, findField, h, if_false]
      exact ih

/-- The object-keys pass introduces no new names. -/
theorem flushFields_none (mc : MutCache) (off : Nat) (fs : JFields)
    (ms : List (String × MutOp)) (k : String) (h : hasFieldB fs k = false) :
    findField (flushFields mc off fs ms) k = none := by
  induction fs with
  | nil => simp [flushFields, findField]
  | cons f rest ih =>
    obtain ⟨n, v, w, c⟩ := f
    have hn : n ≠ k := by
      intro hcontra
      subst hcontra
      simp [hasFieldB, findField] at h
    have hrest : hasFieldB rest k = false := by
      simp only [hasFieldB, findField, hn, if_false] at h
      exact h
    simp only [flushFields]
    cases hm : findMut ms n with
    | none => simp only [findField, hn, if_false]; exact ih hrest
    | some op =>
      cases op with
      | setv v' => simp only [findField, hn, if_false]; exact ih hrest
      | del => exact ih hrest

/-- A pending `set` on an existing key lands, deep-frozen, in the copy
(keeping the key's original descriptor flags). -/
theorem flushFields_set (mc : MutCache) (off : Nat) (fs : JFields)
    (ms : List (String × MutOp)) (k : String) (v : JVal)
    (hhas : hasFieldB fs k = true) (hm : findMut ms k = some (.setv v)) :
    ∃ w c, findField (flushFields mc off fs ms) k = some (readonlyT v, w, c) := by
  induction fs with
  | nil => simp [hasFieldB, findField] at hhas
  | cons f rest ih =>
    obtain ⟨n, v0, w0, c0⟩ := f
    by_cases hn : n = k
    · subst hn
      simp only [flushFields, hm]
      exact ⟨w0, c0, by simp [findField]⟩
    · have hrest : hasFieldB rest k = true := by
        simp only [hasFieldB, findField, hn, if_false] at hhas
        exact hhas
      simp only [flushFields]
      cases hm0 : findMut ms n with
      | none =>
        simp only [findField, hn, if_false]
        exact ih hrest
      | some op =>
        cases op with
        | setv v' =>
          simp only [findField, hn, if_false]
          exact ih hrest
        | del => exact ih hrest

/-- A pending `set` on a fresh key is appended, deep-frozen, as a
non-writable configurable property. -/
theorem newMutFields_set (fs : JFields) (ms : List (String × MutOp)) (k : String) (v : JVal)
    (hhas : hasFieldB fs k = false) (hm : findMut ms k = some (.setv v)) :
    findField (newMutFields fs ms) k = some (readonlyT v, false, true) := by
  induction ms with
  | nil => simp [findMut, AList.get] at hm
  | cons m rest ih =>
    obtain ⟨k0, op0⟩ := m
    by_cases hk : k0 = k
    · subst hk
      simp only [findMut, AList.get, beq_self_eq_true, if_true] at hm
      cases hm
      simp [newMutFields, hhas, findField]
    · have hm' : findMut rest k = some (.setv v) := by
        simp only [findMut, AList.get, beq_iff_eq, hk, if_false] at hm
        exact hm
      simp only [newMutFields]
      by_cases hh0 : hasFieldB fs k0 = true
      · simp only [hh0, if_true]
        exact ih hm'
      · simp only [Bool.not_eq_true] at hh0
        simp only [hh0, Bool.false_eq_true, if_false]
        cases op0 with
        | setv v0 =>
          simp only [findField, hk, if_false]
          exact ih hm'
        | del => exact ih hm'

/-- Looking a written key up in the flushed copy of the root yields the
deep-frozen written value. -/
theorem getFlushed_topLookup_set (mc : MutCache) (off : Nat) (r : Nat) (fs : JFields)
    (e : MutEntry) (k : String) (v : JVal)
    (hfind : MutCache.find mc r = some e) (hdirty : e.dirty = true)
    (hm : findMut e.muts k = some (.setv v)) :
    topLookup (getFlushed mc off (.obj r fs)) k = some (readonlyT v) := by
  unfold getFlushed
  rw [hfind]
  simp only [hdirty, if_true]
  unfold topLookup JVal.fieldsOf
  rw [findField_append]
  by_cases hhas : hasFieldB fs k = true
  · obtain ⟨w, c, hw⟩ := flushFields_set mc off fs e.muts k v hhas hm
    rw [hw]
    rfl
  · simp only [Bool.not_eq_true] at hhas
    rw [flushFields_none mc off fs e.muts k hhas]
    rw [newMutFields_set fs e.muts k v hhas hm]
    rfl

/-- `{ ...state }` holds the same top-level values as the state. -/
theorem mkSnapshot_topLookup (s : JVal) (n : Nat) (k : String) :
    topLookup (mkSnapshot s n) k = topLookup s k := by
  unfold mkSnapshot topLookup JVal.fieldsOf
  cases s with
  | prim m => simp [findField]
  | obj i fs =>
    simp only
    induction fs with
    | nil => simp [findField]
    | cons f rest ih =>
      obtain ⟨n0, v0, w0, c0⟩ := f
      by_cases h : n0 = k
      · simp [findField, h]
      · simp only [List.map, findField, h, if_false]
        exact ih

end FlushLemmas

/-! ## C1: one batch, one notification -/

section BatchAtomicity

theorem dirtyClosure_nil (t : Nat) : dirtyClosure [] t = [t] := by
  unfold dirtyClosure
  apply Function.iterate_fixed
  unfold closureStep parentsOfD
  simp [AList.get]

/-- What the `set` trap's `setValue` leaves in the mutation cache when it
records a top-level write: the root's entry gains the `set` record and is
then flagged dirty by `markDirty` (whose parent recursion is empty for the
root of a store with a clean parent cache). -/
def mcAfterTopWrite (mc : MutCache) (r : Nat) (k : String) (v : JVal) : MutCache :=
  ensureDirtyEntry
    (AList.set mc r
      { dirty := ((MutCache.find mc r).getD { dirty := false, muts := [] }).dirty,
        muts := AList.set ((MutCache.find mc r).getD { dirty := false, muts := [] }).muts
                  k (.setv v) })
    r

/-- With clean child/parent caches (as right after construction), recording a
write inside a batch updates only the mutation cache. -/
theorem setValue_clean (st : StoreSt) (r : Nat) (e : MutEntry) (k : String) (v : JVal)
    (hact : st.inAction = true) (hch : st.children = []) (hpar : st.parents = []) :
    setValue st r e k v =
      { st with mc := (ensureDirtyEntry
          (AList.set st.mc r { dirty := e.dirty, muts := AList.set e.muts k (.setv v) }) r) } := by
  have hunlink : unlinkCache st r k = st := by
    unfold unlinkCache
    rw [hch]
    rfl
  simp only [setValue, hunlink, markDirty, hpar, dirtyClosure_nil, List.foldl, hact, if_true,
    reduceIte]

/-- A top-level draft write on a store with clean child/parent caches, a key
with no pending mutation, and an effective value (either the key is absent,
or it is writable-or-configurable and the value differs from the stored
one): the write is recorded and the root flagged dirty. -/
theorem runStep_topWrite (st : StoreSt) (r : Nat) (fs : JFields) (k : String) (v : JVal)
    (hact : st.inAction = true) (hstate : st.state = .obj r fs)
    (hch : st.children = []) (hpar : st.parents = [])
    (hpend : pendingMut st r k = none)
    (heff : match findField fs k with
            | some (v0, w, c) => (w = true ∨ c = true) ∧ JVal.is v0 v = false
            | none => True) :
    runStep st (Step.swrite [] k v) = { st with mc := mcAfterTopWrite st.mc r k v } := by
  have hres : resolveWrite st [] = (st, some st.state) := rfl
  simp only [runStep, hres, hstate]
  have hpend' : findMut ((MutCache.find st.mc r).getD { dirty := false, muts := [] }).muts k
      = none := by
    rw [trap_default_entry_pending]
    exact hpend
  simp only [trapSet, hpend']
  unfold mcAfterTopWrite
  cases hd : findField fs k with
  | none =>
    simp only [Bool.false_eq_true, reduceIte]
    rw [← hstate]
    exact setValue_clean st r _ k v hact hch hpar
  | some d =>
    obtain ⟨v0, w, c⟩ := d
    rw [hd] at heff
    obtain ⟨hwc, hne⟩ := heff
    have hguard : (!w && !c) = false := by
      rcases hwc with h | h <;> subst h <;> simp
    simp only [hd, hguard, Bool.false_eq_true, if_false, hne, reduceIte]
    rw [← hstate]
    exact setValue_clean st r _ k v hact hch hpar

/-- Per-write effectiveness: the key is absent, or it is
writable-or-configurable and holds a different value. -/
def EffTopWrite (s : JVal) (kv : String × JVal) : Prop :=
  match findField s.fieldsOf kv.1 with
  | some (v0, w, c) => (w = true ∨ c = true) ∧ JVal.is v0 kv.2 = false
  | none => True

def mkSetMuts (ws : List (String × JVal)) : List (String × MutOp) :=
  ws.map fun kv => (kv.1, MutOp.setv kv.2)

/-- Evaluating `mcAfterTopWrite` on a one-entry cache. -/
theorem mcAfterTopWrite_entry (r : Nat) (ms : List (String × MutOp)) (k : String) (v : JVal)
    (hnone : findMut ms k = none) :
    mcAfterTopWrite [(r, { dirty := true, muts := ms })] r k v
      = [(r, { dirty := true, muts := ms ++ [(k, MutOp.setv v)] })] := by
  unfold mcAfterTopWrite MutCache.find
  have h1 : AList.get ([(r, { dirty := true, muts := ms })] : MutCache) r
      = some { dirty := true, muts := ms } := by simp [AList.get]
  rw [h1]
  simp only [Option.getD]
  rw [AList.set_of_get_none ms k _ hnone]
  unfold ensureDirtyEntry MutCache.find
  simp [AList.set, AList.get]

/-- Evaluating `mcAfterTopWrite` on the empty cache (the batch's first
write creates the root's entry). -/
theorem mcAfterTopWrite_empty (r : Nat) (k : String) (v : JVal) :
    mcAfterTopWrite [] r k v = [(r, { dirty := true, muts := [(k, MutOp.setv v)] })] := by
  unfold mcAfterTopWrite MutCache.find ensureDirtyEntry
  simp only [AList.get, Option.getD, AList.set]
  unfold MutCache.find
  simp [AList.get, AList.set]

/-- Accumulation: successive effective top-level writes inside one batch
append their `set` records to the root's single dirty entry; nothing else in
the store changes. -/
theorem topWrites_accumulate (ws : List (String × JVal)) (st : StoreSt) (r : Nat)
    (fs : JFields) (ms : List (String × MutOp))
    (hact : st.inAction = true) (hstate : st.state = .obj r fs)
    (hch : st.children = []) (hpar : st.parents = [])
    (hmc : st.mc = [(r, { dirty := true, muts := ms })])
    (heff : ∀ kv ∈ ws, EffTopWrite st.state kv)
    (hdisj : ∀ kv ∈ ws, findMut ms kv.1 = none)
    (hnodup : (ws.map Prod.fst).Nodup) :
    runSteps st (topSteps ws) =
      { st with mc := [(r, { dirty := true, muts := ms ++ mkSetMuts ws })] } := by
  induction ws generalizing st ms with
  | nil =>
    simp only [topSteps, List.map, runSteps, mkSetMuts, List.append_nil]
    rw [← hmc]
  | cons kv rest ih =>
    have hkv := heff kv (List.mem_cons_self kv rest)
    have hpendkv : pendingMut st r kv.1 = none := by
      unfold pendingMut MutCache.find
      rw [hmc]
      have h1 : AList.get ([(r, { dirty := true, muts := ms })] : MutCache) r
          = some { dirty := true, muts := ms } := by simp [AList.get]
      rw [h1]
      exact hdisj kv (List.mem_cons_self kv rest)
    have hstep := runStep_topWrite st r fs kv.1 kv.2 hact hstate hch hpar hpendkv
      (by
        unfold EffTopWrite at hkv
        rw [hstate] at hkv
        exact hkv)
    rw [hmc] at hstep
    rw [mcAfterTopWrite_entry r ms kv.1 kv.2 (hdisj kv (List.mem_cons_self kv rest))] at hstep
    have hrest := ih
      { st with mc := [(r, { dirty := true, muts := ms ++ [(kv.1, MutOp.setv kv.2)] })] }
      (ms ++ [(kv.1, MutOp.setv kv.2)]) hact hstate hch hpar rfl
      (fun kv' h' => heff kv' (List.mem_cons_of_mem kv h'))
      (by
        intro kv' h'
        have h1 : findMut ms kv'.1 = none := hdisj kv' (List.mem_cons_of_mem kv h')
        have hne : kv.1 ≠ kv'.1 := by
          intro hcontra
          have hmem : kv'.1 ∈ rest.map Prod.fst := List.mem_map_of_mem Prod.fst h'
          rw [← hcontra] at hmem
          exact (List.nodup_cons.mp hnodup).1 hmem
        unfold findMut at h1 ⊢
        rw [AList.get_append, h1]
        simp [AList.get, hne])
      (List.nodup_cons.mp hnodup).2
    simp only [topSteps, List.map, runSteps]
    rw [show Step.swrite [] kv.1 kv.2
      = (fun kv : String × JVal => Step.swrite [] kv.1 kv.2) kv from rfl] at hstep
    rw [hstep]
    simp only [topSteps] at hrest
    rw [hrest]
    simp [mkSetMuts]

end BatchAtomicity


/-- The store state after a batch of top-level writes has accumulated (the
root holds one dirty entry with the recorded mutations). -/
def batchedStore (st : StoreSt) (r : Nat) (ms : List (String × MutOp)) : StoreSt :=
  { st with inAction := true, mc := [(r, { dirty := true, muts := ms })] }

@[simp] theorem batchedStore_state (st : StoreSt) (r : Nat) (ms : List (String × MutOp)) :
    (batchedStore st r ms).state = st.state := rfl

@[simp] theorem batchedStore_snap (st : StoreSt) (r : Nat) (ms : List (String × MutOp)) :
    (batchedStore st r ms).snap = st.snap := rfl

@[simp] theorem batchedStore_mc (st : StoreSt) (r : Nat) (ms : List (String × MutOp)) :
    (batchedStore st r ms).mc = [(r, { dirty := true, muts := ms })] := rfl

@[simp] theorem batchedStore_log (st : StoreSt) (r : Nat) (ms : List (String × MutOp)) :
    (batchedStore st r ms).log = st.log := rfl

@[simp] theorem batchedStore_nextId (st : StoreSt) (r : Nat) (ms : List (String × MutOp)) :
    (batchedStore st r ms).nextId = st.nextId := rfl

/-- Evaluating `flushMutations` on a store whose root has a pending entry
and whose flush is not `Object.is`-identical to the current state: the flush
is published, one listener round is appended to the log, and the mutation
cache is reset. -/
theorem flushMutations_eq (st : StoreSt) (r : Nat)
    (hobj : st.state.objId = some r)
    (hfind : (MutCache.find st.mc r).isSome = true)
    (hguard : JVal.is (getFlushed st.mc st.nextId st.state) st.state = false) :
    flushMutations st =
      { st with
        state := getFlushed st.mc st.nextId st.state,
        snap := mkSnapshot (getFlushed st.mc st.nextId st.state) (2 * st.nextId),
        mc := [],
        log := st.log
          ++ [(mkSnapshot (getFlushed st.mc st.nextId st.state) (2 * st.nextId), st.snap)],
        nextId := 2 * st.nextId + 1 } := by
  simp only [flushMutations, hobj, hfind, if_true, reduceIte, setState, hguard,
    Bool.false_eq_true]

/-- **C1**: dispatching an action that performs `N ≥ 1` effective synchronous
writes through the store's draft view triggers exactly one subscriber
notification round: the log is extended by exactly one entry, whose
`prevState` argument is reference-identical to the snapshot published before
the action began (`st.snap`), and whose `newState` argument — the snapshot
the action publishes — reflects all `N` writes (each written key reads back
as its deep-frozen written value, both in the new state and in the
published snapshot).  Effectiveness (`EffTopWrite`) excludes writes the
`set` trap drops by design: identical-value writes (C10) and writes to
non-writable non-configurable keys (C5). -/
theorem action_batches_writes_into_one_notification
    (st : StoreSt) (r : Nat) (fs : JFields) (ws : List (String × JVal))
    (hact : st.inAction = false) (hmc : st.mc = [])
    (hch : st.children = []) (hpar : st.parents = [])
    (hstate : st.state = .obj r fs)
    (hne : ws ≠ [])
    (hnodup : (ws.map Prod.fst).Nodup)
    (heff : ∀ kv ∈ ws, EffTopWrite st.state kv)
    (hfresh : 1 ≤ st.nextId) :
    (actRun st (topSteps ws)).log = st.log ++ [((actRun st (topSteps ws)).snap, st.snap)] ∧
    ∀ kv ∈ ws, topLookup (actRun st (topSteps ws)).state kv.1 = some (readonlyT kv.2) ∧
               topLookup (actRun st (topSteps ws)).snap kv.1 = some (readonlyT kv.2) := by
  cases ws with
  | nil => exact absurd rfl hne
  | cons w0 rest =>
    have hstate1 : ({ st with inAction := true } : StoreSt).state = JVal.obj r fs := hstate
    have hstep0 : runStep { st with inAction := true } (Step.swrite [] w0.1 w0.2)
        = batchedStore st r [(w0.1, MutOp.setv w0.2)] := by
      rw [runStep_topWrite { st with inAction := true } r fs w0.1 w0.2 rfl hstate1
        hch hpar (pendingMut_empty _ r w0.1 hmc)
        (by
          have h0 := heff w0 (List.mem_cons_self w0 rest)
          unfold EffTopWrite at h0
          rw [hstate] at h0
          exact h0)]
      rw [show ({ st with inAction := true } : StoreSt).mc = st.mc from rfl, hmc,
        mcAfterTopWrite_empty]
      rfl
    have hacc := topWrites_accumulate rest
      (batchedStore st r [(w0.1, MutOp.setv w0.2)])
      r fs [(w0.1, MutOp.setv w0.2)] rfl hstate hch hpar rfl
      (fun kv' h' => heff kv' (List.mem_cons_of_mem w0 h'))
      (by
        intro kv' h'
        have hne' : w0.1 ≠ kv'.1 := by
          intro hcontra
          have hmem : kv'.1 ∈ rest.map Prod.fst := List.mem_map_of_mem Prod.fst h'
          rw [← hcontra] at hmem
          exact (List.nodup_cons.mp hnodup).1 hmem
        simp [findMut, AList.get, hne'])
      (List.nodup_cons.mp hnodup).2
    have hbody : runSteps { st with inAction := true } (topSteps (w0 :: rest))
        = batchedStore st r (mkSetMuts (w0 :: rest)) := by
      simp only [topSteps, List.map, runSteps]
      rw [hstep0]
      simp only [topSteps] at hacc
      rw [hacc]
      unfold batchedStore mkSetMuts
      simp
    have hfull : actRun st (topSteps (w0 :: rest))
        = { flushMutations (batchedStore st r (mkSetMuts (w0 :: rest)))
            with inAction := false } := by
      simp only [actRun, hact, Bool.false_eq_true, reduceIte]
      rw [hbody]
    have hobj : (batchedStore st r (mkSetMuts (w0 :: rest))).state.objId = some r := by
      rw [batchedStore_state, hstate]
      rfl
    have hfindr : MutCache.find (batchedStore st r (mkSetMuts (w0 :: rest))).mc r
        = some { dirty := true, muts := mkSetMuts (w0 :: rest) } := by
      rw [batchedStore_mc]
      simp [MutCache.find, AList.get]
    have hflushed : getFlushed (batchedStore st r (mkSetMuts (w0 :: rest))).mc
          (batchedStore st r (mkSetMuts (w0 :: rest))).nextId
          (batchedStore st r (mkSetMuts (w0 :: rest))).state
        = .obj (r + st.nextId)
            (flushFields (batchedStore st r (mkSetMuts (w0 :: rest))).mc st.nextId fs
                (mkSetMuts (w0 :: rest))
              ++ newMutFields fs (mkSetMuts (w0 :: rest))) := by
      rw [batchedStore_state, batchedStore_nextId, hstate]
      unfold getFlushed
      rw [hfindr]
      simp
    have hguard : JVal.is
        (getFlushed (batchedStore st r (mkSetMuts (w0 :: rest))).mc
          (batchedStore st r (mkSetMuts (w0 :: rest))).nextId
          (batchedStore st r (mkSetMuts (w0 :: rest))).state)
        (batchedStore st r (mkSetMuts (w0 :: rest))).state = false := by
      rw [hflushed, batchedStore_state, hstate]
      simp only [JVal.is]
      simp only [beq_eq_false_iff_ne, ne_eq]
      omega
    have hflush := flushMutations_eq (batchedStore st r (mkSetMuts (w0 :: rest))) r hobj
      (by rw [hfindr]; rfl) hguard
    refine ⟨?_, ?_⟩
    · rw [hfull, hflush]
      simp only [batchedStore_log, batchedStore_snap, batchedStore_nextId]
    · intro kv hmem
      have hm : findMut (mkSetMuts (w0 :: rest)) kv.1 = some (.setv kv.2) := by
        unfold mkSetMuts
        exact findMut_mkSetMuts (w0 :: rest) kv hmem hnodup
      have hlook : topLookup
          (getFlushed (batchedStore st r (mkSetMuts (w0 :: rest))).mc
            (batchedStore st r (mkSetMuts (w0 :: rest))).nextId
            (batchedStore st r (mkSetMuts (w0 :: rest))).state) kv.1
          = some (readonlyT kv.2) := by
        rw [batchedStore_state, batchedStore_nextId, hstate]
        exact getFlushed_topLookup_set _ st.nextId r fs _ kv.1 kv.2 hfindr rfl hm
      constructor
      · rw [hfull, hflush]
        exact hlook
      · rw [hfull, hflush]
        exact (mkSnapshot_topLookup
          (getFlushed (batchedStore st r (mkSetMuts (w0 :: rest))).mc
            (batchedStore st r (mkSetMuts (w0 :: rest))).nextId
            (batchedStore st r (mkSetMuts (w0 :: rest))).state)
          (2 * (batchedStore st r (mkSetMuts (w0 :: rest))).nextId) kv.1).trans hlook

theorem action_batches_writes_into_one_notification_witness :
    (actRun demoStore (topSteps [("count", .prim 7), ("extra", .prim 4)])).log
      = demoStore.log
        ++ [((actRun demoStore (topSteps [("count", .prim 7), ("extra", .prim 4)])).snap,
             demoStore.snap)] ∧
    ∀ kv ∈ [(("count" : String), JVal.prim 7), ("extra", .prim 4)],
      topLookup (actRun demoStore (topSteps [("count", .prim 7), ("extra", .prim 4)])).state kv.1
        = some (readonlyT kv.2) ∧
      topLookup (actRun demoStore (topSteps [("count", .prim 7), ("extra", .prim 4)])).snap kv.1
        = some (readonlyT kv.2) :=
  action_batches_writes_into_one_notification demoStore 0 demoState.fieldsOf
    [("count", .prim 7), ("extra", .prim 4)] rfl rfl rfl rfl rfl
    (by simp) (by decide)
    (by
      intro kv hkv
      simp only [List.mem_cons, List.not_mem_nil, or_false] at hkv
      rcases hkv with h | h <;> subst h
      · exact ⟨Or.inr rfl, rfl⟩
      · exact trivial)
    (by decide)

/-- **C6, as the code actually behaves** (the claim describes the intended
behaviour; the code diverges): an action that throws synchronously after one
draft write publishes nothing — no subscriber round, `$get` still returns the
pre-action snapshot — but, `act` having no `try`/`finally`, the pending write
is *not* discarded (`mutationCache` still holds it) and `inAction` stays
`true`, so a subsequent action runs on the re-entrant path, never flushes,
and never publishes: the store does not continue to behave normally. -/
theorem thrown_action_corrupts_store :
    ((actRunThrow demoStore [Step.swrite [] "count" (.prim 1)]).log = [] ∧
     storeGet (actRunThrow demoStore [Step.swrite [] "count" (.prim 1)]) = demoStore.snap) ∧
    ((actRunThrow demoStore [Step.swrite [] "count" (.prim 1)]).inAction = true ∧
     (actRunThrow demoStore [Step.swrite [] "count" (.prim 1)]).mc.length = 1 ∧
     (actRun (actRunThrow demoStore [Step.swrite [] "count" (.prim 1)])
        [Step.swrite [] "count" (.prim 2)]).log = []) :=
  ⟨⟨rfl, rfl⟩, rfl, rfl, rfl⟩

/-! ## C3: structural sharing -/

section StructuralSharing

/-- Identifiers reachable from a found field value occur in the field list's
identifier multiset. -/
theorem findField_nodeIds_sub (fs : JFields) (b : String) (vb : JVal) (w c : Bool)
    (h : findField fs b = some (vb, w, c)) :
    ∀ x ∈ vb.nodeIds, x ∈ JVal.fieldsIds fs := by
  induction fs with
  | nil => simp [findField] at h
  | cons f rest ih =>
    obtain ⟨n, v, w0, c0⟩ := f
    by_cases hn : n = b
    · subst hn
      simp only [findField, if_true, reduceIte] at h
      cases h
      intro x hx
      simp only [JVal.fieldsIds, List.mem_append]
      exact Or.inl hx
    · simp only [findField, hn, if_false, reduceIte] at h
      intro x hx
      simp only [JVal.fieldsIds, List.mem_append]
      exact Or.inr (ih h x hx)

/-- In a duplicate-free field list, the value subtrees found at two distinct
names share no identifier. -/
theorem findField_disjoint_ids (fs : JFields) (a b : String) (va vb : JVal)
    (wa ca wb cb : Bool) (hne : a ≠ b) (hnodup : (JVal.fieldsIds fs).Nodup)
    (ha : findField fs a = some (va, wa, ca)) (hb : findField fs b = some (vb, wb, cb)) :
    ∀ x ∈ va.nodeIds, x ∉ vb.nodeIds := by
  induction fs with
  | nil => simp [findField] at ha
  | cons f rest ih =>
    obtain ⟨n, v, w0, c0⟩ := f
    have hsplit := List.nodup_append.mp (by simpa [JVal.fieldsIds] using hnodup)
    by_cases hna : n = a
    · subst hna
      simp only [findField, if_true, reduceIte] at ha
      cases ha
      have hb' : findField rest b = some (vb, wb, cb) := by
        simpa [findField, hne] using hb
      intro x hx hx'
      exact hsplit.2.2 hx (findField_nodeIds_sub rest b vb wb cb hb' x hx')
    · by_cases hnb : n = b
      · subst hnb
        simp only [findField, if_true, reduceIte] at hb
        cases hb
        have ha' : findField rest a = some (va, wa, ca) := by
          simpa [findField, hna] using ha
        intro x hx hx'
        exact hsplit.2.2 hx' (findField_nodeIds_sub rest a va wa ca ha' x hx)
      · have ha' : findField rest a = some (va, wa, ca) := by
          simpa [findField, hna] using ha
        have hb' : findField rest b = some (vb, wb, cb) := by
          simpa [findField, hnb] using hb
        exact ih hsplit.2.1 ha' hb'

/-- Looking up a key with no pending mutation in the object-keys pass gives
the original descriptor, with the value flushed recursively when the key is
configurable. -/
theorem flushFields_lookup_nomut (mc : MutCache) (off : Nat) (fs : JFields)
    (ms : List (String × MutOp)) (b : String) (hm : findMut ms b = none) :
    findField (flushFields mc off fs ms) b
      = (findField fs b).map
          (fun d => ((if d.2.2 = true then getFlushed mc off d.1 else d.1), d.2.1, d.2.2)) := by
  induction fs with
  | nil => simp [flushFields, findField]
  | cons f rest ih =>
    obtain ⟨n, v, w0, c0⟩ := f
    by_cases hn : n = b
    · subst hn
      simp only [flushFields, hm]
      simp [findField]
    · simp only [flushFields]
      cases hm0 : findMut ms n with
      | none =>
        simp only [findField, hn, if_false, reduceIte]
        exact ih
      | some op =>
        cases op with
        | setv v' =>
          simp only [findField, hn, if_false, reduceIte]
          exact ih
        | del =>
          show findField (flushFields mc off rest ms) b = _
          rw [ih]
          simp [findField, hn]

@[simp] theorem newMutFields_nil (fs : JFields) : newMutFields fs [] = [] := rfl

/-- A value whose root has no pending entry is returned by reference. -/
theorem getFlushed_no_entry (mc : MutCache) (off : Nat) (v : JVal)
    (h : match v.objId with
         | some i => MutCache.find mc i = none
         | none => True) :
    getFlushed mc off v = v := by
  cases v with
  | prim n => rfl
  | obj i fs =>
    simp only [JVal.objId] at h
    unfold getFlushed
    rw [h]

theorem dirtyClosure_pair (ia r : Nat) (h : r ≠ ia) :
    dirtyClosure [(ia, [r])] ia = [ia, r] := by
  unfold dirtyClosure closureBound
  simp only [List.flatMap, List.length]
  show (closureStep [(ia, [r])])^[2] [ia] = [ia, r]
  have h' : ia ≠ r := fun hh => h hh.symm
  have h1 : closureStep [(ia, [r])] [ia] = [ia, r] := by
    unfold closureStep parentsOfD
    simp [AList.get, List.flatMap, h, h']
  have h2 : closureStep [(ia, [r])] [ia, r] = [ia, r] := by
    unfold closureStep parentsOfD
    simp [AList.get, List.flatMap, h, h']
  rw [show (2 : Nat) = 1 + 1 from rfl, Function.iterate_add_apply]
  simp only [Function.iterate_one]
  rw [h1, h2]

end StructuralSharing

/-- Lookup in the flushed root, at a key whose subtree the flush does not
touch, returns the original value (by reference). -/
theorem flushed_root_lookup_sibling (mc : MutCache) (off r : Nat) (fs : JFields) (b : String)
    (hfind : MutCache.find mc r = some { dirty := true, muts := [] })
    (hvb : ∀ vb wb cb, findField fs b = some (vb, wb, cb) → getFlushed mc off vb = vb) :
    topLookup (getFlushed mc off (.obj r fs)) b = topLookup (.obj r fs) b := by
  unfold getFlushed
  rw [hfind]
  simp only [if_true, reduceIte]
  unfold topLookup JVal.fieldsOf
  rw [newMutFields_nil, List.append_nil]
  rw [flushFields_lookup_nomut mc off fs [] b rfl]
  cases hd : findField fs b with
  | none => rfl
  | some d =>
    obtain ⟨vb, wb, cb⟩ := d
    simp only [Option.map]
    rw [hvb vb wb cb hd]
    cases cb <;> simp

/-- The store after resolving the single-hop write path `this.a`: the child
link and the parent back-reference are registered. -/
def linkedStore (st : StoreSt) (r ia : Nat) (a : String) : StoreSt :=
  { st with
    inAction := true
    children := [(r, [(a, ia)])]
    parents := [(ia, [r])] }

/-- The store after the write at `this.a.k` was recorded: the target holds
the `set` record, and `markDirty` flagged the target and (via the parent
back-reference) the root. -/
def writtenStore (st : StoreSt) (r ia : Nat) (a k : String) (v : JVal) : StoreSt :=
  { st with
    inAction := true
    children := [(r, [(a, ia)])]
    parents := [(ia, [r])]
    mc := [(ia, { dirty := true, muts := [(k, MutOp.setv v)] }),
           (r, { dirty := true, muts := [] })] }

/-- The core of C3: an action performing one draft write inside the subtree
under top-level key `a` leaves every other top-level key `b` bound to its
previous value by reference in the committed snapshot. -/
theorem deep_write_preserves_sibling
    (st : StoreSt) (r ia : Nat) (fs gsa : JFields) (a b k : String) (v : JVal) (wa ca : Bool)
    (hact : st.inAction = false) (hmc : st.mc = []) (hch : st.children = [])
    (hpar : st.parents = []) (hstate : st.state = .obj r fs)
    (hnodup : (JVal.nodeIds st.state).Nodup)
    (hfa : findField fs a = some (.obj ia gsa, wa, ca))
    (hba : b ≠ a) (hfresh : 1 ≤ st.nextId) :
    topLookup (actRun st [Step.swrite [a] k v]).state b = topLookup st.state b := by
  obtain ⟨sstate, ssnap, sact, smc, sch, spar, slog, snid⟩ := st
  simp only at hact hmc hch hpar hstate hnodup hfresh ⊢
  subst hact hmc hch hpar hstate
  have hnodup' : (r :: JVal.fieldsIds fs).Nodup := by
    simpa [JVal.nodeIds] using hnodup
  have hrnotin : r ∉ JVal.fieldsIds fs := (List.nodup_cons.mp hnodup').1
  have hfsnodup : (JVal.fieldsIds fs).Nodup := (List.nodup_cons.mp hnodup').2
  have hiain : ia ∈ JVal.fieldsIds fs :=
    findField_nodeIds_sub fs a (.obj ia gsa) wa ca hfa ia (by simp [JVal.nodeIds])
  have hria : r ≠ ia := fun hcontra => hrnotin (hcontra ▸ hiain)
  have hiar : ia ≠ r := fun hh => hria hh.symm
  have hget : trapGet (⟨.obj r fs, ssnap, true, [], [], [], slog, snid⟩ : StoreSt)
      (.obj r fs) a
      = (⟨.obj r fs, ssnap, true, [], [(r, [(a, ia)])], [(ia, [r])], slog, snid⟩,
         .proxied (.obj ia gsa)) := by
    simp only [trapGet, MutCache.find, AList.get, hfa]
    simp [AList.set]
  have hres : resolveWrite (⟨.obj r fs, ssnap, true, [], [], [], slog, snid⟩ : StoreSt) [a]
      = (⟨.obj r fs, ssnap, true, [], [(r, [(a, ia)])], [(ia, [r])], slog, snid⟩,
         some (.obj ia gsa)) := by
    unfold resolveWrite
    simp only [resolveFrom, hget]
  have hrun : runSteps (⟨.obj r fs, ssnap, true, [], [], [], slog, snid⟩ : StoreSt)
      [Step.swrite [a] k v]
      = (trapSet (⟨.obj r fs, ssnap, true, [], [(r, [(a, ia)])], [(ia, [r])], slog, snid⟩
          : StoreSt) (.obj ia gsa) k v).1 := by
    simp only [runSteps, runStep, hres]
  have htrap : (trapSet (⟨.obj r fs, ssnap, true, [], [(r, [(a, ia)])], [(ia, [r])], slog,
        snid⟩ : StoreSt) (.obj ia gsa) k v).1
      = (⟨.obj r fs, ssnap, true, [], [(r, [(a, ia)])], [(ia, [r])], slog, snid⟩ : StoreSt)
      ∨ (trapSet (⟨.obj r fs, ssnap, true, [], [(r, [(a, ia)])], [(ia, [r])], slog, snid⟩
          : StoreSt) (.obj ia gsa) k v).1
        = setValue (⟨.obj r fs, ssnap, true, [], [(r, [(a, ia)])], [(ia, [r])], slog, snid⟩
            : StoreSt) ia { dirty := false, muts := [] } k v := by
    simp only [trapSet, MutCache.find, AList.get, Option.getD]
    rw [show findMut ({ dirty := false, muts := [] } : MutEntry).muts k = none from rfl]
    split
    · exact Or.inl rfl
    · cases hd : findField gsa k with
      | none => exact Or.inr rfl
      | some d =>
        obtain ⟨v0, w0, c0⟩ := d
        by_cases hid : JVal.is v0 v = true
        · exact Or.inl (by simp [hid])
        · exact Or.inr (by simp [hid])
  have hactrun : actRun (⟨.obj r fs, ssnap, false, [], [], [], slog, snid⟩ : StoreSt)
      [Step.swrite [a] k v]
      = { flushMutations ((trapSet (⟨.obj r fs, ssnap, true, [], [(r, [(a, ia)])],
          [(ia, [r])], slog, snid⟩ : StoreSt) (.obj ia gsa) k v).1) with inAction := false } := by
    simp only [actRun]
    rw [if_neg (by simp)]
    rw [hrun]
  rw [hactrun]
  rcases htrap with hcase | hcase
  · rw [hcase]
    rfl
  · rw [hcase]
    have hsetv : setValue (⟨.obj r fs, ssnap, true, [], [(r, [(a, ia)])], [(ia, [r])], slog,
        snid⟩ : StoreSt) ia { dirty := false, muts := [] } k v
        = (⟨.obj r fs, ssnap, true,
            [(ia, { dirty := true, muts := [(k, MutOp.setv v)] }),
             (r, { dirty := true, muts := [] })],
            [(r, [(a, ia)])], [(ia, [r])], slog, snid⟩ : StoreSt) := by
      have hunlink : unlinkCache (⟨.obj r fs, ssnap, true, [], [(r, [(a, ia)])],
          [(ia, [r])], slog, snid⟩ : StoreSt) ia k
          = (⟨.obj r fs, ssnap, true, [], [(r, [(a, ia)])], [(ia, [r])], slog, snid⟩
            : StoreSt) := by
        unfold unlinkCache
        rw [show AList.get [(r, [(a, ia)])] ia = (none : Option (List (String × Nat))) from by
          simp [AList.get, hria]]
      simp only [setValue, hunlink, markDirty]
      rw [show AList.set ([] : MutCache) ia
          { dirty := false, muts := AList.set ([] : List (String × MutOp)) k (MutOp.setv v) }
        = [(ia, { dirty := false, muts := [(k, MutOp.setv v)] })] from rfl]
      rw [show (dirtyClosure [(ia, [r])] ia) = [ia, r] from dirtyClosure_pair ia r hria]
      simp only [List.foldl]
      rw [show ensureDirtyEntry [(ia, { dirty := false, muts := [(k, MutOp.setv v)] })] ia
        = [(ia, { dirty := true, muts := [(k, MutOp.setv v)] })] from by
          unfold ensureDirtyEntry MutCache.find
          simp [AList.get, AList.set]]
      rw [show ensureDirtyEntry [(ia, { dirty := true, muts := [(k, MutOp.setv v)] })] r
        = [(ia, { dirty := true, muts := [(k, MutOp.setv v)] }),
           (r, { dirty := true, muts := [] })] from by
          unfold ensureDirtyEntry MutCache.find
          simp [AList.get, AList.set, hiar]]
      rfl
    rw [hsetv]
    have hfindr : MutCache.find [(ia, { dirty := true, muts := [(k, MutOp.setv v)] }),
        (r, { dirty := true, muts := [] })] r = some { dirty := true, muts := [] } := by
      simp [MutCache.find, AList.get, hiar]
    have hobj : (JVal.obj r fs).objId = some r := rfl
    have hflushed : getFlushed [(ia, { dirty := true, muts := [(k, MutOp.setv v)] }),
          (r, { dirty := true, muts := [] })] snid (.obj r fs)
        = .obj (r + snid)
            (flushFields [(ia, { dirty := true, muts := [(k, MutOp.setv v)] }),
              (r, { dirty := true, muts := [] })] snid fs []
              ++ newMutFields fs []) := by
      unfold getFlushed
      rw [hfindr]
      rfl
    have hguard : JVal.is (getFlushed [(ia, { dirty := true, muts := [(k, MutOp.setv v)] }),
          (r, { dirty := true, muts := [] })] snid (.obj r fs)) (.obj r fs) = false := by
      rw [hflushed]
      simp only [JVal.is]
      simp only [beq_eq_false_iff_ne, ne_eq]
      omega
    have hflush := flushMutations_eq (⟨.obj r fs, ssnap, true,
        [(ia, { dirty := true, muts := [(k, MutOp.setv v)] }),
         (r, { dirty := true, muts := [] })],
        [(r, [(a, ia)])], [(ia, [r])], slog, snid⟩ : StoreSt) r hobj
      (by rw [show MutCache.find (⟨.obj r fs, ssnap, true,
          [(ia, { dirty := true, muts := [(k, MutOp.setv v)] }),
           (r, { dirty := true, muts := [] })],
          [(r, [(a, ia)])], [(ia, [r])], slog, snid⟩ : StoreSt).mc r
        = some { dirty := true, muts := [] } from hfindr]; rfl)
      hguard
    rw [hflush]
    show topLookup (getFlushed [(ia, { dirty := true, muts := [(k, MutOp.setv v)] }),
      (r, { dirty := true, muts := [] })] snid (.obj r fs)) b = topLookup (.obj r fs) b
    rw [flushed_root_lookup_sibling _ snid r fs b hfindr ?_]
    intro vb wb cb hfb
    apply getFlushed_no_entry
    cases vb with
    | prim n => exact trivial
    | obj ib gsb =>
      show MutCache.find [(ia, { dirty := true, muts := [(k, MutOp.setv v)] }),
        (r, { dirty := true, muts := [] })] ib = none
      have hibin : ib ∈ JVal.fieldsIds fs :=
        findField_nodeIds_sub fs b (.obj ib gsb) wb cb hfb ib (by simp [JVal.nodeIds])
      have hibr : ib ≠ r := fun hcontra => hrnotin (hcontra ▸ hibin)
      have hibia : ib ≠ ia := by
        intro hcontra
        exact findField_disjoint_ids fs b a (.obj ib gsb) (.obj ia gsa) wb cb wa ca hba
          hfsnodup hfb hfa ib (by simp [JVal.nodeIds]) (hcontra ▸ (by simp [JVal.nodeIds]))
      have e1 : (ia == ib) = false := beq_eq_false_iff_ne.mpr (fun hh => hibia hh.symm)
      have e2 : (r == ib) = false := beq_eq_false_iff_ne.mpr (fun hh => hibr hh.symm)
      simp [MutCache.find, AList.get, e1, e2]

/-- **C3**: committing a draft never copies an object that is not,
transitively, an ancestor of a written object: (1) `getFlushed` returns any
value with no recorded entry by reference (no copy); (2) `$get` called twice
with no intervening write returns the same snapshot reference (an empty
batch publishes nothing); (3) after a write that dirties only the subtree
under key `a`, every sibling top-level subtree keeps its previous reference
(term-identical, hence reference-identical under the unique-identity
invariant) in the new snapshot. -/
theorem flush_structural_sharing :
    (∀ (mc : MutCache) (off : Nat) (v : JVal),
      (match v.objId with
       | some i => MutCache.find mc i = none
       | none => True) →
      getFlushed mc off v = v) ∧
    (∀ st : StoreSt, st.inAction = false → st.mc = [] →
      storeGet (actRun st []) = storeGet st) ∧
    (∀ (st : StoreSt) (r ia : Nat) (fs gsa : JFields) (a b k : String) (v : JVal)
       (wa ca : Bool),
      st.inAction = false → st.mc = [] → st.children = [] → st.parents = [] →
      st.state = .obj r fs → (JVal.nodeIds st.state).Nodup →
      findField fs a = some (.obj ia gsa, wa, ca) → b ≠ a → 1 ≤ st.nextId →
      topLookup (actRun st [Step.swrite [a] k v]).state b = topLookup st.state b) := by
  refine ⟨getFlushed_no_entry, ?_, ?_⟩
  · intro st hact hmc
    obtain ⟨sstate, ssnap, sact, smc, sch, spar, slog, snid⟩ := st
    simp only at hact hmc
    subst hact hmc
    simp only [actRun]
    rw [if_neg (by simp)]
    simp only [runSteps]
    cases sstate <;> rfl
  · intro st r ia fs gsa a b k v wa ca hact hmc hch hpar hstate hnodup hfa hba hfresh
    exact deep_write_preserves_sibling st r ia fs gsa a b k v wa ca hact hmc hch hpar
      hstate hnodup hfa hba hfresh

theorem flush_structural_sharing_witness :
    getFlushed [] 5 demoState = demoState ∧
    storeGet (actRun demoStore []) = storeGet demoStore ∧
    topLookup (actRun demoStore [Step.swrite ["nested"] "x" (.prim 9)]).state "other"
      = topLookup demoStore.state "other" :=
  ⟨flush_structural_sharing.1 [] 5 demoState (by rfl),
   flush_structural_sharing.2.1 demoStore rfl rfl,
   flush_structural_sharing.2.2 demoStore 0 1 demoState.fieldsOf
     [("x", .prim 1, false, true)] "nested" "other" "x" (.prim 9) false true
     rfl rfl rfl rfl rfl (by decide) rfl (by decide) (by decide)⟩

/-! ## C2: computed cache and dependency-based invalidation

The dependency tracking itself (`createProxy`/`isChanged`/`affected`) lives
in the `proxy-compare` package, a dependency whose sources are not part of
this repository; it is modelled here from the specification of the
access-tracking engine (§4.1), and the cache consultation around it from
`snapshotComputedState`/`computedCache`. -/

/-- Modelled from the spec: the per-object record of an AccessMap — which
keys were value-read (recursing), which were existence-checked, and whether
the full key set was enumerated. -/
structure Used : Type where
  keys : List String
  hasKeys : List String
  allOwnKeys : Bool
  deriving Repr

/-- Modelled from the spec: an AccessMap — an identity-keyed record of the
operations performed against each visited object. -/
abbrev Affected : Type := List (Nat × Used)

/-- Modelled from the spec: `changed(oldRoot, newRoot, accessMap)` of the
access-tracking engine (§4.1) — `isChanged` of the `proxy-compare`
dependency.  It walks only the edges present in the access map; for each
recorded key read it compares the values at that key by identity and, when
they differ, recurses only into recorded edges, otherwise reports changed;
`has` edges compare existence and `own-keys` edges compare the key set.
`fuel` bounds the recursion depth (the walk descends the old value, so any
fuel at least the old value's depth performs the complete walk; out of
fuel the model answers `true` = changed, the conservative direction, which
can only cause a recompute, never a stale reuse). -/
def isChangedA : Nat → Option JVal → Option JVal → Affected → Bool
  | 0, _, _, _ => true
  | fuel+1, o?, n?, aff =>
    match o?, n? with
    | none, none => false
    | none, some _ => true
    | some _, none => true
    | some o, some n =>
      if JVal.is o n then false
      else
        match o with
        | .prim _ => true
        | .obj i fs =>
          match AList.get aff i with
          | none => true
          | some u =>
            (u.hasKeys.any fun k => hasFieldB fs k != hasFieldB n.fieldsOf k)
            || (u.allOwnKeys && (fs.map (fun f => f.1) != n.fieldsOf.map (fun f => f.1)))
            || (u.keys.any fun k =>
                 isChangedA fuel ((findField fs k).map (fun d => d.1))
                   ((findField n.fieldsOf k).map (fun d => d.1)) aff)

/-- A `computedCache` entry: the state the computed was last evaluated
against, the access map recorded during that evaluation, and the cached
value. -/
structure CompEntry : Type where
  state : JVal
  affected : Affected
  cachedResult : JVal

/-- The cache consultation of a computed read (the getter installed by
`snapshotComputedState`, equally the computed branch of the store proxy):
if the entry's access map proves the current state unchanged at every
touched path, the cached value is returned as is and the evaluator is not
invoked; otherwise the evaluator runs against a tracked view — modelled as
returning its value together with the access map it recorded — and the
entry is replaced.  The boolean reports whether the evaluator was
invoked. -/
def readComputed (fuel : Nat) (cache : Option CompEntry) (state : JVal)
    (E : JVal → JVal × Affected) : JVal × Bool × Option CompEntry :=
  match cache with
  | some entry =>
    if isChangedA fuel (some entry.state) (some state) entry.affected = false then
      (entry.cachedResult, false, some entry)
    else
      ((E state).1, true, some ⟨state, (E state).2, (E state).1⟩)
  | none =>
    ((E state).1, true, some ⟨state, (E state).2, (E state).1⟩)

/-- **C2** (dependency tracking modelled from the spec): let `c` be a
computed whose evaluation against `S1` read only the path `ka.kb` (its
access map touches the root at key `ka` and the `ka`-object at key `kb`,
plus anything inside the `ka.kb` subtree, which the walk never reaches when
that subtree is shared).  If `S2` differs from `S1` only outside `ka.kb` —
the value at `ka.kb` is the same reference `B` in both — then reading `c`
against `S2` returns the cached value by reference and does not invoke the
evaluator, and the cache entry survives unchanged. -/
theorem computed_reuse_when_untouched_paths_unchanged
    (fuel : Nat) (E : JVal → JVal × Affected)
    (S1 S2 A1 A2 B res : JVal) (i1 i2 ia1 : Nat)
    (fs1 fs2 gs1 : JFields) (wa1 ca1 wa2 ca2 : Bool)
    (aff : Affected) (ka kb : String)
    (hS1 : S1 = .obj i1 fs1) (hS2 : S2 = .obj i2 fs2) (hne : i1 ≠ i2)
    (hroot : AList.get aff i1 = some ⟨[ka], [], false⟩)
    (ha1 : findField fs1 ka = some (A1, wa1, ca1)) (hA1 : A1 = .obj ia1 gs1)
    (ha2 : findField fs2 ka = some (A2, wa2, ca2))
    (haff1 : AList.get aff ia1 = some ⟨[kb], [], false⟩)
    (hb1 : (findField gs1 kb).map (fun d => d.1) = some B)
    (hb2 : (findField A2.fieldsOf kb).map (fun d => d.1) = some B) :
    readComputed (fuel + 3) (some ⟨S1, aff, res⟩) S2 E
      = (res, false, some ⟨S1, aff, res⟩) := by
  have hnotchanged : isChangedA (fuel + 3) (some S1) (some S2) aff = false := by
    rw [hS1, hS2]
    show isChangedA (fuel + 2 + 1) (some (.obj i1 fs1)) (some (.obj i2 fs2)) aff = false
    simp only [isChangedA]
    rw [show JVal.is (.obj i1 fs1) (.obj i2 fs2) = false from by
      simp [JVal.is]; exact hne]
    simp only [Bool.false_eq_true, if_false, reduceIte, hroot]
    simp only [List.any_nil, List.any_cons, Bool.false_and, Bool.false_or, Bool.or_false]
    rw [ha1]
    simp only [Option.map]
    rw [show JVal.fieldsOf (.obj i2 fs2) = fs2 from rfl, ha2]
    simp only [Option.map]
    by_cases hshared : JVal.is A1 A2 = true
    · show isChangedA (fuel + 1 + 1) (some A1) (some A2) aff = false
      simp only [isChangedA, hshared, if_true, reduceIte]
    · show isChangedA (fuel + 1 + 1) (some A1) (some A2) aff = false
      simp only [isChangedA, hshared, Bool.false_eq_true, if_false, reduceIte]
      rw [hA1]
      simp only [haff1]
      simp only [List.any_nil, List.any_cons, Bool.false_and, Bool.false_or, Bool.or_false]
      rw [hb1, hb2]
      simp only [JVal.is_refl, if_true, reduceIte]
  simp only [readComputed, hnotchanged, if_true, reduceIte]

/-- The shared `a.b` subtree used by the C2 witness. -/
def demoB : JVal := .obj 102 [("z", .prim 1, false, true)]

def demoS1 : JVal :=
  .obj 100 [("a", .obj 101 [("b", demoB, false, true)], false, true), ("c", .prim 0, false, true)]

/-- Differs from `demoS1` only outside `a.b`: fresh root, fresh `a` object,
new `c`, but the same `demoB` reference at `a.b`. -/
def demoS2 : JVal :=
  .obj 200 [("a", .obj 201 [("b", demoB, false, true)], false, true), ("c", .prim 5, false, true)]

def demoAff : Affected :=
  [(100, { keys := ["a"], hasKeys := [], allOwnKeys := false }),
   (101, { keys := ["b"], hasKeys := [], allOwnKeys := false })]

theorem computed_reuse_when_untouched_paths_unchanged_witness :
    readComputed 3 (some ⟨demoS1, demoAff, .prim 42⟩) demoS2 (fun _ => (.prim 0, []))
      = (.prim 42, false, some ⟨demoS1, demoAff, .prim 42⟩) :=
  computed_reuse_when_untouched_paths_unchanged 0 (fun _ => (.prim 0, []))
    demoS1 demoS2 (.obj 101 [("b", demoB, false, true)]) (.obj 201 [("b", demoB, false, true)])
    demoB (.prim 42) 100 200 101
    [("a", .obj 101 [("b", demoB, false, true)], false, true), ("c", .prim 0, false, true)]
    [("a", .obj 201 [("b", demoB, false, true)], false, true), ("c", .prim 5, false, true)]
    [("b", demoB, false, true)] false true false true demoAff "a" "b"
    rfl rfl (by decide) rfl rfl rfl rfl rfl rfl rfl

/-! ## The heap model

`readonly` (freeze enforcement on the constructor slice) and `untrack`
(undrafting values read out of actions) both carry a visited set precisely
because the object graphs they walk may be cyclic.  Cycles cannot be
represented in the tree model above, so these two utilities are embedded over
an explicit heap: a finite association list from object identities to nodes.
A node records its prototype/iterability class (`canProxy` looks at it), its
own property list (name, value, `writable`, `configurable`, `enumerable`),
and — for proxy-compare tracking proxies — the identity of the underlying
target (`getUntracked`).  References are `HVal.href`; primitives are
`HVal.hprim`.

Both walks are written with a fuel argument guarding re-entry into the
fields loop.  Fuel is a modelling device only: each re-entry adds one node to
the visited set, the visited check stops revisits, so the source recursion's
depth never exceeds the number of heap nodes, and any fuel of at least that
size performs the source's computation in full (theorems below use such
fuel, and the key second-pass lemma holds for every fuel). -/

inductive HVal : Type where
  | hprim : Int → HVal
  | href : Nat → HVal
  deriving Repr, DecidableEq

/-- `Object.is` on heap values: primitives by value, objects by identity. -/
def hvIs : HVal → HVal → Bool
  | .hprim a, .hprim b => a == b
  | .href a, .href b => a == b
  | _, _ => false

/-- The three `canProxy` classes: a plain object (prototype
`Object.prototype`, not iterable), an array, or anything else (class
instance, `Map`, iterable, …). -/
inductive HKind : Type where
  | plain : HKind
  | arr : HKind
  | exotic : HKind
  deriving Repr, DecidableEq

structure HField : Type where
  name : String
  value : HVal
  writable : Bool
  configurable : Bool
  enumerable : Bool
  deriving Repr, DecidableEq

/-- A heap node.  `untrackedOf = some t` marks a proxy-compare tracking proxy
whose target is node `t` (`getUntracked` returns it); plain data objects have
`untrackedOf = none`. -/
structure HNode : Type where
  kind : HKind
  fields : List HField
  untrackedOf : Option Nat
  deriving Repr, DecidableEq

abbrev Heap : Type := List (Nat × HNode)

/-- Own property lookup (`Reflect.getOwnPropertyDescriptor`): first field with
the given name. -/
def findHField : List HField → String → Option HField
  | [], _ => none
  | f :: rest, k => if f.name = k then some f else findHField rest k

/-- The field list of node `i` (empty when `i` is not on the heap). -/
def hfieldsOf (h : Heap) (i : Nat) : List HField :=
  match AList.get h i with
  | some nd => nd.fields
  | none => []

/-- `getUntracked` of proxy-compare, modelled by the `untrackedOf` component:
`some t` when node `i` is a tracking proxy over target `t`. -/
def getUntrackedH (h : Heap) (i : Nat) : Option Nat :=
  (AList.get h i).bind HNode.untrackedOf

/-- `canProxy` on the heap: a non-null object that is an array, or a
non-iterable object whose prototype is `Object.prototype`. -/
def canProxyH (h : Heap) (v : HVal) : Bool :=
  match v with
  | .hprim _ => false
  | .href i =>
    match AList.get h i with
    | some nd => nd.kind == HKind.arr || nd.kind == HKind.plain
    | none => false

/-- Rewrite one node in place, leaving the heap unchanged when the node is
absent (so the heap's identifier listing never changes). -/
def updateNode (h : Heap) (i : Nat) (f : HNode → HNode) : Heap :=
  match AList.get h i with
  | none => h
  | some nd => AList.set h i (f nd)

/-- `desc.writable = false; Object.defineProperty(target, key, desc)`: the
descriptor was read out, so only the `writable` attribute changes. -/
def setFieldW : List HField → String → List HField
  | [], _ => []
  | f :: rest, k =>
    if f.name = k then { f with writable := false } :: rest else f :: setFieldW rest k

def setFieldNonWritable (h : Heap) (tid : Nat) (k : String) : Heap :=
  updateNode h tid (fun nd => { nd with fields := setFieldW nd.fields k })

/-- Non-strict-mode assignment `x[k] = vv` to an own data property: silently
ignored when the property is non-writable. -/
def setFieldVals : List HField → String → HVal → List HField
  | [], _, _ => []
  | f :: rest, k, v =>
    if f.name = k then (if f.writable then { f with value := v } :: rest else f :: rest)
    else f :: setFieldVals rest k v

def setFieldValue (h : Heap) (tid : Nat) (k : String) (v : HVal) : Heap :=
  updateNode h tid (fun nd => { nd with fields := setFieldVals nd.fields k v })

/-- The keys a `for (const k in x)` loop visits: own enumerable property
names, in insertion order. -/
def enumKeys (fs : List HField) : List String :=
  (fs.filter (fun f => f.enumerable)).map HField.name

/-! ### readonly (freeze enforcement), src/index.ts lines 885-899

`readonly(target, deep, visited)`:

    if (!canProxy(target)) return target;
    if (visited.has(target)) return target;
    visited.add(target);
    for (const key of Reflect.ownKeys(target)) {
      const desc = Reflect.getOwnPropertyDescriptor(target, key)!;
      if (!desc.configurable) continue;
      if (deep && desc.value && canProxy(desc.value)) readonly(desc.value, true, visited);
      if (!desc.writable) continue;
      desc.writable = false;
      Object.defineProperty(target, key, desc);
    }
    return target;

The per-key loop is the standalone `roFields`, taking the recursive call as
its `go` argument; `readonlyGo` ties the knot, decrementing fuel exactly when
the loop is entered.  The recursive call passes `deep = true` literally, as
the source does; the `deep &&` guard uses the caller's flag.  (`desc.value &&`
rules out falsy values, all of which are primitives, so it is subsumed by
`canProxy`.)  The returned target itself is the argument, so only the heap
and visited set are returned. -/

def roFields (go : Heap → List Nat → Nat → Heap × List Nat) (deep : Bool) (tid : Nat) :
    List String → Heap × List Nat → Heap × List Nat
  | [], acc => acc
  | k :: rest, acc =>
    match findHField (hfieldsOf acc.1 tid) k with
    | none => roFields go deep tid rest acc
    | some fld =>
      if fld.configurable then
        let r :=
          match fld.value with
          | .href c => if deep && canProxyH acc.1 (.href c) then go acc.1 acc.2 c else acc
          | .hprim _ => acc
        roFields go deep tid rest
          (if fld.writable then setFieldNonWritable r.1 tid k else r.1, r.2)
      else roFields go deep tid rest acc

def readonlyGo : Nat → Bool → Heap → List Nat → Nat → Heap × List Nat
  | fuel, deep, h, vis, tid =>
    match AList.get h tid with
    | none => (h, vis)
    | some nd =>
      if nd.kind == HKind.arr || nd.kind == HKind.plain then
        if vis.contains tid then (h, vis)
        else
          match fuel with
          | 0 => (h, vis)
          | fuel' + 1 =>
            roFields (readonlyGo fuel' true) deep tid (nd.fields.map HField.name) (h, tid :: vis)
      else (h, vis)

/-- `readonly(slice, true)` as `create` invokes it (src/index.ts line 273),
with a fresh visited set. -/
def readonlyH (fuel : Nat) (h : Heap) (root : Nat) : Heap :=
  (readonlyGo fuel true h [] root).1

/-! ### untrack (undraft), src/index.ts lines 972-989

    const untrack = <T>(x: T, seen: WeakSet<object> = new WeakSet()): T => {
      if (!isObject(x)) return x;
      const untrackedObj = getUntracked(x);
      if (untrackedObj) { trackMemo(x); trackMemoUntrackedObjSet.add(untrackedObj); return untrackedObj; }
      if (!seen.has(x)) {
        seen.add(x);
        for (const k in x) {
          const v = x[k as keyof T];
          const vv = untrack(v, seen);
          if (!Object.is(vv, v)) x[k as keyof T] = vv;
        }
      }
      return x;
    };

`trackMemo` and `trackMemoUntrackedObjSet` only record usage metadata for the
memoization layer and touch no value, so they have no counterpart here.  The
`for`-in key list is fixed at loop entry (only values change under the loop),
while `x[k]` rereads the current heap, exactly as in the source.  Fuel is
consumed exactly when the fields loop is entered. -/

def untrackFields (go : Heap → List Nat → HVal → HVal × Heap × List Nat) (tid : Nat) :
    List String → Heap × List Nat → Heap × List Nat
  | [], acc => acc
  | k :: rest, acc =>
    match findHField (hfieldsOf acc.1 tid) k with
    | none => untrackFields go tid rest acc
    | some fld =>
      let r := go acc.1 acc.2 fld.value
      untrackFields go tid rest
        (if hvIs r.1 fld.value then r.2.1 else setFieldValue r.2.1 tid k r.1, r.2.2)

def untrackGo : Nat → Heap → List Nat → HVal → HVal × Heap × List Nat
  | _, h, seen, .hprim n => (.hprim n, h, seen)
  | fuel, h, seen, .href c =>
    match getUntrackedH h c with
    | some t => (.href t, h, seen)
    | none =>
      if seen.contains c then (.href c, h, seen)
      else
        match fuel with
        | 0 => (.href c, h, seen)
        | fuel' + 1 =>
          let p := untrackFields (untrackGo fuel') c (enumKeys (hfieldsOf h c)) (h, c :: seen)
          (.href c, p.1, p.2)

/-- `untrack(x)` with a fresh `seen` set, as every caller in the source uses
it; the final state of the local `seen` set is not observable. -/
def untrackH (fuel : Nat) (h : Heap) (v : HVal) : HVal × Heap :=
  let r := untrackGo fuel h [] v
  (r.1, r.2.1)

/-! ### Fuel sufficiency

The number of heap identifiers not yet in the visited set bounds the
remaining recursion depth: every re-entry into a fields loop first adds an
unvisited on-heap identifier to the visited set. -/

def unvis (d vis : List Nat) : Nat := (d.toFinset \ vis.toFinset).card

theorem unvis_mono (d : List Nat) {vis vis' : List Nat} (h : vis ⊆ vis') :
    unvis d vis' ≤ unvis d vis := by
  apply Finset.card_le_card
  apply Finset.sdiff_subset_sdiff le_rfl
  intro x hx
  simp only [List.mem_toFinset] at hx ⊢
  exact h hx

theorem unvis_cons_lt {d vis : List Nat} {i : Nat} (hd : i ∈ d) (hv : i ∉ vis) :
    unvis d (i :: vis) < unvis d vis := by
  apply Finset.card_lt_card
  rw [Finset.ssubset_iff_of_subset]
  · refine ⟨i, ?_, ?_⟩
    · simp only [Finset.mem_sdiff, List.mem_toFinset]
      exact ⟨hd, hv⟩
    · intro hcon
      rw [Finset.mem_sdiff] at hcon
      exact hcon.2 (by simp)
  · apply Finset.sdiff_subset_sdiff le_rfl
    intro x hx
    simp only [List.mem_toFinset] at hx ⊢
    exact List.mem_cons_of_mem _ hx

theorem unvis_le_length (d vis : List Nat) : unvis d vis ≤ d.length := by
  calc unvis d vis ≤ d.toFinset.card := Finset.card_le_card (Finset.sdiff_subset)
  _ ≤ d.length := List.toFinset_card_le d

/-- Membership of an identifier carrying a node is membership in the id
listing. -/
theorem get_some_mem_fst {h : Heap} {i : Nat} {nd : HNode}
    (hg : AList.get h i = some nd) : i ∈ h.map Prod.fst := by
  induction h with
  | nil => simp [AList.get] at hg
  | cons p rest ih =>
    obtain ⟨pi, pnd⟩ := p
    simp only [AList.get] at hg
    by_cases h0 : (pi == i)
    · rw [List.map_cons, List.mem_cons]
      exact Or.inl (eq_of_beq h0).symm
    · rw [if_neg h0] at hg
      exact List.mem_cons_of_mem _ (ih hg)

/-! ### What `readonly` can do to a heap

`readonly` rewrites property attributes in place: it never adds or removes a
node or a property, never changes a name, a value, `configurable`,
`enumerable`, a node's class or a proxy target — it can only turn `writable`
off.  `HeapLE h h'` says `h` is such a rewrite of `h'`. -/

def HFieldLE (f g : HField) : Prop :=
  f.name = g.name ∧ f.value = g.value ∧ f.configurable = g.configurable ∧
    f.enumerable = g.enumerable ∧ (f.writable = true → g.writable = true)

def HNodeLE (a b : HNode) : Prop :=
  a.kind = b.kind ∧ a.untrackedOf = b.untrackedOf ∧ List.Forall₂ HFieldLE a.fields b.fields

def HeapLE (h h' : Heap) : Prop :=
  List.Forall₂ (fun p q => p.1 = q.1 ∧ HNodeLE p.2 q.2) h h'

theorem HFieldLE.refl_f (f : HField) : HFieldLE f f := ⟨rfl, rfl, rfl, rfl, fun x => x⟩

theorem HFieldLE.trans_f {f g k : HField} (h1 : HFieldLE f g) (h2 : HFieldLE g k) :
    HFieldLE f k :=
  ⟨h1.1.trans h2.1, h1.2.1.trans h2.2.1, h1.2.2.1.trans h2.2.2.1,
   h1.2.2.2.1.trans h2.2.2.2.1, fun x => h2.2.2.2.2 (h1.2.2.2.2 x)⟩

theorem forall2_refl {α : Type} {R : α → α → Prop} (hr : ∀ a, R a a) (l : List α) :
    List.Forall₂ R l l := by
  induction l with
  | nil => exact List.Forall₂.nil
  | cons a rest ih => exact List.Forall₂.cons (hr a) ih

theorem forall2_comp {α β γ : Type} {R : α → β → Prop} {S : β → γ → Prop} {T : α → γ → Prop}
    (hc : ∀ a b c, R a b → S b c → T a c) :
    ∀ {l1 : List α} {l2 : List β} {l3 : List γ},
      List.Forall₂ R l1 l2 → List.Forall₂ S l2 l3 → List.Forall₂ T l1 l3 := by
  intro l1 l2 l3 h1 h2
  induction h1 generalizing l3 with
  | nil => cases h2; exact List.Forall₂.nil
  | cons hab htl ih =>
    cases h2 with
    | cons hbc htl2 => exact List.Forall₂.cons (hc _ _ _ hab hbc) (ih htl2)

theorem HNodeLE.refl_n (a : HNode) : HNodeLE a a :=
  ⟨rfl, rfl, forall2_refl HFieldLE.refl_f a.fields⟩

theorem HNodeLE.trans_n {a b c : HNode} (h1 : HNodeLE a b) (h2 : HNodeLE b c) : HNodeLE a c :=
  ⟨h1.1.trans h2.1, h1.2.1.trans h2.2.1,
   @forall2_comp HField HField HField HFieldLE HFieldLE HFieldLE
     (fun _ _ _ hab hbc => HFieldLE.trans_f hab hbc) _ _ _ h1.2.2 h2.2.2⟩

theorem HeapLE.refl_h (h : Heap) : HeapLE h h :=
  forall2_refl (fun p => ⟨rfl, HNodeLE.refl_n p.2⟩) h

theorem HeapLE.trans_h {h1 h2 h3 : Heap} (a : HeapLE h1 h2) (b : HeapLE h2 h3) : HeapLE h1 h3 :=
  forall2_comp (fun _ _ _ hab hbc => ⟨hab.1.trans hbc.1, HNodeLE.trans_n hab.2 hbc.2⟩) a b

theorem HeapLE.map_fst_le {h h' : Heap} (hle : HeapLE h h') :
    h.map Prod.fst = h'.map Prod.fst := by
  induction hle with
  | nil => rfl
  | cons hpq _ ih => simp only [List.map, hpq.1, ih]

theorem HeapLE.get_rel_le : ∀ {h h' : Heap}, HeapLE h h' → ∀ (i : Nat),
    (AList.get h i = none ∧ AList.get h' i = none) ∨
      (∃ nd nd', AList.get h i = some nd ∧ AList.get h' i = some nd' ∧ HNodeLE nd nd') := by
  intro h
  induction h with
  | nil =>
    intro h' hle i
    cases hle
    exact Or.inl ⟨rfl, rfl⟩
  | cons p rest ih =>
    intro h' hle i
    obtain ⟨pi, pnd⟩ := p
    cases hle with
    | cons hpq htl =>
      rename_i q l2
      obtain ⟨qi, qnd⟩ := q
      obtain ⟨hq1, hq2⟩ := hpq
      simp only at hq1 hq2
      subst hq1
      by_cases h0 : (pi == i)
      · exact Or.inr ⟨pnd, qnd, by simp [AList.get, h0], by simp [AList.get, h0], hq2⟩
      · simp only [AList.get, h0, Bool.false_eq_true, if_false]
        exact ih htl i

/-- Looking a name up in attribute-rewrite-related field lists finds
attribute-rewrite-related fields (or fails in both). -/
theorem findHField_rel : ∀ {fs gs : List HField}, List.Forall₂ HFieldLE fs gs →
    ∀ (k : String),
    (findHField fs k = none ∧ findHField gs k = none) ∨
      (∃ f g, findHField fs k = some f ∧ findHField gs k = some g ∧ HFieldLE f g) := by
  intro fs
  induction fs with
  | nil =>
    intro gs hle k
    cases hle
    exact Or.inl ⟨rfl, rfl⟩
  | cons f rest ih =>
    intro gs hle k
    cases hle with
    | cons hfg htl =>
      rename_i g l2
      by_cases h0 : f.name = k
      · refine Or.inr ⟨f, g, by simp [findHField, h0], ?_, hfg⟩
        have h1 : g.name = k := by rw [← hfg.1]; exact h0
        simp [findHField, h1]
      · have h1 : ¬ g.name = k := by rw [← hfg.1]; exact h0
        simp only [findHField, h0, h1, if_false]
        exact ih htl k

theorem HeapLE.canProxy_eq {h h' : Heap} (hle : HeapLE h h') (v : HVal) :
    canProxyH h v = canProxyH h' v := by
  cases v with
  | hprim n => rfl
  | href i =>
    rcases hle.get_rel_le i with ⟨h1, h2⟩ | ⟨nd, nd', h1, h2, hrel⟩
    · simp [canProxyH, h1, h2]
    · simp [canProxyH, h1, h2, hrel.1]

theorem HeapLE.fields_rel_le {h h' : Heap} (hle : HeapLE h h') (i : Nat) :
    List.Forall₂ HFieldLE (hfieldsOf h i) (hfieldsOf h' i) := by
  rcases hle.get_rel_le i with ⟨h1, h2⟩ | ⟨nd, nd', h1, h2, hrel⟩
  · simp [hfieldsOf, h1, h2, List.Forall₂.nil]
  · simpa [hfieldsOf, h1, h2] using hrel.2.2

theorem HeapLE.untracked_eq_le {h h' : Heap} (hle : HeapLE h h') (i : Nat) :
    getUntrackedH h i = getUntrackedH h' i := by
  rcases hle.get_rel_le i with ⟨h1, h2⟩ | ⟨nd, nd', h1, h2, hrel⟩
  · simp [getUntrackedH, h1, h2]
  · simp [getUntrackedH, h1, h2, hrel.2.1]

/-! ### Attribute rewriting -/

theorem setFieldW_le (fs : List HField) (k : String) :
    List.Forall₂ HFieldLE (setFieldW fs k) fs := by
  induction fs with
  | nil => exact List.Forall₂.nil
  | cons f rest ih =>
    obtain ⟨fn, fv, fw, fc, fe⟩ := f
    simp only [setFieldW]
    by_cases h0 : fn = k
    · rw [if_pos h0]
      exact List.Forall₂.cons ⟨rfl, rfl, rfl, rfl, fun hh => by simp at hh⟩
        (forall2_refl HFieldLE.refl_f rest)
    · rw [if_neg h0]
      exact List.Forall₂.cons (HFieldLE.refl_f _) ih

theorem findHField_setFieldW_self (fs : List HField) (k : String) :
    findHField (setFieldW fs k) k =
      Option.map (fun f => { f with writable := false }) (findHField fs k) := by
  induction fs with
  | nil => rfl
  | cons f rest ih =>
    obtain ⟨fn, fv, fw, fc, fe⟩ := f
    simp only [setFieldW, findHField]
    by_cases h0 : fn = k
    · rw [if_pos h0]
      simp [findHField, h0]
    · rw [if_neg h0, if_neg h0]
      simp only [findHField, ih]
      rw [if_neg h0]

theorem findHField_setFieldW_ne (fs : List HField) {k k' : String} (hne : k' ≠ k) :
    findHField (setFieldW fs k) k' = findHField fs k' := by
  induction fs with
  | nil => rfl
  | cons f rest ih =>
    obtain ⟨fn, fv, fw, fc, fe⟩ := f
    simp only [setFieldW, findHField]
    by_cases h0 : fn = k
    · rw [if_pos h0]
      have h1 : ¬ fn = k' := by rw [h0]; exact fun hh => hne hh.symm
      simp [findHField, h1]
    · rw [if_neg h0]
      by_cases h1 : fn = k'
      · simp [findHField, h1]
      · simp only [findHField, h1, if_false, ih]

theorem alist_set_le {h : Heap} {i : Nat} {nd nd' : HNode}
    (hg : AList.get h i = some nd) (hrel : HNodeLE nd' nd) :
    HeapLE (AList.set h i nd') h := by
  induction h with
  | nil => simp [AList.get] at hg
  | cons p rest ih =>
    obtain ⟨pi, pnd⟩ := p
    simp only [AList.get] at hg
    by_cases h0 : (pi == i)
    · rw [if_pos h0] at hg
      cases hg
      simp only [AList.set, h0, if_true]
      exact List.Forall₂.cons ⟨rfl, hrel⟩ (HeapLE.refl_h rest)
    · rw [if_neg h0] at hg
      have h0' : (pi == i) = false := Bool.of_not_eq_true h0
      simp only [AList.set, h0', Bool.false_eq_true, if_false]
      exact List.Forall₂.cons ⟨rfl, HNodeLE.refl_n pnd⟩ (ih hg)

theorem setFieldNonWritable_le (h : Heap) (tid : Nat) (k : String) :
    HeapLE (setFieldNonWritable h tid k) h := by
  unfold setFieldNonWritable updateNode
  cases hg : AList.get h tid with
  | none => exact HeapLE.refl_h h
  | some nd =>
    exact alist_set_le hg ⟨rfl, rfl, setFieldW_le nd.fields k⟩

theorem setFieldNonWritable_get_ne (h : Heap) (tid : Nat) (k : String) {n : Nat}
    (hne : n ≠ tid) : AList.get (setFieldNonWritable h tid k) n = AList.get h n := by
  unfold setFieldNonWritable updateNode
  cases hg : AList.get h tid with
  | none => rfl
  | some nd => exact AList.get_set_ne h tid n _ hne

theorem setFieldNonWritable_get_self {h : Heap} {tid : Nat} {nd : HNode} (k : String)
    (hg : AList.get h tid = some nd) :
    AList.get (setFieldNonWritable h tid k) tid =
      some { nd with fields := setFieldW nd.fields k } := by
  unfold setFieldNonWritable updateNode
  rw [hg]
  exact AList.get_set_self h tid _

theorem findHField_some_name : ∀ {fs : List HField} {k : String} {f : HField},
    findHField fs k = some f → f.name = k := by
  intro fs
  induction fs with
  | nil => intro k f hf; simp [findHField] at hf
  | cons g rest ih =>
    intro k f hf
    simp only [findHField] at hf
    by_cases h0 : g.name = k
    · rw [if_pos h0] at hf
      cases hf
      exact h0
    · rw [if_neg h0] at hf
      exact ih hf

theorem findHField_none_of_not_mem : ∀ {fs : List HField} {k : String},
    k ∉ fs.map HField.name → findHField fs k = none := by
  intro fs
  induction fs with
  | nil => intro k _; rfl
  | cons g rest ih =>
    intro k hk
    rw [List.map_cons, List.mem_cons] at hk
    push_neg at hk
    simp only [findHField]
    rw [if_neg (fun hh => hk.1 hh.symm)]
    exact ih hk.2

theorem forall2_hfieldle_names : ∀ {fs gs : List HField}, List.Forall₂ HFieldLE fs gs →
    fs.map HField.name = gs.map HField.name := by
  intro fs
  induction fs with
  | nil => intro gs hle; cases hle; rfl
  | cons f rest ih =>
    intro gs hle
    cases hle with
    | cons hfg htl =>
      simp only [List.map_cons, hfg.1, ih htl]

/-! ### The freeze walk's contract

After `readonly` has visited a node, every configurable own property of it is
non-writable, and every `canProxy` object held under a configurable property
has been visited too: the freeze travels along exactly the configurable data
properties. -/

def PKey (h : Heap) (vis : List Nat) (tid : Nat) (k : String) : Prop :=
  ∀ fld, findHField (hfieldsOf h tid) k = some fld → fld.configurable = true →
    fld.writable = false ∧
      ∀ c, fld.value = .href c → canProxyH h (.href c) = true → c ∈ vis

def Processed (h : Heap) (vis : List Nat) (n : Nat) : Prop := ∀ k, PKey h vis n k

theorem PKey_mono {h1 h2 : Heap} {vis1 vis2 : List Nat} {tid : Nat} {k : String}
    (hle : HeapLE h2 h1) (hsub : vis1 ⊆ vis2) (hp : PKey h1 vis1 tid k) :
    PKey h2 vis2 tid k := by
  intro fld2 hf2 hc2
  rcases findHField_rel (hle.fields_rel_le tid) k with ⟨hn1, _⟩ | ⟨f, g, hf, hg, hfg⟩
  · rw [hf2] at hn1; cases hn1
  · rw [hf2] at hf
    cases hf
    have hc1 : g.configurable = true := by rw [← hfg.2.2.1]; exact hc2
    obtain ⟨hw, hch⟩ := hp g hg hc1
    constructor
    · rw [Bool.eq_false_iff]
      intro hh
      rw [hfg.2.2.2.2 hh] at hw
      cases hw
    · intro c hv hcp
      apply hsub
      apply hch c (by rw [← hfg.2.1]; exact hv)
      rw [← hle.canProxy_eq]
      exact hcp

theorem Processed_mono {h1 h2 : Heap} {vis1 vis2 : List Nat} {n : Nat}
    (hle : HeapLE h2 h1) (hsub : vis1 ⊆ vis2) (hp : Processed h1 vis1 n) :
    Processed h2 vis2 n :=
  fun k => PKey_mono hle hsub (hp k)

/-- What one `readonly(target, …, visited)` call guarantees: attributes only
rewritten, the visited set only grown, already-visited nodes untouched, every
newly visited node fully processed. -/
def ROPostGo (h : Heap) (vis : List Nat) (p : Heap × List Nat) : Prop :=
  HeapLE p.1 h ∧ vis ⊆ p.2 ∧
    (∀ n, n ∈ vis → AList.get p.1 n = AList.get h n) ∧
    (∀ n, n ∈ p.2 → n ∉ vis → Processed p.1 p.2 n)

/-- The same for the per-key loop, whose own target `tid` is already in the
visited set and is the one visited node the loop rewrites. -/
def ROPostLoop (tid : Nat) (h : Heap) (vis : List Nat) (p : Heap × List Nat) : Prop :=
  HeapLE p.1 h ∧ vis ⊆ p.2 ∧
    (∀ n, n ∈ vis → n ≠ tid → AList.get p.1 n = AList.get h n) ∧
    (∀ n, n ∈ p.2 → n ∉ vis → Processed p.1 p.2 n)

theorem ROPostGo_rfl (h : Heap) (vis : List Nat) : ROPostGo h vis (h, vis) :=
  ⟨HeapLE.refl_h h, fun _ hx => hx, fun _ _ => rfl, fun n hn hn' => absurd hn hn'⟩

theorem ROPostLoop_rfl (tid : Nat) (h : Heap) (vis : List Nat) :
    ROPostLoop tid h vis (h, vis) :=
  ⟨HeapLE.refl_h h, fun _ hx => hx, fun _ _ _ => rfl, fun n hn hn' => absurd hn hn'⟩

theorem ROPostLoop_step {tid : Nat} {h hm : Heap} {vis vm : List Nat} {p : Heap × List Nat}
    (h1 : HeapLE hm h) (h2 : vis ⊆ vm)
    (h3 : ∀ n, n ∈ vis → n ≠ tid → AList.get hm n = AList.get h n)
    (h4 : ∀ n, n ∈ vm → n ∉ vis → Processed hm vm n)
    (hrest : ROPostLoop tid hm vm p) : ROPostLoop tid h vis p := by
  obtain ⟨rle, rsub, rfr, rnew⟩ := hrest
  refine ⟨rle.trans_h h1, fun x hx => rsub (h2 hx), ?_, ?_⟩
  · intro n hn hne
    rw [rfr n (h2 hn) hne, h3 n hn hne]
  · intro n hn hn'
    by_cases hvm : n ∈ vm
    · exact Processed_mono rle rsub (h4 n hvm hn')
    · exact rnew n hn hvm

theorem roFields_cons_eq (go : Heap → List Nat → Nat → Heap × List Nat) (tid : Nat)
    (k : String) (rest : List String) (h : Heap) (vis : List Nat) :
    roFields go true tid (k :: rest) (h, vis) =
      match findHField (hfieldsOf h tid) k with
      | none => roFields go true tid rest (h, vis)
      | some fld =>
        if fld.configurable then
          roFields go true tid rest
            (if fld.writable then
               setFieldNonWritable
                 (match fld.value with
                  | .href c => if canProxyH h (.href c) then go h vis c else (h, vis)
                  | .hprim _ => (h, vis)).1 tid k
             else
               (match fld.value with
                | .href c => if canProxyH h (.href c) then go h vis c else (h, vis)
                | .hprim _ => (h, vis)).1,
             (match fld.value with
              | .href c => if canProxyH h (.href c) then go h vis c else (h, vis)
              | .hprim _ => (h, vis)).2)
        else roFields go true tid rest (h, vis) := by
  simp only [roFields, Bool.true_and]

theorem roFieldsSpec (go : Heap → List Nat → Nat → Heap × List Nat) (fuelB : Nat)
    (hgo : ∀ (h : Heap) (vis : List Nat) (c : Nat),
      unvis (h.map Prod.fst) vis ≤ fuelB →
      ROPostGo h vis (go h vis c) ∧
        (canProxyH h (.href c) = true → c ∈ (go h vis c).2)) :
    ∀ (keys : List String) (h : Heap) (vis : List Nat) (tid : Nat),
      tid ∈ vis → unvis (h.map Prod.fst) vis ≤ fuelB →
      ROPostLoop tid h vis (roFields go true tid keys (h, vis)) ∧
        (∀ k, k ∈ keys →
          PKey (roFields go true tid keys (h, vis)).1
            (roFields go true tid keys (h, vis)).2 tid k) := by
  intro keys
  induction keys with
  | nil =>
    intro h vis tid htid hsuf
    exact ⟨ROPostLoop_rfl tid h vis, fun k hk => absurd hk (List.not_mem_nil k)⟩
  | cons k rest ih =>
    intro h vis tid htid hsuf
    have hfin : ∀ (hm : Heap) (vm : List Nat), HeapLE hm h → vis ⊆ vm → tid ∈ vm →
        (∀ n, n ∈ vis → n ≠ tid → AList.get hm n = AList.get h n) →
        (∀ n, n ∈ vm → n ∉ vis → Processed hm vm n) →
        PKey hm vm tid k →
        ROPostLoop tid h vis (roFields go true tid rest (hm, vm)) ∧
          (∀ k', k' ∈ k :: rest →
            PKey (roFields go true tid rest (hm, vm)).1
              (roFields go true tid rest (hm, vm)).2 tid k') := by
      intro hm vm hle2 hsub2 htid2 hfr2 hnew2 hpk
      have hsuf2 : unvis (hm.map Prod.fst) vm ≤ fuelB := by
        rw [hle2.map_fst_le]
        exact le_trans (unvis_mono _ hsub2) hsuf
      obtain ⟨hpost, hkeys⟩ := ih hm vm tid htid2 hsuf2
      refine ⟨ROPostLoop_step hle2 hsub2 hfr2 hnew2 hpost, fun k' hk' => ?_⟩
      rcases List.mem_cons.mp hk' with hk' | hk'
      · subst hk'
        exact PKey_mono hpost.1 hpost.2.1 hpk
      · exact hkeys k' hk'
    cases hfld : findHField (hfieldsOf h tid) k with
    | none =>
      simp only [roFields_cons_eq go tid k rest h vis, hfld]
      exact hfin h vis (HeapLE.refl_h h) (fun _ hx => hx) htid (fun _ _ _ => rfl)
        (fun n hn hn' => absurd hn hn')
        (fun fld2 hf2 _ => by rw [hfld] at hf2; cases hf2)
    | some fld =>
      simp only [roFields_cons_eq go tid k rest h vis, hfld]
      by_cases hcf : fld.configurable = true
      · rw [if_pos hcf]
        cases hfv : fld.value with
        | hprim m =>
          simp only []
          cases hw : fld.writable with
          | false =>
            simp only [Bool.false_eq_true, if_false]
            refine hfin h vis (HeapLE.refl_h h) (fun _ hx => hx) htid (fun _ _ _ => rfl)
              (fun n hn hn' => absurd hn hn') ?_
            intro fld2 hf2 _
            rw [hfld] at hf2
            cases hf2
            exact ⟨hw, fun c hc => by rw [hfv] at hc; cases hc⟩
          | true =>
            simp only [if_true]
            refine hfin (setFieldNonWritable h tid k) vis (setFieldNonWritable_le h tid k)
              (fun _ hx => hx) htid
              (fun n _ hne => setFieldNonWritable_get_ne h tid k hne)
              (fun n hn hn' => absurd hn hn') ?_
            intro fld2 hf2 _
            cases hgt : AList.get h tid with
            | none =>
              rw [show hfieldsOf h tid = [] from by simp [hfieldsOf, hgt]] at hfld
              cases hfld
            | some nd =>
              rw [show hfieldsOf (setFieldNonWritable h tid k) tid = setFieldW nd.fields k
                    from by simp [hfieldsOf, setFieldNonWritable_get_self k hgt]] at hf2
              rw [findHField_setFieldW_self] at hf2
              rw [show findHField nd.fields k = some fld
                    from by rw [show nd.fields = hfieldsOf h tid from by simp [hfieldsOf, hgt]]
                            exact hfld] at hf2
              cases hf2
              exact ⟨rfl, fun c hc => by rw [hfv] at hc; cases hc⟩
        | href c =>
          simp only []
          by_cases hcp : canProxyH h (.href c) = true
          · rw [if_pos hcp]
            obtain ⟨⟨hle1, hsub1, hfr1, hnew1⟩, hent1⟩ := hgo h vis c hsuf
            have hct : c ∈ (go h vis c).2 := hent1 hcp
            have hfr1t : AList.get (go h vis c).1 tid = AList.get h tid := hfr1 tid htid
            have hfields1 : hfieldsOf (go h vis c).1 tid = hfieldsOf h tid := by
              simp [hfieldsOf, hfr1t]
            cases hw : fld.writable with
            | false =>
              simp only [Bool.false_eq_true, if_false]
              refine hfin (go h vis c).1 (go h vis c).2 hle1 hsub1 (hsub1 htid)
                (fun n hn _ => hfr1 n hn) (fun n hn hn' => hnew1 n hn hn') ?_
              intro fld2 hf2 _
              rw [hfields1, hfld] at hf2
              cases hf2
              refine ⟨hw, fun c' hc' _ => ?_⟩
              rw [hfv] at hc'
              cases hc'
              exact hct
            | true =>
              simp only [if_true]
              refine hfin (setFieldNonWritable (go h vis c).1 tid k) (go h vis c).2
                ((setFieldNonWritable_le _ tid k).trans_h hle1) hsub1 (hsub1 htid)
                (fun n hn hne => by
                  rw [setFieldNonWritable_get_ne _ tid k hne]
                  exact hfr1 n hn)
                (fun n hn hn' =>
                  Processed_mono (setFieldNonWritable_le _ tid k) (fun _ hx => hx)
                    (hnew1 n hn hn')) ?_
              intro fld2 hf2 _
              cases hgt : AList.get h tid with
              | none =>
                rw [show hfieldsOf h tid = [] from by simp [hfieldsOf, hgt]] at hfld
                cases hfld
              | some nd =>
                have hgt1 : AList.get (go h vis c).1 tid = some nd := by rw [hfr1t, hgt]
                rw [show hfieldsOf (setFieldNonWritable (go h vis c).1 tid k) tid
                      = setFieldW nd.fields k
                      from by simp [hfieldsOf, setFieldNonWritable_get_self k hgt1]] at hf2
                rw [findHField_setFieldW_self] at hf2
                rw [show findHField nd.fields k = some fld
                      from by rw [show nd.fields = hfieldsOf h tid from by simp [hfieldsOf, hgt]]
                              exact hfld] at hf2
                cases hf2
                refine ⟨rfl, fun c' hc' _ => ?_⟩
                rw [hfv] at hc'
                cases hc'
                exact hct
          · rw [if_neg hcp]
            cases hw : fld.writable with
            | false =>
              simp only [Bool.false_eq_true, if_false]
              refine hfin h vis (HeapLE.refl_h h) (fun _ hx => hx) htid (fun _ _ _ => rfl)
                (fun n hn hn' => absurd hn hn') ?_
              intro fld2 hf2 _
              rw [hfld] at hf2
              cases hf2
              refine ⟨hw, fun c' hc' hcp' => ?_⟩
              rw [hfv] at hc'
              cases hc'
              exact absurd hcp' hcp
            | true =>
              simp only [if_true]
              refine hfin (setFieldNonWritable h tid k) vis (setFieldNonWritable_le h tid k)
                (fun _ hx => hx) htid
                (fun n _ hne => setFieldNonWritable_get_ne h tid k hne)
                (fun n hn hn' => absurd hn hn') ?_
              intro fld2 hf2 _
              cases hgt : AList.get h tid with
              | none =>
                rw [show hfieldsOf h tid = [] from by simp [hfieldsOf, hgt]] at hfld
                cases hfld
              | some nd =>
                rw [show hfieldsOf (setFieldNonWritable h tid k) tid = setFieldW nd.fields k
                      from by simp [hfieldsOf, setFieldNonWritable_get_self k hgt]] at hf2
                rw [findHField_setFieldW_self] at hf2
                rw [show findHField nd.fields k = some fld
                      from by rw [show nd.fields = hfieldsOf h tid from by simp [hfieldsOf, hgt]]
                              exact hfld] at hf2
                cases hf2
                refine ⟨rfl, fun c' hc' hcp' => ?_⟩
                rw [hfv] at hc'
                injection hc' with hcc
                rw [← hcc] at hcp'
                rw [(setFieldNonWritable_le h tid k).canProxy_eq (.href c)] at hcp'
                exact absurd hcp' hcp
      · rw [if_neg hcf]
        refine hfin h vis (HeapLE.refl_h h) (fun _ hx => hx) htid (fun _ _ _ => rfl)
          (fun n hn hn' => absurd hn hn') ?_
        intro fld2 hf2 hc2
        rw [hfld] at hf2
        cases hf2
        exact absurd hc2 hcf

/-- One unfolding of `readonlyGo`, for rewriting. -/
theorem readonlyGo_eq (fuel : Nat) (deep : Bool) (h : Heap) (vis : List Nat) (tid : Nat) :
    readonlyGo fuel deep h vis tid =
      match AList.get h tid with
      | none => (h, vis)
      | some nd =>
        if nd.kind == HKind.arr || nd.kind == HKind.plain then
          if vis.contains tid then (h, vis)
          else
            match fuel with
            | 0 => (h, vis)
            | fuel' + 1 =>
              roFields (readonlyGo fuel' true) deep tid (nd.fields.map HField.name) (h, tid :: vis)
        else (h, vis) := by
  simp only [readonlyGo]

theorem readonlySpec : ∀ (fuel : Nat) (h : Heap) (vis : List Nat) (tid : Nat),
    unvis (h.map Prod.fst) vis ≤ fuel →
    ROPostGo h vis (readonlyGo fuel true h vis tid) ∧
      (canProxyH h (.href tid) = true → tid ∈ (readonlyGo fuel true h vis tid).2) := by
  intro fuel
  induction fuel with
  | zero =>
    intro h vis tid hsuf
    cases hg : AList.get h tid with
    | none =>
      rw [readonlyGo_eq, hg]
      exact ⟨ROPostGo_rfl h vis, fun hcp => by simp [canProxyH, hg] at hcp⟩
    | some nd =>
      simp only [readonlyGo_eq 0 true h vis tid, hg]
      by_cases hk : (nd.kind == HKind.arr || nd.kind == HKind.plain) = true
      · rw [if_pos hk]
        by_cases hv : vis.contains tid = true
        · rw [if_pos hv]
          exact ⟨ROPostGo_rfl h vis, fun _ => List.elem_iff.mp hv⟩
        · rw [if_neg hv]
          exfalso
          have h1 : tid ∈ h.map Prod.fst := get_some_mem_fst hg
          have h2 : tid ∉ vis := fun hm => hv (List.elem_iff.mpr hm)
          have h3 := unvis_cons_lt h1 h2
          omega
      · rw [if_neg hk]
        refine ⟨ROPostGo_rfl h vis, fun hcp => ?_⟩
        exact absurd (by simpa [canProxyH, hg] using hcp) hk
  | succ fuel' ih =>
    intro h vis tid hsuf
    cases hg : AList.get h tid with
    | none =>
      rw [readonlyGo_eq, hg]
      exact ⟨ROPostGo_rfl h vis, fun hcp => by simp [canProxyH, hg] at hcp⟩
    | some nd =>
      simp only [readonlyGo_eq (fuel' + 1) true h vis tid, hg]
      by_cases hk : (nd.kind == HKind.arr || nd.kind == HKind.plain) = true
      · rw [if_pos hk]
        by_cases hv : vis.contains tid = true
        · rw [if_pos hv]
          exact ⟨ROPostGo_rfl h vis, fun _ => List.elem_iff.mp hv⟩
        · rw [if_neg hv]
          have htmem : tid ∈ h.map Prod.fst := get_some_mem_fst hg
          have htnv : tid ∉ vis := fun hm => hv (List.elem_iff.mpr hm)
          have hsuf' : unvis (h.map Prod.fst) (tid :: vis) ≤ fuel' := by
            have h3 := unvis_cons_lt htmem htnv
            omega
          obtain ⟨⟨hle, hsub, hfr, hnew⟩, hkeys⟩ :=
            roFieldsSpec (readonlyGo fuel' true) fuel'
              (fun h2 vis2 c hs => ih h2 vis2 c hs)
              (nd.fields.map HField.name) h (tid :: vis) tid (List.mem_cons_self tid vis) hsuf'
          refine ⟨⟨hle, ?_, ?_, ?_⟩, fun _ => hsub (List.mem_cons_self tid vis)⟩
          · exact fun x hx => hsub (List.mem_cons_of_mem tid hx)
          · intro n hn
            exact hfr n (List.mem_cons_of_mem tid hn) (fun he => htnv (he ▸ hn))
          · intro n hn hn'
            by_cases hntid : n = tid
            · subst hntid
              intro k
              by_cases hkm : k ∈ nd.fields.map HField.name
              · exact hkeys k hkm
              · intro fld2 hf2
                have hnames :
                    (hfieldsOf
                      (roFields (readonlyGo fuel' true) true n (nd.fields.map HField.name)
                        (h, n :: vis)).1 n).map HField.name
                      = nd.fields.map HField.name := by
                  rw [forall2_hfieldle_names (hle.fields_rel_le n)]
                  simp [hfieldsOf, hg]
                rw [findHField_none_of_not_mem (by rw [hnames]; exact hkm)] at hf2
                cases hf2
            · refine hnew n hn ?_
              intro hmem
              rcases List.mem_cons.mp hmem with he | he
              · exact hntid he
              · exact hn' he
      · rw [if_neg hk]
        refine ⟨ROPostGo_rfl h vis, fun hcp => ?_⟩
        exact absurd (by simpa [canProxyH, hg] using hcp) hk

/-- The objects the freeze walk is able to reach: the slice root, plus any
`canProxy` object held under a configurable own property of a reached object
(`readonly` skips non-configurable descriptors before recursing). -/
inductive CReach (h : Heap) (root : Nat) : Nat → Prop where
  | base : canProxyH h (.href root) = true → CReach h root root
  | step : ∀ {n : Nat} {k : String} {fld : HField} {c : Nat},
      CReach h root n → findHField (hfieldsOf h n) k = some fld →
      fld.configurable = true → fld.value = .href c →
      canProxyH h (.href c) = true → CReach h root c

/-- C7 (amended).  After `create` has run `readonly(slice, true)`
(src/index.ts line 273), every configurable own property of every plain
object or array reachable from the slice root along configurable data
properties is non-writable.  The original claim quantified over every
reachable plain object or array; that is refuted by
`freeze_misses_object_behind_nonconfigurable_property`, because the walk
checks `desc.configurable` before recursing into the held value. -/
theorem freeze_makes_configurable_cone_nonwritable (fuel : Nat) (h : Heap) (root : Nat)
    (hsuf : unvis (h.map Prod.fst) [] ≤ fuel) :
    ∀ n, CReach h root n → ∀ k fld,
      findHField (hfieldsOf (readonlyH fuel h root) n) k = some fld →
      fld.configurable = true → fld.writable = false := by
  obtain ⟨⟨hle, hsub, hfr, hnew⟩, hent⟩ := readonlySpec fuel h [] root hsuf
  have hvisit : ∀ n, CReach h root n → n ∈ (readonlyGo fuel true h [] root).2 := by
    intro n hr
    induction hr with
    | base hcp => exact hent hcp
    | step hr2 hf hc hval hcp ihr =>
      rcases findHField_rel (hle.fields_rel_le _) _ with ⟨_, hn2⟩ | ⟨f, g, hf1, hg1, hfg⟩
      · rw [hf] at hn2; cases hn2
      · rw [hf] at hg1
        cases hg1
        have hcf : f.configurable = true := by rw [hfg.2.2.1]; exact hc
        obtain ⟨_, hch⟩ := hnew _ ihr (List.not_mem_nil _) _ f hf1 hcf
        apply hch
        · rw [hfg.2.1]; exact hval
        · rw [hle.canProxy_eq]; exact hcp
  intro n hr k fld hfind hc
  exact (hnew n (hvisit n hr) (List.not_mem_nil n) k fld hfind hc).1

/-- The slice refuting the original wording of C7: the root holds a nested
plain object behind a non-configurable own property. -/
def cexC7 : Heap :=
  [(0, ⟨.plain, [⟨"x", .hprim 1, true, true, true⟩, ⟨"a", .href 1, true, false, true⟩], none⟩),
   (1, ⟨.plain, [⟨"b", .hprim 0, true, true, true⟩], none⟩)]

/-- C7, counterexample to the claim as stated.  `readonly` runs
`if (!desc.configurable) continue` before its recursive call, so the plain
object held behind the non-configurable property `"a"` — reachable in the
supplied slice — is never visited: its configurable own property `"b"` stays
writable after the freeze (while the root's own configurable `"x"` is made
non-writable), and an assignment to it still changes the heap. -/
theorem freeze_misses_object_behind_nonconfigurable_property :
    findHField (hfieldsOf cexC7 0) "a" = some ⟨"a", .href 1, true, false, true⟩ ∧
      canProxyH cexC7 (.href 1) = true ∧
      findHField (hfieldsOf (readonlyH 10 cexC7 0) 0) "x"
        = some ⟨"x", .hprim 1, false, true, true⟩ ∧
      findHField (hfieldsOf (readonlyH 10 cexC7 0) 1) "b"
        = some ⟨"b", .hprim 0, true, true, true⟩ ∧
      setFieldValue (readonlyH 10 cexC7 0) 1 "b" (.hprim 99) ≠ readonlyH 10 cexC7 0 := by
  decide

/-- A two-node slice whose nested object sits behind a configurable
property, used to witness the amended C7. -/
def witC7 : Heap :=
  [(0, ⟨.plain, [⟨"a", .href 1, true, true, true⟩], none⟩),
   (1, ⟨.plain, [⟨"b", .hprim 7, true, true, true⟩], none⟩)]

theorem freeze_makes_configurable_cone_nonwritable_witness :
    unvis (witC7.map Prod.fst) [] ≤ 3 ∧
      findHField (hfieldsOf (readonlyH 3 witC7 0) 1) "b"
        = some ⟨"b", .hprim 7, false, true, true⟩ ∧
      HField.writable ⟨"b", .hprim 7, false, true, true⟩ = false :=
  ⟨by decide, by decide,
   freeze_makes_configurable_cone_nonwritable 3 witC7 0 (by decide) 1
     (@CReach.step witC7 0 0 "a" ⟨"a", .href 1, true, true, true⟩ 1
       (CReach.base (by decide)) (by decide) (by decide) rfl (by decide))
     "b" ⟨"b", .hprim 7, false, true, true⟩ (by decide) rfl⟩

/-! ### What `untrack` can do to a heap

`untrack` only ever assigns new values to existing own properties: it never
adds or removes a node or a property and never changes a name or an
attribute, a node's class, or a proxy target.  `HeapVE h h'` captures this
(`h` agrees with `h'` everywhere except possibly property values). -/

def HFieldVE (f g : HField) : Prop :=
  f.name = g.name ∧ f.writable = g.writable ∧ f.configurable = g.configurable ∧
    f.enumerable = g.enumerable

def HNodeVE (a b : HNode) : Prop :=
  a.kind = b.kind ∧ a.untrackedOf = b.untrackedOf ∧ List.Forall₂ HFieldVE a.fields b.fields

def HeapVE (h h' : Heap) : Prop :=
  List.Forall₂ (fun p q => p.1 = q.1 ∧ HNodeVE p.2 q.2) h h'

theorem HFieldVE.refl_fv (f : HField) : HFieldVE f f := ⟨rfl, rfl, rfl, rfl⟩

theorem HFieldVE.trans_fv {f g k : HField} (h1 : HFieldVE f g) (h2 : HFieldVE g k) :
    HFieldVE f k :=
  ⟨h1.1.trans h2.1, h1.2.1.trans h2.2.1, h1.2.2.1.trans h2.2.2.1, h1.2.2.2.trans h2.2.2.2⟩

theorem HNodeVE.refl_nv (a : HNode) : HNodeVE a a :=
  ⟨rfl, rfl, forall2_refl HFieldVE.refl_fv a.fields⟩

theorem HNodeVE.trans_nv {a b c : HNode} (h1 : HNodeVE a b) (h2 : HNodeVE b c) : HNodeVE a c :=
  ⟨h1.1.trans h2.1, h1.2.1.trans h2.2.1,
   @forall2_comp HField HField HField HFieldVE HFieldVE HFieldVE
     (fun _ _ _ hab hbc => HFieldVE.trans_fv hab hbc) _ _ _ h1.2.2 h2.2.2⟩

theorem HeapVE.refl_hv (h : Heap) : HeapVE h h :=
  forall2_refl (fun p => ⟨rfl, HNodeVE.refl_nv p.2⟩) h

theorem HeapVE.trans_hv {h1 h2 h3 : Heap} (a : HeapVE h1 h2) (b : HeapVE h2 h3) : HeapVE h1 h3 :=
  forall2_comp (fun _ _ _ hab hbc => ⟨hab.1.trans hbc.1, HNodeVE.trans_nv hab.2 hbc.2⟩) a b

theorem HeapVE.map_fst_ve {h h' : Heap} (hve : HeapVE h h') :
    h.map Prod.fst = h'.map Prod.fst := by
  induction hve with
  | nil => rfl
  | cons hpq _ ih => simp only [List.map, hpq.1, ih]

theorem HeapVE.get_rel_ve : ∀ {h h' : Heap}, HeapVE h h' → ∀ (i : Nat),
    (AList.get h i = none ∧ AList.get h' i = none) ∨
      (∃ nd nd', AList.get h i = some nd ∧ AList.get h' i = some nd' ∧ HNodeVE nd nd') := by
  intro h
  induction h with
  | nil =>
    intro h' hve i
    cases hve
    exact Or.inl ⟨rfl, rfl⟩
  | cons p rest ih =>
    intro h' hve i
    obtain ⟨pi, pnd⟩ := p
    cases hve with
    | cons hpq htl =>
      rename_i q l2
      obtain ⟨qi, qnd⟩ := q
      obtain ⟨hq1, hq2⟩ := hpq
      simp only at hq1 hq2
      subst hq1
      by_cases h0 : (pi == i)
      · exact Or.inr ⟨pnd, qnd, by simp [AList.get, h0], by simp [AList.get, h0], hq2⟩
      · simp only [AList.get, h0, Bool.false_eq_true, if_false]
        exact ih htl i

theorem HeapVE.untracked_eq_ve {h h' : Heap} (hve : HeapVE h h') (i : Nat) :
    getUntrackedH h i = getUntrackedH h' i := by
  rcases hve.get_rel_ve i with ⟨h1, h2⟩ | ⟨nd, nd', h1, h2, hrel⟩
  · simp [getUntrackedH, h1, h2]
  · simp [getUntrackedH, h1, h2, hrel.2.1]

theorem HeapVE.get_none_eq {h h' : Heap} (hve : HeapVE h h') (i : Nat) :
    (AList.get h i = none) = (AList.get h' i = none) := by
  rcases hve.get_rel_ve i with ⟨h1, h2⟩ | ⟨nd, nd', h1, h2, _⟩
  · simp [h1, h2]
  · simp [h1, h2]

theorem HeapVE.fields_rel_ve {h h' : Heap} (hve : HeapVE h h') (i : Nat) :
    List.Forall₂ HFieldVE (hfieldsOf h i) (hfieldsOf h' i) := by
  rcases hve.get_rel_ve i with ⟨h1, h2⟩ | ⟨nd, nd', h1, h2, hrel⟩
  · simp [hfieldsOf, h1, h2, List.Forall₂.nil]
  · simpa [hfieldsOf, h1, h2] using hrel.2.2

theorem findHField_rel_ve : ∀ {fs gs : List HField}, List.Forall₂ HFieldVE fs gs →
    ∀ (k : String),
    (findHField fs k = none ∧ findHField gs k = none) ∨
      (∃ f g, findHField fs k = some f ∧ findHField gs k = some g ∧ HFieldVE f g) := by
  intro fs
  induction fs with
  | nil =>
    intro gs hve k
    cases hve
    exact Or.inl ⟨rfl, rfl⟩
  | cons f rest ih =>
    intro gs hve k
    cases hve with
    | cons hfg htl =>
      rename_i g l2
      by_cases h0 : f.name = k
      · refine Or.inr ⟨f, g, by simp [findHField, h0], ?_, hfg⟩
        have h1 : g.name = k := by rw [← hfg.1]; exact h0
        simp [findHField, h1]
      · have h1 : ¬ g.name = k := by rw [← hfg.1]; exact h0
        simp only [findHField, h0, h1, if_false]
        exact ih htl k

theorem enumKeys_ve : ∀ {fs gs : List HField}, List.Forall₂ HFieldVE fs gs →
    enumKeys fs = enumKeys gs := by
  intro fs
  induction fs with
  | nil => intro gs hve; cases hve; rfl
  | cons f rest ih =>
    intro gs hve
    cases hve with
    | cons hfg htl =>
      rename_i g l2
      simp only [enumKeys, List.filter]
      rw [show g.enumerable = f.enumerable from (hfg.2.2.2).symm]
      cases he : f.enumerable with
      | false =>
        have := ih htl
        simpa [enumKeys] using this
      | true =>
        have := ih htl
        simp only [enumKeys] at this
        simp [List.map, hfg.1, this]

/-! ### Value assignment -/

theorem hvIs_refl (v : HVal) : hvIs v v = true := by
  cases v <;> simp [hvIs]

theorem setFieldVals_ve (fs : List HField) (k : String) (v : HVal) :
    List.Forall₂ HFieldVE (setFieldVals fs k v) fs := by
  induction fs with
  | nil => exact List.Forall₂.nil
  | cons f rest ih =>
    obtain ⟨fn, fv, fw, fc, fe⟩ := f
    simp only [setFieldVals]
    by_cases h0 : fn = k
    · rw [if_pos h0]
      cases fw with
      | false => exact List.Forall₂.cons (HFieldVE.refl_fv _) (forall2_refl HFieldVE.refl_fv rest)
      | true =>
        exact List.Forall₂.cons ⟨rfl, rfl, rfl, rfl⟩ (forall2_refl HFieldVE.refl_fv rest)
    · rw [if_neg h0]
      exact List.Forall₂.cons (HFieldVE.refl_fv _) ih

theorem findHField_setFieldVals_self (fs : List HField) (k : String) (v : HVal) :
    findHField (setFieldVals fs k v) k =
      Option.map (fun f => if f.writable then { f with value := v } else f)
        (findHField fs k) := by
  induction fs with
  | nil => rfl
  | cons f rest ih =>
    obtain ⟨fn, fv, fw, fc, fe⟩ := f
    simp only [setFieldVals]
    by_cases h0 : fn = k
    · rw [if_pos h0]
      cases fw with
      | false => simp [findHField, h0]
      | true => simp [findHField, h0]
    · rw [if_neg h0]
      simp only [findHField]
      rw [if_neg h0, if_neg h0]
      exact ih

theorem findHField_setFieldVals_ne (fs : List HField) {k k' : String} (v : HVal)
    (hne : k' ≠ k) : findHField (setFieldVals fs k v) k' = findHField fs k' := by
  induction fs with
  | nil => rfl
  | cons f rest ih =>
    obtain ⟨fn, fv, fw, fc, fe⟩ := f
    simp only [setFieldVals]
    by_cases h0 : fn = k
    · rw [if_pos h0]
      have h1 : ¬ fn = k' := by rw [h0]; exact fun hh => hne hh.symm
      cases fw with
      | false => simp [findHField, h1]
      | true => simp [findHField, h1]
    · rw [if_neg h0]
      by_cases h1 : fn = k'
      · simp [findHField, h1]
      · simp only [findHField, h1, if_false, ih]

theorem setFieldVals_frozen : ∀ {fs : List HField} {k : String} {fld : HField},
    findHField fs k = some fld → fld.writable = false → ∀ v, setFieldVals fs k v = fs := by
  intro fs
  induction fs with
  | nil => intro k fld hf _ v; simp [findHField] at hf
  | cons f rest ih =>
    intro k fld hf hw v
    simp only [findHField] at hf
    simp only [setFieldVals]
    by_cases h0 : f.name = k
    · rw [if_pos h0] at hf
      cases hf
      rw [if_pos h0, hw]
      simp
    · rw [if_neg h0] at hf
      rw [if_neg h0, ih hf hw v]

theorem alist_set_self : ∀ {h : Heap} {i : Nat} {nd : HNode},
    AList.get h i = some nd → AList.set h i nd = h := by
  intro h
  induction h with
  | nil => intro i nd hg; simp [AList.get] at hg
  | cons p rest ih =>
    intro i nd hg
    obtain ⟨pi, pnd⟩ := p
    simp only [AList.get] at hg
    by_cases h0 : (pi == i)
    · rw [if_pos h0] at hg
      cases hg
      simp [AList.set, h0]
    · rw [if_neg h0] at hg
      have h0' : (pi == i) = false := Bool.of_not_eq_true h0
      simp [AList.set, h0', ih hg]

theorem alist_set_ve {h : Heap} {i : Nat} {nd nd' : HNode}
    (hg : AList.get h i = some nd) (hrel : HNodeVE nd' nd) :
    HeapVE (AList.set h i nd') h := by
  induction h with
  | nil => simp [AList.get] at hg
  | cons p rest ih =>
    obtain ⟨pi, pnd⟩ := p
    simp only [AList.get] at hg
    by_cases h0 : (pi == i)
    · rw [if_pos h0] at hg
      cases hg
      simp only [AList.set, h0, if_true]
      exact List.Forall₂.cons ⟨rfl, hrel⟩ (HeapVE.refl_hv rest)
    · rw [if_neg h0] at hg
      have h0' : (pi == i) = false := Bool.of_not_eq_true h0
      simp only [AList.set, h0', Bool.false_eq_true, if_false]
      exact List.Forall₂.cons ⟨rfl, HNodeVE.refl_nv pnd⟩ (ih hg)

theorem setFieldValue_ve (h : Heap) (tid : Nat) (k : String) (v : HVal) :
    HeapVE (setFieldValue h tid k v) h := by
  unfold setFieldValue updateNode
  cases hg : AList.get h tid with
  | none => exact HeapVE.refl_hv h
  | some nd => exact alist_set_ve hg ⟨rfl, rfl, setFieldVals_ve nd.fields k v⟩

theorem setFieldValue_get_ne (h : Heap) (tid : Nat) (k : String) (v : HVal) {n : Nat}
    (hne : n ≠ tid) : AList.get (setFieldValue h tid k v) n = AList.get h n := by
  unfold setFieldValue updateNode
  cases hg : AList.get h tid with
  | none => rfl
  | some nd => exact AList.get_set_ne h tid n _ hne

theorem setFieldValue_get_self {h : Heap} {tid : Nat} {nd : HNode} (k : String) (v : HVal)
    (hg : AList.get h tid = some nd) :
    AList.get (setFieldValue h tid k v) tid =
      some { nd with fields := setFieldVals nd.fields k v } := by
  unfold setFieldValue updateNode
  rw [hg]
  exact AList.get_set_self h tid _

theorem setFieldValue_frozen {h : Heap} {tid : Nat} {k : String} {fld : HField}
    (hf : findHField (hfieldsOf h tid) k = some fld) (hw : fld.writable = false)
    (v : HVal) : setFieldValue h tid k v = h := by
  unfold setFieldValue updateNode
  cases hg : AList.get h tid with
  | none => rfl
  | some nd =>
    have hnd : nd.fields = hfieldsOf h tid := by simp [hfieldsOf, hg]
    simp only []
    rw [show setFieldVals nd.fields k v = nd.fields from by
      rw [hnd]; exact setFieldVals_frozen hf hw v]
    exact alist_set_self hg

theorem get_mem : ∀ {h : Heap} {i : Nat} {nd : HNode},
    AList.get h i = some nd → (i, nd) ∈ h := by
  intro h
  induction h with
  | nil => intro i nd hg; simp [AList.get] at hg
  | cons p rest ih =>
    intro i nd hg
    obtain ⟨pi, pnd⟩ := p
    simp only [AList.get] at hg
    by_cases h0 : (pi == i)
    · rw [if_pos h0] at hg
      cases hg
      rw [eq_of_beq h0]
      exact List.mem_cons_self _ _
    · rw [if_neg h0] at hg
      exact List.mem_cons_of_mem _ (ih hg)

theorem forall2_mem_left {α β : Type} {R : α → β → Prop} :
    ∀ {l1 : List α} {l2 : List β}, List.Forall₂ R l1 l2 →
      ∀ a, a ∈ l1 → ∃ b, b ∈ l2 ∧ R a b := by
  intro l1
  induction l1 with
  | nil => intro l2 _ a ha; exact absurd ha (List.not_mem_nil a)
  | cons x rest ih =>
    intro l2 hf a ha
    cases hf with
    | cons hxy htl =>
      rename_i y l2'
      rcases List.mem_cons.mp ha with ha | ha
      · subst ha
        exact ⟨y, List.mem_cons_self y l2', hxy⟩
      · obtain ⟨b, hb, hr⟩ := ih htl a ha
        exact ⟨b, List.mem_cons_of_mem y hb, hr⟩

/-! ### The untrack walk's contract -/

/-- `TC` lists every proxy target on the heap, so every `getUntracked` lookup
lands in it. -/
def TargetsIn (h : Heap) (TC : List Nat) : Prop :=
  ∀ p, p ∈ h → ∀ t, p.2.untrackedOf = some t → t ∈ TC

theorem TargetsIn.of_untracked {h : Heap} {TC : List Nat} (htc : TargetsIn h TC)
    {c t : Nat} (hu : getUntrackedH h c = some t) : t ∈ TC := by
  unfold getUntrackedH at hu
  cases hg : AList.get h c with
  | none => rw [hg] at hu; cases hu
  | some nd =>
    rw [hg] at hu
    exact htc (c, nd) (get_mem hg) t (by simpa using hu)

theorem TargetsIn_ve {h1 h2 : Heap} {TC : List Nat} (hve : HeapVE h1 h2)
    (htc : TargetsIn h2 TC) : TargetsIn h1 TC := by
  intro p hp t ht
  obtain ⟨q, hq, hrel⟩ := forall2_mem_left hve p hp
  refine htc q hq t ?_
  rw [← hrel.2.2.1]
  exact ht

/-- The shape of the plain data sitting under every tracking proxy: a set of
plain, non-proxy nodes closed under their enumerable own properties.  The
snapshot slices that proxy-compare proxies wrap have this shape. -/
def PFSet (h : Heap) (TC : List Nat) : Prop :=
  ∀ m, m ∈ TC → getUntrackedH h m = none ∧
    ∀ k, k ∈ enumKeys (hfieldsOf h m) → ∀ fld, findHField (hfieldsOf h m) k = some fld →
      ∀ c, fld.value = .href c → c ∈ TC

/-- A property value the first untrack pass has finished with: a plain
reference goes to a visited node, a target, or off the heap; a proxy
reference can only have survived behind a non-writable property (the
replacing assignment was silently rejected). -/
def GoodField (h : Heap) (TC seen : List Nat) (fld : HField) : Prop :=
  (∀ c, fld.value = .href c → getUntrackedH h c = none →
    (c ∈ seen ∨ c ∈ TC ∨ AList.get h c = none)) ∧
  (∀ c t, fld.value = .href c → getUntrackedH h c = some t → fld.writable = false)

theorem GoodField_mono {h1 h2 : Heap} {TC s1 s2 : List Nat} {fld : HField}
    (hve : HeapVE h2 h1) (hs : s1 ⊆ s2) (hg : GoodField h1 TC s1 fld) :
    GoodField h2 TC s2 fld := by
  constructor
  · intro c hv hu
    rw [hve.untracked_eq_ve] at hu
    rcases hg.1 c hv hu with h | h | h
    · exact Or.inl (hs h)
    · exact Or.inr (Or.inl h)
    · refine Or.inr (Or.inr ?_)
      rw [hve.get_none_eq]
      exact h
  · intro c t hv hu
    rw [hve.untracked_eq_ve] at hu
    exact hg.2 c t hv hu

/-- A field the second pass provably leaves alone, relative to the node set
`S` it may re-walk. -/
def CleanField (h : Heap) (S : List Nat) (fld : HField) : Prop :=
  ∀ c, fld.value = .href c →
    (getUntrackedH h c = none → (c ∈ S ∨ AList.get h c = none)) ∧
    (∀ t, getUntrackedH h c = some t → fld.writable = false)

/-- Over `S`, every node is a plain non-proxy node whose enumerable own
properties the untrack walk will not rewrite. -/
def CleanSet (h : Heap) (S : List Nat) : Prop :=
  ∀ m, m ∈ S → getUntrackedH h m = none ∧
    ∀ k, k ∈ enumKeys (hfieldsOf h m) → ∀ fld, findHField (hfieldsOf h m) k = some fld →
      CleanField h S fld

/-- Replacing a proxy reference with its target (a `TC` member) keeps the
target-cone contract. -/
theorem PFSet_setFieldValue {h : Heap} {TC : List Nat} {tid : Nat} {k : String} {t : Nat}
    (hpf : PFSet h TC) (ht : t ∈ TC) :
    PFSet (setFieldValue h tid k (.href t)) TC := by
  intro m hm
  obtain ⟨hu, hks⟩ := hpf m hm
  have hve := setFieldValue_ve h tid k (.href t)
  refine ⟨by rw [hve.untracked_eq_ve]; exact hu, ?_⟩
  by_cases hmt : m = tid
  · subst hmt
    cases hg : AList.get h m with
    | none =>
      intro k2 hk2 fld hf c hv
      rw [show setFieldValue h m k (.href t) = h from by
        unfold setFieldValue updateNode; rw [hg]] at hk2 hf
      exact hks k2 hk2 fld hf c hv
    | some nd =>
      have hnd : nd.fields = hfieldsOf h m := by simp [hfieldsOf, hg]
      intro k2 hk2 fld hf c hv
      rw [show hfieldsOf (setFieldValue h m k (.href t)) m = setFieldVals nd.fields k (.href t)
            from by simp [hfieldsOf, setFieldValue_get_self k _ hg]] at hk2 hf
      rw [enumKeys_ve (setFieldVals_ve nd.fields k (.href t))] at hk2
      by_cases hkk : k2 = k
      · subst hkk
        rw [findHField_setFieldVals_self] at hf
        cases hfo : findHField nd.fields k2 with
        | none => rw [hfo] at hf; cases hf
        | some fld0 =>
          rw [hfo] at hf
          by_cases hw : fld0.writable = true
          · rw [show Option.map
                  (fun f => if f.writable then { f with value := HVal.href t } else f)
                  (some fld0) = some { fld0 with value := HVal.href t } from by
                simp [hw]] at hf
            cases hf
            rw [show HField.value { fld0 with value := HVal.href t } = HVal.href t
              from rfl] at hv
            injection hv with hvv
            rw [← hvv]
            exact ht
          · rw [show Option.map
                  (fun f => if f.writable then { f with value := HVal.href t } else f)
                  (some fld0) = some fld0 from by
                simp [hw]] at hf
            cases hf
            rw [hnd] at hk2 hfo
            exact hks k2 hk2 fld hfo c hv
      · rw [findHField_setFieldVals_ne _ _ hkk] at hf
        rw [hnd] at hk2 hf
        exact hks k2 hk2 fld hf c hv
  · intro k2 hk2 fld hf c hv
    rw [show hfieldsOf (setFieldValue h tid k (.href t)) m = hfieldsOf h m from by
      simp [hfieldsOf, setFieldValue_get_ne h tid k _ hmt]] at hk2 hf
    exact hks k2 hk2 fld hf c hv

/-! ### Unfolding lemmas for the untrack walk -/

theorem untrackGo_prim (fuel : Nat) (h : Heap) (seen : List Nat) (m : Int) :
    untrackGo fuel h seen (.hprim m) = (.hprim m, h, seen) := by
  cases fuel <;> rfl

theorem untrackGo_href (fuel : Nat) (h : Heap) (seen : List Nat) (c : Nat) :
    untrackGo fuel h seen (.href c) =
      match getUntrackedH h c with
      | some t => (.href t, h, seen)
      | none =>
        if seen.contains c then (.href c, h, seen)
        else
          match fuel with
          | 0 => (.href c, h, seen)
          | fuel' + 1 =>
            (.href c,
             (untrackFields (untrackGo fuel') c (enumKeys (hfieldsOf h c)) (h, c :: seen)).1,
             (untrackFields (untrackGo fuel') c (enumKeys (hfieldsOf h c)) (h, c :: seen)).2) := by
  cases fuel <;> simp only [untrackGo]

theorem untrackFields_cons (go : Heap → List Nat → HVal → HVal × Heap × List Nat)
    (tid : Nat) (k : String) (rest : List String) (h : Heap) (seen : List Nat) :
    untrackFields go tid (k :: rest) (h, seen) =
      match findHField (hfieldsOf h tid) k with
      | none => untrackFields go tid rest (h, seen)
      | some fld =>
        untrackFields go tid rest
          (if hvIs (go h seen fld.value).1 fld.value then (go h seen fld.value).2.1
           else setFieldValue (go h seen fld.value).2.1 tid k (go h seen fld.value).1,
           (go h seen fld.value).2.2) := by
  simp only [untrackFields]

/-! ### The second pass leaves a clean heap alone

On a heap whose relevant cone is `CleanSet`-clean, the untrack walk makes no
write: plain children are re-walked but every value compares `Object.is`-equal
(or the rejected assignment silently fails on a non-writable property), so the
heap comes back unchanged — for every fuel, since running out of fuel also
changes nothing. -/

theorem untrackFieldsNoop (go : Heap → List Nat → HVal → HVal × Heap × List Nat)
    (tid : Nat) (S : List Nat)
    (hgo : ∀ (h : Heap) (seen : List Nat) (v : HVal), CleanSet h S →
      (∀ c, v = .href c → getUntrackedH h c = none → (c ∈ S ∨ AList.get h c = none)) →
      (go h seen v).2.1 = h ∧
        ((go h seen v).1 = v ∨
          ∃ c t, v = .href c ∧ getUntrackedH h c = some t ∧ (go h seen v).1 = .href t)) :
    ∀ (keys : List String) (h : Heap) (seen : List Nat),
      CleanSet h S →
      (∀ k, k ∈ keys → ∀ fld, findHField (hfieldsOf h tid) k = some fld →
        CleanField h S fld) →
      (untrackFields go tid keys (h, seen)).1 = h := by
  intro keys
  induction keys with
  | nil => intro h seen _ _; rfl
  | cons k rest ih =>
    intro h seen hcl hks
    cases hfld : findHField (hfieldsOf h tid) k with
    | none =>
      simp only [untrackFields_cons go tid k rest h seen, hfld]
      exact ih h seen hcl (fun k' hk' => hks k' (List.mem_cons_of_mem k hk'))
    | some fld =>
      simp only [untrackFields_cons go tid k rest h seen, hfld]
      have hcf := hks k (List.mem_cons_self k rest) fld hfld
      obtain ⟨hg1, hg2⟩ := hgo h seen fld.value hcl (fun c hc => (hcf c hc).1)
      rcases hg2 with hsame | ⟨c, t, hvc, hut, hres⟩
      · rw [hsame, hvIs_refl fld.value, if_pos rfl, hg1]
        exact ih h _ hcl (fun k' hk' => hks k' (List.mem_cons_of_mem k hk'))
      · rw [hvc] at hg1 hres
        by_cases hct : t = c
        · subst hct
          rw [hvc, hres, hvIs_refl, if_pos rfl, hg1]
          exact ih h _ hcl (fun k' hk' => hks k' (List.mem_cons_of_mem k hk'))
        · have hne : hvIs (.href t) (.href c) = false := by
            simp only [hvIs, beq_eq_false_iff_ne]
            exact hct
          rw [hvc, hres, hne]
          rw [if_neg (by simp), hg1]
          rw [setFieldValue_frozen hfld ((hcf c hvc).2 t hut)]
          exact ih h _ hcl (fun k' hk' => hks k' (List.mem_cons_of_mem k hk'))

theorem untrackNoop : ∀ (fuel : Nat) (h : Heap) (seen : List Nat) (v : HVal) (S : List Nat),
    CleanSet h S →
    (∀ c, v = .href c → getUntrackedH h c = none → (c ∈ S ∨ AList.get h c = none)) →
    (untrackGo fuel h seen v).2.1 = h ∧
      ((untrackGo fuel h seen v).1 = v ∨
        ∃ c t, v = .href c ∧ getUntrackedH h c = some t ∧
          (untrackGo fuel h seen v).1 = .href t) := by
  intro fuel
  induction fuel with
  | zero =>
    intro h seen v S hcl hroot
    cases v with
    | hprim m =>
      rw [untrackGo_prim]
      exact ⟨rfl, Or.inl rfl⟩
    | href c =>
      rw [untrackGo_href]
      cases hu : getUntrackedH h c with
      | some t => exact ⟨rfl, Or.inr ⟨c, t, rfl, hu, rfl⟩⟩
      | none =>
        by_cases hsc : seen.contains c = true
        · rw [if_pos hsc]
          exact ⟨rfl, Or.inl rfl⟩
        · rw [if_neg hsc]
          exact ⟨rfl, Or.inl rfl⟩
  | succ fuel' ih =>
    intro h seen v S hcl hroot
    cases v with
    | hprim m =>
      rw [untrackGo_prim]
      exact ⟨rfl, Or.inl rfl⟩
    | href c =>
      rw [untrackGo_href]
      cases hu : getUntrackedH h c with
      | some t => exact ⟨rfl, Or.inr ⟨c, t, rfl, hu, rfl⟩⟩
      | none =>
        by_cases hsc : seen.contains c = true
        · rw [if_pos hsc]
          exact ⟨rfl, Or.inl rfl⟩
        · rw [if_neg hsc]
          have hloop :
              (untrackFields (untrackGo fuel') c (enumKeys (hfieldsOf h c)) (h, c :: seen)).1
                = h := by
            refine untrackFieldsNoop (untrackGo fuel') c S
              (fun h2 s2 v2 hc hr => ih h2 s2 v2 S hc hr)
              (enumKeys (hfieldsOf h c)) h (c :: seen) hcl ?_
            rcases hroot c rfl hu with hcs | hcn
            · exact fun k hk fld hf => (hcl c hcs).2 k hk fld hf
            · intro k hk fld hf
              rw [show hfieldsOf h c = [] from by simp [hfieldsOf, hcn]] at hk
              simp [enumKeys] at hk
          exact ⟨hloop, Or.inl rfl⟩

/-! ### The first pass: what one untrack call establishes

`UPost` is the contract of `untrack(x, seen)` against target list `TC`: the
heap is only rewritten at property values, the `seen` set only grows, nodes
already seen (or never seen) keep their records, every newly seen node's
enumerable own properties are `GoodField`-finished, target cones keep their
shape, and the returned value is `x` itself (plain or primitive) or the
proxy's target. -/

structure UPost (TC : List Nat) (h : Heap) (seen : List Nat) (v : HVal)
    (p : HVal × Heap × List Nat) : Prop where
  hve : HeapVE p.2.1 h
  hsub : seen ⊆ p.2.2
  hfrs : ∀ n, n ∈ seen → AList.get p.2.1 n = AList.get h n
  hfru : ∀ n, n ∉ p.2.2 → AList.get p.2.1 n = AList.get h n
  hnew : ∀ n, n ∈ p.2.2 → n ∉ seen →
    getUntrackedH h n = none ∧
      ∀ k, k ∈ enumKeys (hfieldsOf p.2.1 n) →
        ∀ fld, findHField (hfieldsOf p.2.1 n) k = some fld →
          GoodField p.2.1 TC p.2.2 fld
  hpf : PFSet p.2.1 TC
  hplain : ∀ c, v = .href c → getUntrackedH h c = none →
    p.1 = v ∧ (c ∈ p.2.2 ∨ AList.get h c = none)
  hprox : ∀ c t, v = .href c → getUntrackedH h c = some t → p.1 = .href t
  hprv : ∀ m, v = .hprim m → p.1 = v

theorem UPost_triv {TC : List Nat} {h : Heap} (seen : List Nat) (hpf : PFSet h TC)
    (v r : HVal)
    (h7 : ∀ c, v = .href c → getUntrackedH h c = none →
      r = v ∧ (c ∈ seen ∨ AList.get h c = none))
    (h8 : ∀ c t, v = .href c → getUntrackedH h c = some t → r = .href t)
    (h9 : ∀ m, v = .hprim m → r = v) :
    UPost TC h seen v (r, h, seen) :=
  ⟨HeapVE.refl_hv h, fun _ hx => hx, fun _ _ => rfl, fun _ _ => rfl,
   fun n hn hn' => absurd hn hn', hpf, h7, h8, h9⟩

/-- The loop-level contract: the loop's own target `tid` is already seen and
is the only seen node it rewrites; the keys it has walked are
`GoodField`-finished on `tid` and the others untouched. -/
structure LPost (TC : List Nat) (tid : Nat) (keys : List String) (h : Heap)
    (seen : List Nat) (q : Heap × List Nat) : Prop where
  hve : HeapVE q.1 h
  hsub : seen ⊆ q.2
  hfrs : ∀ n, n ∈ seen → n ≠ tid → AList.get q.1 n = AList.get h n
  hfru : ∀ n, n ∉ q.2 → AList.get q.1 n = AList.get h n
  hnew : ∀ n, n ∈ q.2 → n ∉ seen →
    getUntrackedH h n = none ∧
      ∀ k, k ∈ enumKeys (hfieldsOf q.1 n) →
        ∀ fld, findHField (hfieldsOf q.1 n) k = some fld → GoodField q.1 TC q.2 fld
  hpf : PFSet q.1 TC
  hdone : ∀ k, k ∈ keys → ∀ fld, findHField (hfieldsOf q.1 tid) k = some fld →
    GoodField q.1 TC q.2 fld
  hkfr : ∀ k, k ∉ keys → findHField (hfieldsOf q.1 tid) k = findHField (hfieldsOf h tid) k

theorem untrackFieldsSpec (go : Heap → List Nat → HVal → HVal × Heap × List Nat)
    (TC : List Nat) (fuelB : Nat)
    (hgo : ∀ (h : Heap) (seen : List Nat) (v : HVal),
      TargetsIn h TC → PFSet h TC → unvis (h.map Prod.fst) seen ≤ fuelB →
      UPost TC h seen v (go h seen v)) :
    ∀ (keys : List String) (h : Heap) (seen : List Nat) (tid : Nat),
      tid ∈ seen → TargetsIn h TC → PFSet h TC → unvis (h.map Prod.fst) seen ≤ fuelB →
      LPost TC tid keys h seen (untrackFields go tid keys (h, seen)) := by
  intro keys
  induction keys with
  | nil =>
    intro h seen tid htid htc hpf hsuf
    exact ⟨HeapVE.refl_hv h, fun _ hx => hx, fun _ _ _ => rfl, fun _ _ => rfl,
      fun n hn hn' => absurd hn hn', hpf,
      fun k hk => absurd hk (List.not_mem_nil k), fun _ _ => rfl⟩
  | cons k rest ih =>
    intro h seen tid htid htc hpf hsuf
    have hfin : ∀ (hm : Heap) (vm : List Nat), HeapVE hm h → seen ⊆ vm → tid ∈ vm →
        (∀ n, n ∈ seen → n ≠ tid → AList.get hm n = AList.get h n) →
        (∀ n, n ∉ vm → AList.get hm n = AList.get h n) →
        (∀ n, n ∈ vm → n ∉ seen →
          getUntrackedH h n = none ∧
            ∀ k2, k2 ∈ enumKeys (hfieldsOf hm n) →
              ∀ fld, findHField (hfieldsOf hm n) k2 = some fld → GoodField hm TC vm fld) →
        TargetsIn hm TC → PFSet hm TC →
        (∀ fld, findHField (hfieldsOf hm tid) k = some fld → GoodField hm TC vm fld) →
        (∀ k2, k2 ≠ k → findHField (hfieldsOf hm tid) k2 = findHField (hfieldsOf h tid) k2) →
        LPost TC tid (k :: rest) h seen (untrackFields go tid rest (hm, vm)) := by
      intro hm vm hve2 hsub2 htid2 hfrs2 hfru2 hnew2 htc2 hpf2 hpk hkfr2
      have hsuf2 : unvis (hm.map Prod.fst) vm ≤ fuelB := by
        rw [hve2.map_fst_ve]
        exact le_trans (unvis_mono _ hsub2) hsuf
      obtain ⟨qve, qsub, qfrs, qfru, qnew, qpf, qdone, qkfr⟩ :=
        ih hm vm tid htid2 htc2 hpf2 hsuf2
      refine ⟨qve.trans_hv hve2, fun x hx => qsub (hsub2 hx), ?_, ?_, ?_, qpf, ?_, ?_⟩
      · intro n hn hne
        rw [qfrs n (hsub2 hn) hne, hfrs2 n hn hne]
      · intro n hn
        have hnm : n ∉ vm := fun hx => hn (qsub hx)
        rw [qfru n hn, hfru2 n hnm]
      · intro n hn hn'
        by_cases hvm : n ∈ vm
        · have hnt : n ≠ tid := fun he => hn' (he ▸ htid)
          obtain ⟨hu2, hflds⟩ := hnew2 n hvm hn'
          refine ⟨hu2, ?_⟩
          have hfe : hfieldsOf (untrackFields go tid rest (hm, vm)).1 n = hfieldsOf hm n := by
            simp [hfieldsOf, qfrs n hvm hnt]
          rw [hfe]
          intro k2 hk2 fld hf2
          exact GoodField_mono qve qsub (hflds k2 hk2 fld hf2)
        · obtain ⟨hu2, hflds⟩ := qnew n hn hvm
          refine ⟨?_, hflds⟩
          rw [← hve2.untracked_eq_ve]
          exact hu2
      · intro k2 hk2 fld hf2
        rcases List.mem_cons.mp hk2 with hk2 | hk2
        · subst hk2
          by_cases hkr : k2 ∈ rest
          · exact qdone k2 hkr fld hf2
          · rw [qkfr k2 hkr] at hf2
            exact GoodField_mono qve qsub (hpk fld hf2)
        · exact qdone k2 hk2 fld hf2
      · intro k2 hk2
        have hk2k : k2 ≠ k := fun he => hk2 (by rw [he]; exact List.mem_cons_self k rest)
        have hk2r : k2 ∉ rest := fun hx => hk2 (List.mem_cons_of_mem k hx)
        rw [qkfr k2 hk2r, hkfr2 k2 hk2k]
    cases hfld : findHField (hfieldsOf h tid) k with
    | none =>
      simp only [untrackFields_cons go tid k rest h seen, hfld]
      exact hfin h seen (HeapVE.refl_hv h) (fun _ hx => hx) htid (fun _ _ _ => rfl)
        (fun _ _ => rfl) (fun n hn hn' => absurd hn hn') htc hpf
        (fun fld hf => by rw [hfld] at hf; cases hf) (fun _ _ => rfl)
    | some fld =>
      simp only [untrackFields_cons go tid k rest h seen, hfld]
      cases hfv : fld.value with
      | hprim m =>
        have hr := hgo h seen (.hprim m) htc hpf hsuf
        rw [hr.hprv m rfl, hvIs_refl, if_pos rfl]
        have hft : hfieldsOf (go h seen (.hprim m)).2.1 tid = hfieldsOf h tid := by
          simp [hfieldsOf, hr.hfrs tid htid]
        refine hfin (go h seen (.hprim m)).2.1 (go h seen (.hprim m)).2.2 hr.hve hr.hsub
          (hr.hsub htid) (fun n hn _ => hr.hfrs n hn) hr.hfru hr.hnew
          (TargetsIn_ve hr.hve htc) hr.hpf ?_ (fun k2 _ => by rw [hft])
        intro fld2 hf2
        rw [hft, hfld] at hf2
        cases hf2
        constructor
        · intro c2 hc2 _
          rw [hfv] at hc2
          cases hc2
        · intro c2 t2 hc2 _
          rw [hfv] at hc2
          cases hc2
      | href c =>
        cases hu : getUntrackedH h c with
        | none =>
          have hr := hgo h seen (.href c) htc hpf hsuf
          obtain ⟨hre, hcdisj⟩ := hr.hplain c rfl hu
          rw [hre, hvIs_refl, if_pos rfl]
          have hft : hfieldsOf (go h seen (.href c)).2.1 tid = hfieldsOf h tid := by
            simp [hfieldsOf, hr.hfrs tid htid]
          refine hfin (go h seen (.href c)).2.1 (go h seen (.href c)).2.2 hr.hve hr.hsub
            (hr.hsub htid) (fun n hn _ => hr.hfrs n hn) hr.hfru hr.hnew
            (TargetsIn_ve hr.hve htc) hr.hpf ?_ (fun k2 _ => by rw [hft])
          intro fld2 hf2
          rw [hft, hfld] at hf2
          cases hf2
          constructor
          · intro c2 hc2 _
            rw [hfv] at hc2
            injection hc2 with hcc
            subst hcc
            rcases hcdisj with hcs | hcn
            · exact Or.inl hcs
            · refine Or.inr (Or.inr ?_)
              rw [hr.hve.get_none_eq]
              exact hcn
          · intro c2 t2 hc2 hu2
            rw [hfv] at hc2
            injection hc2 with hcc
            subst hcc
            rw [hr.hve.untracked_eq_ve, hu] at hu2
            cases hu2
        | some t =>
          have hr := hgo h seen (.href c) htc hpf hsuf
          have hre := hr.hprox c t rfl hu
          have htmem : t ∈ TC := htc.of_untracked hu
          have hpft : getUntrackedH h t = none := (hpf t htmem).1
          have hct : ¬ (t = c) := by
            intro he
            rw [he] at hpft
            rw [hpft] at hu
            cases hu
          have hne : hvIs (.href t) (.href c) = false := by
            simp only [hvIs, beq_eq_false_iff_ne]
            exact hct
          rw [hre, hne, if_neg (by simp)]
          have hfrt : AList.get (go h seen (.href c)).2.1 tid = AList.get h tid :=
            hr.hfrs tid htid
          have hvew : HeapVE (setFieldValue (go h seen (.href c)).2.1 tid k (.href t))
              (go h seen (.href c)).2.1 := setFieldValue_ve _ tid k (.href t)
          refine hfin (setFieldValue (go h seen (.href c)).2.1 tid k (.href t))
            (go h seen (.href c)).2.2 (hvew.trans_hv hr.hve) hr.hsub (hr.hsub htid)
            ?_ ?_ ?_ (TargetsIn_ve (hvew.trans_hv hr.hve) htc)
            (PFSet_setFieldValue hr.hpf htmem) ?_ ?_
          · intro n hn hnt
            rw [setFieldValue_get_ne _ tid k _ hnt]
            exact hr.hfrs n hn
          · intro n hn
            have hnt : n ≠ tid := fun he => hn (he ▸ hr.hsub htid)
            rw [setFieldValue_get_ne _ tid k _ hnt]
            exact hr.hfru n hn
          · intro n hn hn'
            have hnt : n ≠ tid := fun he => hn' (he ▸ htid)
            obtain ⟨hu2, hflds⟩ := hr.hnew n hn hn'
            refine ⟨hu2, ?_⟩
            have hfe : hfieldsOf (setFieldValue (go h seen (.href c)).2.1 tid k (.href t)) n
                = hfieldsOf (go h seen (.href c)).2.1 n := by
              simp [hfieldsOf, setFieldValue_get_ne _ tid k _ hnt]
            rw [hfe]
            intro k2 hk2 fld2 hf2
            exact GoodField_mono hvew (fun _ hx => hx) (hflds k2 hk2 fld2 hf2)
          · -- the processed key on tid
            intro fld2 hf2
            cases hgt : AList.get h tid with
            | none =>
              rw [show hfieldsOf h tid = [] from by simp [hfieldsOf, hgt]] at hfld
              cases hfld
            | some nd =>
              have hgt1 : AList.get (go h seen (.href c)).2.1 tid = some nd := by
                rw [hfrt, hgt]
              rw [show hfieldsOf (setFieldValue (go h seen (.href c)).2.1 tid k (.href t)) tid
                    = setFieldVals nd.fields k (.href t)
                    from by simp [hfieldsOf, setFieldValue_get_self k _ hgt1]] at hf2
              rw [findHField_setFieldVals_self] at hf2
              rw [show findHField nd.fields k = some fld from by
                rw [show nd.fields = hfieldsOf h tid from by simp [hfieldsOf, hgt]]
                exact hfld] at hf2
              cases hw : fld.writable with
              | true =>
                rw [show Option.map
                      (fun f => if f.writable then { f with value := HVal.href t } else f)
                      (some fld) = some { fld with value := HVal.href t } from by
                    simp [hw]] at hf2
                cases hf2
                constructor
                · intro c2 hc2 _
                  rw [show HField.value { fld with value := HVal.href t } = HVal.href t
                    from rfl] at hc2
                  injection hc2 with hcc
                  subst hcc
                  exact Or.inr (Or.inl htmem)
                · intro c2 t2 hc2 hu2
                  rw [show HField.value { fld with value := HVal.href t } = HVal.href t
                    from rfl] at hc2
                  injection hc2 with hcc
                  subst hcc
                  rw [(hvew.trans_hv hr.hve).untracked_eq_ve, hpft] at hu2
                  cases hu2
              | false =>
                rw [show Option.map
                      (fun f => if f.writable then { f with value := HVal.href t } else f)
                      (some fld) = some fld from by
                    simp [hw]] at hf2
                cases hf2
                constructor
                · intro c2 hc2 hu2
                  rw [hfv] at hc2
                  injection hc2 with hcc
                  subst hcc
                  rw [(hvew.trans_hv hr.hve).untracked_eq_ve, hu] at hu2
                  cases hu2
                · intro c2 t2 hc2 _
                  exact hw
          · intro k2 hk2
            cases hgt : AList.get h tid with
            | none =>
              rw [show setFieldValue (go h seen (.href c)).2.1 tid k (.href t)
                    = (go h seen (.href c)).2.1 from by
                  unfold setFieldValue updateNode
                  rw [hfrt, hgt]]
              rw [show hfieldsOf (go h seen (.href c)).2.1 tid = hfieldsOf h tid from by
                simp [hfieldsOf, hfrt]]
            | some nd =>
              have hgt1 : AList.get (go h seen (.href c)).2.1 tid = some nd := by
                rw [hfrt, hgt]
              rw [show hfieldsOf (setFieldValue (go h seen (.href c)).2.1 tid k (.href t)) tid
                    = setFieldVals nd.fields k (.href t)
                    from by simp [hfieldsOf, setFieldValue_get_self k _ hgt1]]
              rw [findHField_setFieldVals_ne _ _ hk2]
              rw [show nd.fields = hfieldsOf h tid from by simp [hfieldsOf, hgt]]

theorem untrackSpec : ∀ (fuel : Nat) (TC : List Nat) (h : Heap) (seen : List Nat) (v : HVal),
    TargetsIn h TC → PFSet h TC → unvis (h.map Prod.fst) seen ≤ fuel →
    UPost TC h seen v (untrackGo fuel h seen v) := by
  intro fuel
  induction fuel with
  | zero =>
    intro TC h seen v htc hpf hsuf
    cases v with
    | hprim m =>
      rw [untrackGo_prim]
      exact UPost_triv seen hpf _ _ (fun c hc => by cases hc) (fun c t hc => by cases hc)
        (fun m2 _ => rfl)
    | href c =>
      rw [untrackGo_href]
      cases hu : getUntrackedH h c with
      | some t =>
        exact UPost_triv seen hpf _ _
          (fun c2 hc2 hu2 => by
            injection hc2 with hcc
            subst hcc
            rw [hu] at hu2
            cases hu2)
          (fun c2 t2 hc2 hu2 => by
            injection hc2 with hcc
            subst hcc
            rw [hu] at hu2
            injection hu2 with htt
            rw [htt])
          (fun m hc => by cases hc)
      | none =>
        by_cases hsc : seen.contains c = true
        · rw [if_pos hsc]
          exact UPost_triv seen hpf _ _
            (fun c2 hc2 _ => by
              injection hc2 with hcc
              subst hcc
              exact ⟨rfl, Or.inl (List.elem_iff.mp hsc)⟩)
            (fun c2 t2 hc2 hu2 => by
              injection hc2 with hcc
              subst hcc
              rw [hu] at hu2
              cases hu2)
            (fun m hc => by cases hc)
        · rw [if_neg hsc]
          exact UPost_triv seen hpf _ _
            (fun c2 hc2 _ => by
              injection hc2 with hcc
              subst hcc
              refine ⟨rfl, ?_⟩
              cases hgc : AList.get h c with
              | none => exact Or.inr rfl
              | some nd =>
                exfalso
                have h1 := unvis_cons_lt (get_some_mem_fst hgc)
                  (fun hm => hsc (List.elem_iff.mpr hm))
                omega)
            (fun c2 t2 hc2 hu2 => by
              injection hc2 with hcc
              subst hcc
              rw [hu] at hu2
              cases hu2)
            (fun m hc => by cases hc)
  | succ fuel' ih =>
    intro TC h seen v htc hpf hsuf
    cases v with
    | hprim m =>
      rw [untrackGo_prim]
      exact UPost_triv seen hpf _ _ (fun c hc => by cases hc) (fun c t hc => by cases hc)
        (fun m2 _ => rfl)
    | href c =>
      rw [untrackGo_href]
      cases hu : getUntrackedH h c with
      | some t =>
        exact UPost_triv seen hpf _ _
          (fun c2 hc2 hu2 => by
            injection hc2 with hcc
            subst hcc
            rw [hu] at hu2
            cases hu2)
          (fun c2 t2 hc2 hu2 => by
            injection hc2 with hcc
            subst hcc
            rw [hu] at hu2
            injection hu2 with htt
            rw [htt])
          (fun m hc => by cases hc)
      | none =>
        by_cases hsc : seen.contains c = true
        · rw [if_pos hsc]
          exact UPost_triv seen hpf _ _
            (fun c2 hc2 _ => by
              injection hc2 with hcc
              subst hcc
              exact ⟨rfl, Or.inl (List.elem_iff.mp hsc)⟩)
            (fun c2 t2 hc2 hu2 => by
              injection hc2 with hcc
              subst hcc
              rw [hu] at hu2
              cases hu2)
            (fun m hc => by cases hc)
        · rw [if_neg hsc]
          have hcs : c ∉ seen := fun hm => hsc (List.elem_iff.mpr hm)
          cases hgc : AList.get h c with
          | none =>
            rw [show hfieldsOf h c = [] from by simp [hfieldsOf, hgc]]
            refine ⟨HeapVE.refl_hv h, fun x hx => List.mem_cons_of_mem c hx,
              fun _ _ => rfl, fun _ _ => rfl, ?_, hpf, ?_, ?_, ?_⟩
            · intro n hn hn'
              have hn2 : n ∈ c :: seen := hn
              rcases List.mem_cons.mp hn2 with he | he
              · subst he
                refine ⟨hu, ?_⟩
                intro k hk
                have hk2 : k ∈ enumKeys (hfieldsOf h n) := hk
                rw [show hfieldsOf h n = [] from by simp [hfieldsOf, hgc]] at hk2
                simp [enumKeys] at hk2
              · exact absurd he hn'
            · intro c2 hc2 _
              injection hc2 with hcc
              subst hcc
              exact ⟨rfl, Or.inl (List.mem_cons_self c seen)⟩
            · intro c2 t2 hc2 hu2
              injection hc2 with hcc
              subst hcc
              rw [hu] at hu2
              cases hu2
            · intro m hc
              cases hc
          | some nd =>
            have hsuf' : unvis (h.map Prod.fst) (c :: seen) ≤ fuel' := by
              have h1 := unvis_cons_lt (get_some_mem_fst hgc) hcs
              omega
            obtain ⟨qve, qsub, qfrs, qfru, qnew, qpf, qdone, qkfr⟩ :=
              untrackFieldsSpec (untrackGo fuel') TC fuel'
                (fun h2 s2 v2 a b cc => ih TC h2 s2 v2 a b cc)
                (enumKeys (hfieldsOf h c)) h (c :: seen) c (List.mem_cons_self c seen)
                htc hpf hsuf'
            refine ⟨qve, fun x hx => qsub (List.mem_cons_of_mem c hx), ?_, qfru, ?_, qpf,
              ?_, ?_, ?_⟩
            · intro n hn
              exact qfrs n (List.mem_cons_of_mem c hn) (fun he => hcs (he ▸ hn))
            · intro n hn hn'
              by_cases hnc : n = c
              · subst hnc
                refine ⟨hu, ?_⟩
                have hek : enumKeys (hfieldsOf
                    (untrackFields (untrackGo fuel') n (enumKeys (hfieldsOf h n))
                      (h, n :: seen)).1 n) = enumKeys (hfieldsOf h n) :=
                  enumKeys_ve (qve.fields_rel_ve n)
                rw [hek]
                exact fun k hk fld hf => qdone k hk fld hf
              · refine (qnew n hn ?_)
                intro hm
                rcases List.mem_cons.mp hm with he | he
                · exact hnc he
                · exact hn' he
            · intro c2 hc2 _
              injection hc2 with hcc
              subst hcc
              exact ⟨rfl, Or.inl (qsub (List.mem_cons_self c seen))⟩
            · intro c2 t2 hc2 hu2
              injection hc2 with hcc
              subst hcc
              rw [hu] at hu2
              cases hu2
            · intro m hc
              cases hc

/-- A cyclic drafted value: nodes 10 and 11 reference each other
(`v.a.b === v`, hence `v.a.b.a === v.a`), and `v.c` holds a proxy-compare
tracking proxy (node 12) over the plain target node 13. -/
def cycHeap : Heap :=
  [(10, ⟨.plain, [⟨"a", .href 11, true, true, true⟩, ⟨"c", .href 12, true, true, true⟩], none⟩),
   (11, ⟨.plain, [⟨"b", .href 10, true, true, true⟩], none⟩),
   (12, ⟨.plain, [], some 13⟩),
   (13, ⟨.plain, [], none⟩)]

/-- `cycHeap` after one untrack pass: only the proxy reference at `10.c` was
replaced by its target 13; the 10 ↔ 11 cycle is intact. -/
def cycHeapU : Heap :=
  [(10, ⟨.plain, [⟨"a", .href 11, true, true, true⟩, ⟨"c", .href 13, true, true, true⟩], none⟩),
   (11, ⟨.plain, [⟨"b", .href 10, true, true, true⟩], none⟩),
   (12, ⟨.plain, [], some 13⟩),
   (13, ⟨.plain, [], none⟩)]

/-- C8.  Undrafting is idempotent and cycle-safe.  General part: on any heap
whose tracking-proxy targets are listed in some `TC` of plain proxy-free
cones (the shape of the snapshot slices proxy-compare wraps), running
`untrack` a second time — with any recursion budget at all — returns the
same value and leaves the heap exactly as the first run left it.  Concrete
part: on the cyclic value `v` with `v.a.b === v` and a tracking proxy at
`v.c`, the walk terminates (it is a total function evaluated here by the
kernel), replaces only the proxy by its target, is idempotent, and preserves
the cycle: `v.a` is node 11 and `v.a.b` is node 10 again. -/
theorem undraft_idempotent_and_cycle_safe :
    (∀ (fuel : Nat) (TC : List Nat) (h : Heap) (v : HVal),
      TargetsIn h TC → PFSet h TC → unvis (h.map Prod.fst) [] ≤ fuel →
      ∀ (fuel2 : Nat),
        (untrackGo fuel2 (untrackGo fuel h [] v).2.1 [] (untrackGo fuel h [] v).1).1
          = (untrackGo fuel h [] v).1 ∧
        (untrackGo fuel2 (untrackGo fuel h [] v).2.1 [] (untrackGo fuel h [] v).1).2.1
          = (untrackGo fuel h [] v).2.1) ∧
    untrackH 5 cycHeap (.href 10) = (.href 10, cycHeapU) ∧
    untrackH 5 cycHeapU (.href 10) = (.href 10, cycHeapU) ∧
    findHField (hfieldsOf cycHeapU 10) "a" = some ⟨"a", .href 11, true, true, true⟩ ∧
    findHField (hfieldsOf cycHeapU 11) "b" = some ⟨"b", .href 10, true, true, true⟩ ∧
    findHField (hfieldsOf cycHeapU 10) "c" = some ⟨"c", .href 13, true, true, true⟩ := by
  refine ⟨?_, by decide, by decide, by decide, by decide, by decide⟩
  intro fuel TC h v htc hpf hsuf fuel2
  have hspec := untrackSpec fuel TC h [] v htc hpf hsuf
  have hclean : CleanSet (untrackGo fuel h [] v).2.1
      ((untrackGo fuel h [] v).2.2 ++ TC) := by
    intro m hm
    rcases List.mem_append.mp hm with hm2 | hm2
    · obtain ⟨huh, hkeys⟩ := hspec.hnew m hm2 (List.not_mem_nil m)
      refine ⟨by rw [hspec.hve.untracked_eq_ve]; exact huh, ?_⟩
      intro k hk fld hf
      have hg := hkeys k hk fld hf
      intro c hvc
      constructor
      · intro hu
        rcases hg.1 c hvc hu with h1 | h1 | h1
        · exact Or.inl (List.mem_append_left TC h1)
        · exact Or.inl (List.mem_append_right _ h1)
        · exact Or.inr h1
      · intro t hu
        exact hg.2 c t hvc hu
    · obtain ⟨huh, hkeys⟩ := hspec.hpf m hm2
      refine ⟨huh, ?_⟩
      intro k hk fld hf c hvc
      have hcTC := hkeys k hk fld hf c hvc
      constructor
      · intro _
        exact Or.inl (List.mem_append_right _ hcTC)
      · intro t hu
        rw [(hspec.hpf c hcTC).1] at hu
        cases hu
  have hroot : ∀ c, (untrackGo fuel h [] v).1 = .href c →
      getUntrackedH (untrackGo fuel h [] v).2.1 c = none →
      (c ∈ (untrackGo fuel h [] v).2.2 ++ TC ∨
        AList.get (untrackGo fuel h [] v).2.1 c = none) := by
    intro c hc _
    cases v with
    | hprim m =>
      rw [hspec.hprv m rfl] at hc
      cases hc
    | href c0 =>
      cases hu0 : getUntrackedH h c0 with
      | none =>
        obtain ⟨hp1, hdisj⟩ := hspec.hplain c0 rfl hu0
        rw [hp1] at hc
        injection hc with hcc
        subst hcc
        rcases hdisj with h1 | h1
        · exact Or.inl (List.mem_append_left TC h1)
        · refine Or.inr ?_
          rw [hspec.hve.get_none_eq]
          exact h1
      | some t =>
        have hp1 := hspec.hprox c0 t rfl hu0
        rw [hp1] at hc
        injection hc with hcc
        subst hcc
        exact Or.inl (List.mem_append_right _ (htc.of_untracked hu0))
  obtain ⟨hheap, hres⟩ := untrackNoop fuel2 (untrackGo fuel h [] v).2.1 []
    (untrackGo fuel h [] v).1 ((untrackGo fuel h [] v).2.2 ++ TC) hclean hroot
  refine ⟨?_, hheap⟩
  rcases hres with h1 | ⟨c, t, hc, hut, hr2⟩
  · exact h1
  · exfalso
    cases v with
    | hprim m =>
      rw [hspec.hprv m rfl] at hc
      cases hc
    | href c0 =>
      cases hu0 : getUntrackedH h c0 with
      | none =>
        obtain ⟨hp1, _⟩ := hspec.hplain c0 rfl hu0
        rw [hp1] at hc
        injection hc with hcc
        subst hcc
        rw [hspec.hve.untracked_eq_ve, hu0] at hut
        cases hut
      | some t0 =>
        have hp1 := hspec.hprox c0 t0 rfl hu0
        rw [hp1] at hc
        injection hc with hcc
        subst hcc
        rw [(hspec.hpf _ (htc.of_untracked hu0)).1] at hut
        cases hut

theorem undraft_idempotent_and_cycle_safe_witness :
    TargetsIn cycHeap [13] ∧ PFSet cycHeap [13] ∧
      unvis (cycHeap.map Prod.fst) [] ≤ 5 ∧
      (untrackGo 3 (untrackGo 5 cycHeap [] (.href 10)).2.1 []
        (untrackGo 5 cycHeap [] (.href 10)).1).1 = (untrackGo 5 cycHeap [] (.href 10)).1 ∧
      (untrackGo 3 (untrackGo 5 cycHeap [] (.href 10)).2.1 []
        (untrackGo 5 cycHeap [] (.href 10)).1).2.1
        = (untrackGo 5 cycHeap [] (.href 10)).2.1 := by
  have htc : TargetsIn cycHeap [13] := by
    intro p hp t ht
    rcases List.mem_cons.mp hp with h1 | hp
    · rw [h1] at ht; cases ht
    rcases List.mem_cons.mp hp with h1 | hp
    · rw [h1] at ht; cases ht
    rcases List.mem_cons.mp hp with h1 | hp
    · rw [h1] at ht
      injection ht with htt
      rw [← htt]
      exact List.mem_cons_self 13 []
    rcases List.mem_cons.mp hp with h1 | hp
    · rw [h1] at ht; cases ht
    · exact absurd hp (List.not_mem_nil p)
  have hpf : PFSet cycHeap [13] := by
    intro m hm
    rcases List.mem_cons.mp hm with h1 | hm
    · subst h1
      refine ⟨rfl, ?_⟩
      intro k hk
      rw [show enumKeys (hfieldsOf cycHeap 13) = [] from rfl] at hk
      exact absurd hk (List.not_mem_nil k)
    · exact absurd hm (List.not_mem_nil m)
  exact ⟨htc, hpf, by decide,
    (undraft_idempotent_and_cycle_safe.1 5 [13] cycHeap (.href 10) htc hpf (by decide) 3).1,
    (undraft_idempotent_and_cycle_safe.1 5 [13] cycHeap (.href 10) htc hpf (by decide) 3).2⟩

end Troza
